import Mathlib

/-!
Verification development for the `context_manager` repository.

The Rust sources are shallowly embedded: each Rust function used by a claim is
translated into a Lean definition of the same name (module by module), and the
claims are settled as theorems about those definitions.

Conventions used throughout:
* filesystem paths are represented as lists of components (`List String`);
* text manipulated by the document generator is represented as `List Char`
  so that searching/splicing can be reasoned about positionally;
* the contents of the disk are an association list `FS` from paths to text;
* functions whose Rust counterpart recurses through an index arena receive an
  explicit fuel argument; the wrappers pass the arena size, which is shown to
  be sufficient on well-formed arenas (the Rust recursion terminates for the
  same structural reason).
-/

namespace ContextManager

/-! ## `ui_tree_handler.rs`: data model -/

/-- `SelectionState` from `ui_tree_handler.rs`. -/
inductive SelectionState where
  | Unselected
  | Selected
  | PartiallySelected
deriving DecidableEq, Repr

/-- `FileNode` from `file_handler.rs` (`name`, `path`, `is_dir`, `children`).
Paths are lists of components standing for canonical absolute paths. -/
inductive FileNode where
  | mk : String → List String → Bool → List FileNode → FileNode

def FileNode.name : FileNode → String
  | .mk n _ _ _ => n

def FileNode.path : FileNode → List String
  | .mk _ p _ _ => p

def FileNode.is_dir : FileNode → Bool
  | .mk _ _ d _ => d

def FileNode.children : FileNode → List FileNode
  | .mk _ _ _ c => c

/-- `UITreeNode` from `ui_tree_handler.rs`.  The `egui::Id` field is omitted
(it is derived from the path and never inspected by the selection logic). -/
structure UITreeNode where
  file_node_path : List String
  display_name : String
  is_dir : Bool
  selected_state : SelectionState
  expanded : Bool
  children_indices : List Nat
  parent_index : Option Nat
deriving DecidableEq, Repr

/-- `UITreeHandler` from `ui_tree_handler.rs`.  `path_to_index` is omitted:
it is only used by UI code, never by the selection operations under test. -/
structure UITreeHandler where
  tree_nodes : List UITreeNode
  selected_files : List (List String)
deriving DecidableEq, Repr

/-- `UITreeHandler::new`. -/
def UITreeHandler.new : UITreeHandler :=
  { tree_nodes := [], selected_files := [] }

/-! Accessors for the arena.  The Rust code indexes `self.tree_nodes[i]`
directly (panicking when out of bounds); the accessors below return a default
out of bounds, and claim C10 shows reachable states never index out of
bounds. -/

def childrenAt (ns : List UITreeNode) (i : Nat) : List Nat :=
  match ns.get? i with
  | some nd => nd.children_indices
  | none => []

def parentAt (ns : List UITreeNode) (i : Nat) : Option Nat :=
  match ns.get? i with
  | some nd => nd.parent_index
  | none => none

def isDirAt (ns : List UITreeNode) (i : Nat) : Bool :=
  match ns.get? i with
  | some nd => nd.is_dir
  | none => false

def stateAt (ns : List UITreeNode) (i : Nat) : SelectionState :=
  match ns.get? i with
  | some nd => nd.selected_state
  | none => .Unselected

/-- `self.tree_nodes[i].selected_state = s` (out of bounds: no-op, matching
`List.set`). -/
def setState (ns : List UITreeNode) (i : Nat) (s : SelectionState) : List UITreeNode :=
  match ns.get? i with
  | some nd => ns.set i { nd with selected_state := s }
  | none => ns

/-! ## `ui_tree_handler.rs`: building the arena (`build_tree_recursive`) -/

/-- `self.tree_nodes[node_index].children_indices = children_indices` from
`build_tree_recursive` (out of bounds: no-op, matching `List.set`). -/
def setChildrenIndices (ns : List UITreeNode) (i : Nat) (cis : List Nat) :
    List UITreeNode :=
  match ns.get? i with
  | some nd => ns.set i { nd with children_indices := cis }
  | none => ns

mutual

/-- `UITreeHandler::build_tree_recursive`: appends the pre-order layout of
`node` to `acc`, returning the new arena and the index of `node`. -/
def buildNode (sel : List (List String)) : FileNode → Option Nat → List UITreeNode →
    List UITreeNode × Nat
  | .mk name path dir children, parent_index, acc =>
    let node_index := acc.length
    let ui : UITreeNode :=
      { file_node_path := path
        display_name := name
        is_dir := dir
        selected_state := if sel.contains path then .Selected else .Unselected
        expanded := false
        children_indices := []
        parent_index := parent_index }
    let st := buildKids sel children node_index (acc ++ [ui])
    (setChildrenIndices st.1 node_index st.2, node_index)

/-- The child loop of `build_tree_recursive`, collecting children indices. -/
def buildKids (sel : List (List String)) : List FileNode → Nat → List UITreeNode →
    List UITreeNode × List Nat
  | [], _, acc => (acc, [])
  | c :: rest, pidx, acc =>
    let r := buildNode sel c (some pidx) acc
    let r2 := buildKids sel rest pidx r.1
    (r2.1, r.2 :: r2.2)

end

/-! ## `ui_tree_handler.rs`: selection operations -/

/-- `propagate_selection_to_children`, with fuel standing for the recursion
depth available (the Rust recursion is bounded by the tree height). -/
def propagate_selection_to_children :
    Nat → List UITreeNode → Nat → SelectionState → List UITreeNode
  | 0, ns, _, _ => ns
  | fuel + 1, ns, node_index, state =>
    (childrenAt ns node_index).foldl
      (fun acc child_index =>
        let acc1 := setState acc child_index state
        if isDirAt acc1 child_index then
          propagate_selection_to_children fuel acc1 child_index state
        else acc1)
      ns

/-- `update_parent_selection_state`, fueled by the maximal ancestor-chain
length.  `all_selected` / `all_unselected` are the two flags of the Rust
loop: a `Selected` child clears `all_unselected`, an `Unselected` child
clears `all_selected`, a `PartiallySelected` child clears both; so the final
flags are exactly the two `List.all` expressions below. -/
def update_parent_selection_state :
    Nat → List UITreeNode → Nat → List UITreeNode
  | 0, ns, _ => ns
  | fuel + 1, ns, parent_index =>
    let cis := childrenAt ns parent_index
    if cis.isEmpty then ns
    else
      let all_selected := cis.all fun ci => stateAt ns ci == .Selected
      let all_unselected := cis.all fun ci => stateAt ns ci == .Unselected
      let new_state : SelectionState :=
        if all_selected then .Selected
        else if all_unselected then .Unselected
        else .PartiallySelected
      let ns1 := setState ns parent_index new_state
      match parentAt ns1 parent_index with
      | some gp => update_parent_selection_state fuel ns1 gp
      | none => ns1

/-- `toggle_node_selection`.  Out-of-bounds indices (which would panic in
Rust) leave the handler unchanged; all claims quantify over valid indices. -/
def toggle_node_selection (h : UITreeHandler) (node_index : Nat) : UITreeHandler :=
  match h.tree_nodes.get? node_index with
  | none => h
  | some nd =>
    let new_state : SelectionState :=
      match nd.selected_state with
      | .Selected => .Unselected
      | .Unselected => .Selected
      | .PartiallySelected => .Selected
    let n := h.tree_nodes.length
    let ns1 := setState h.tree_nodes node_index new_state
    let ns2 :=
      if nd.is_dir then propagate_selection_to_children n ns1 node_index new_state
      else ns1
    let ns3 :=
      match nd.parent_index with
      | some p => update_parent_selection_state n ns2 p
      | none => ns2
    { h with tree_nodes := ns3 }

/-- `update_all_selection_states`: collect the leaf indices, then update the
parent chain of each leaf. -/
def update_all_selection_states (ns : List UITreeNode) : List UITreeNode :=
  let leaf_indices := (List.range ns.length).filter fun i => (childrenAt ns i).isEmpty
  leaf_indices.foldl
    (fun acc leaf_index =>
      match parentAt acc leaf_index with
      | some p => update_parent_selection_state ns.length acc p
      | none => acc)
    ns

/-- `build_from_file_node` (on a fresh handler the retained
`selected_files` set is empty). -/
def build_from_file_node (h : UITreeHandler) (root : FileNode) : UITreeHandler :=
  let ns := (buildNode h.selected_files root none []).1
  { h with tree_nodes := update_all_selection_states ns }

/-- A sequence of toggle calls. -/
def applyToggles (h : UITreeHandler) (ts : List Nat) : UITreeHandler :=
  ts.foldl toggle_node_selection h

/-! ## Specification-side vocabulary for the selection model

The following definitions are not translations of Rust code; they provide the
vocabulary (descendant relation, ancestor chain, aggregation of child states,
well-formedness of the index arena) in which the claims about the selection
model are stated. -/

/-- `j` is a strict descendant of `i` in the arena (reachable through
`children_indices`), computed with explicit fuel. -/
def descendantB : Nat → List UITreeNode → Nat → Nat → Bool
  | 0, _, _, _ => false
  | fuel + 1, ns, i, j =>
    (childrenAt ns i).any fun c => c == j || descendantB fuel ns c j

/-- `a` lies on the parent chain starting at `p` (inclusive), computed with
explicit fuel. -/
def inChainB : Nat → List UITreeNode → Nat → Nat → Bool
  | 0, _, _, _ => false
  | fuel + 1, ns, p, a =>
    a == p ||
      match parentAt ns p with
      | some q => inChainB fuel ns q a
      | none => false

/-- `j` is a strict descendant of `i` (fuel fixed to the arena size, which
suffices on well-formed arenas). -/
def Desc (ns : List UITreeNode) (i j : Nat) : Prop :=
  descendantB ns.length ns i j = true

/-- `a` is `p` or a strict ancestor of `p`. -/
def Chain (ns : List UITreeNode) (p a : Nat) : Prop :=
  inChainB ns.length ns p a = true

/-- The aggregation rule of `update_parent_selection_state` as a function of
the children's states. -/
def aggState (l : List SelectionState) : SelectionState :=
  if l.all (· == .Selected) then .Selected
  else if l.all (· == .Unselected) then .Unselected
  else .PartiallySelected

/-- The flip rule of `toggle_node_selection`. -/
def flipState : SelectionState → SelectionState
  | .Selected => .Unselected
  | .Unselected => .Selected
  | .PartiallySelected => .Selected

/-- Arena well-formedness: children indices are in bounds and point back via
`parent_index`; parents are below their children and list them. -/
def WfA (ns : List UITreeNode) : Prop :=
  (∀ i, i < ns.length → ∀ c ∈ childrenAt ns i, i < c ∧ c < ns.length ∧ parentAt ns c = some i) ∧
  (∀ j p, j < ns.length → parentAt ns j = some p → p < j ∧ j ∈ childrenAt ns p)

/-- Decidable version of `WfA`. -/
def wfArenaB (ns : List UITreeNode) : Bool :=
  ((List.range ns.length).all fun i =>
    (childrenAt ns i).all fun c =>
      decide (i < c) && decide (c < ns.length) && (parentAt ns c == some i)) &&
  ((List.range ns.length).all fun j =>
    match parentAt ns j with
    | none => true
    | some p => decide (p < j) && (childrenAt ns p).contains j)

/-- Every file (non-directory) node has no children. -/
def FilesChildlessA (ns : List UITreeNode) : Prop :=
  ∀ i, isDirAt ns i = false → childrenAt ns i = []

/-- Every directory node has at least one child. -/
def DirsNonemptyA (ns : List UITreeNode) : Prop :=
  ∀ i, i < ns.length → isDirAt ns i = true → childrenAt ns i ≠ []

/-- The selection-consistency invariant: every directory's state is the
aggregation of its children's states. -/
def InvA (ns : List UITreeNode) : Prop :=
  ∀ i, i < ns.length → isDirAt ns i = true → childrenAt ns i ≠ [] →
    stateAt ns i = aggState ((childrenAt ns i).map (stateAt ns))

mutual

/-- Tree well-formedness (`FileTreeNode` invariant from the spec's data
model): only directories carry children. -/
def filesChildless : FileNode → Bool
  | .mk _ _ dir children => (dir || children.isEmpty) && filesChildlessL children

def filesChildlessL : List FileNode → Bool
  | [] => true
  | c :: rest => filesChildless c && filesChildlessL rest

end

mutual

/-- Every directory of the tree has at least one child (the side condition of
the amended claim C2). -/
def dirsNonempty : FileNode → Bool
  | .mk _ _ dir children => (!dir || !children.isEmpty) && dirsNonemptyL children

def dirsNonemptyL : List FileNode → Bool
  | [] => true
  | c :: rest => dirsNonempty c && dirsNonemptyL rest

end

/-! ## Basic lemmas about the arena operations -/

theorem get?_setState (ns : List UITreeNode) (i j : Nat) (s : SelectionState) :
    (setState ns i s).get? j =
      if i = j ∧ i < ns.length then
        (ns.get? i).map fun nd => { nd with selected_state := s }
      else ns.get? j := by
  unfold setState
  cases h : ns.get? i with
  | none =>
    have : ns.length ≤ i := List.get?_eq_none.mp h
    simp only [h]
    split
    · omega
    · rfl
  | some nd =>
    have hi : i < ns.length := (List.get?_eq_some.mp h).1
    rw [List.get?_set_of_lt' _ _ hi]
    split
    · next heq => subst heq; simp [h, hi]
    · next hne =>
      split
      · next hc => exact absurd hc.1 hne
      · rfl

theorem length_setState (ns : List UITreeNode) (i : Nat) (s : SelectionState) :
    (setState ns i s).length = ns.length := by
  unfold setState
  cases h : ns.get? i <;> simp

theorem childrenAt_setState (ns : List UITreeNode) (i j : Nat) (s : SelectionState) :
    childrenAt (setState ns i s) j = childrenAt ns j := by
  unfold childrenAt
  rw [get?_setState]
  by_cases hij : i = j ∧ i < ns.length
  · obtain ⟨rfl, hi⟩ := hij
    rw [if_pos ⟨rfl, hi⟩]
    cases hn : ns.get? i <;> simp [hn]
  · rw [if_neg hij]

theorem parentAt_setState (ns : List UITreeNode) (i j : Nat) (s : SelectionState) :
    parentAt (setState ns i s) j = parentAt ns j := by
  unfold parentAt
  rw [get?_setState]
  by_cases hij : i = j ∧ i < ns.length
  · obtain ⟨rfl, hi⟩ := hij
    rw [if_pos ⟨rfl, hi⟩]
    cases hn : ns.get? i <;> simp [hn]
  · rw [if_neg hij]

theorem isDirAt_setState (ns : List UITreeNode) (i j : Nat) (s : SelectionState) :
    isDirAt (setState ns i s) j = isDirAt ns j := by
  unfold isDirAt
  rw [get?_setState]
  by_cases hij : i = j ∧ i < ns.length
  · obtain ⟨rfl, hi⟩ := hij
    rw [if_pos ⟨rfl, hi⟩]
    cases hn : ns.get? i <;> simp [hn]
  · rw [if_neg hij]

theorem stateAt_setState (ns : List UITreeNode) (i j : Nat) (s : SelectionState) :
    stateAt (setState ns i s) j =
      if j = i ∧ i < ns.length then s else stateAt ns j := by
  unfold stateAt
  rw [get?_setState]
  rcases eq_or_ne i j with rfl | hne
  · by_cases hi : i < ns.length
    · simp only [hi, and_true, if_pos rfl]
      cases hn : ns.get? i with
      | none => exact absurd (List.get?_eq_none.mp hn) (by omega)
      | some nd => simp
    · simp [hi]
  · simp [hne, Ne.symm hne]

theorem stateAt_setState_self (ns : List UITreeNode) (i : Nat) (s : SelectionState)
    (hi : i < ns.length) : stateAt (setState ns i s) i = s := by
  rw [stateAt_setState]
  simp [hi]

theorem stateAt_setState_ne (ns : List UITreeNode) (i j : Nat) (s : SelectionState)
    (hne : j ≠ i) : stateAt (setState ns i s) j = stateAt ns j := by
  rw [stateAt_setState]
  simp [hne]

/-- Two arenas with the same skeleton (everything but the mutable
`selected_state`). -/
def SkelEq (ns ms : List UITreeNode) : Prop :=
  ns.length = ms.length ∧
  ∀ j, childrenAt ns j = childrenAt ms j ∧ parentAt ns j = parentAt ms j ∧
    isDirAt ns j = isDirAt ms j

theorem SkelEq.refl (ns : List UITreeNode) : SkelEq ns ns :=
  ⟨rfl, fun _ => ⟨rfl, rfl, rfl⟩⟩

theorem SkelEq.trans {ns ms ks : List UITreeNode} (h1 : SkelEq ns ms)
    (h2 : SkelEq ms ks) : SkelEq ns ks :=
  ⟨h1.1.trans h2.1, fun j =>
    ⟨(h1.2 j).1.trans (h2.2 j).1, (h1.2 j).2.1.trans (h2.2 j).2.1,
      (h1.2 j).2.2.trans (h2.2 j).2.2⟩⟩

theorem skelEq_setState (ns : List UITreeNode) (i : Nat) (s : SelectionState) :
    SkelEq ns (setState ns i s) :=
  ⟨(length_setState ns i s).symm, fun j =>
    ⟨(childrenAt_setState ns i j s).symm, (parentAt_setState ns i j s).symm,
      (isDirAt_setState ns i j s).symm⟩⟩

theorem skelEq_propagate (fuel : Nat) :
    ∀ (ns : List UITreeNode) (i : Nat) (s : SelectionState),
      SkelEq ns (propagate_selection_to_children fuel ns i s) := by
  induction fuel with
  | zero => intro ns i s; exact SkelEq.refl ns
  | succ f ih =>
    intro ns i s
    show SkelEq ns ((childrenAt ns i).foldl _ ns)
    generalize childrenAt ns i = cs
    induction cs generalizing ns with
    | nil => exact SkelEq.refl ns
    | cons c rest ihc =>
      simp only [List.foldl_cons]
      refine SkelEq.trans ?_ (ihc _)
      refine SkelEq.trans (skelEq_setState ns c s) ?_
      split
      · exact ih _ _ _
      · exact SkelEq.refl _

theorem skelEq_update (fuel : Nat) :
    ∀ (ns : List UITreeNode) (p : Nat),
      SkelEq ns (update_parent_selection_state fuel ns p) := by
  induction fuel with
  | zero => intro ns p; exact SkelEq.refl ns
  | succ f ih =>
    intro ns p
    unfold update_parent_selection_state
    dsimp only
    split
    · exact SkelEq.refl ns
    · split
      · exact SkelEq.trans (skelEq_setState ns p _) (ih _ _)
      · exact skelEq_setState ns p _

theorem skelEq_toggleAux (ns : List UITreeNode) (i n : Nat) (s : SelectionState)
    (d : Bool) (po : Option Nat) :
    SkelEq ns
      (match po with
       | some p =>
         update_parent_selection_state n
           (if d = true then
             propagate_selection_to_children n (setState ns i s) i s
           else setState ns i s) p
       | none =>
         if d = true then propagate_selection_to_children n (setState ns i s) i s
         else setState ns i s) := by
  have h2 : SkelEq ns
      (if d = true then propagate_selection_to_children n (setState ns i s) i s
       else setState ns i s) := by
    split
    · exact SkelEq.trans (skelEq_setState _ _ _) (skelEq_propagate _ _ _ _)
    · exact skelEq_setState _ _ _
  cases po with
  | some p => exact SkelEq.trans h2 (skelEq_update _ _ _)
  | none => exact h2

theorem skelEq_toggle (h : UITreeHandler) (i : Nat) :
    SkelEq h.tree_nodes (toggle_node_selection h i).tree_nodes := by
  unfold toggle_node_selection
  cases hg : h.tree_nodes.get? i with
  | none => exact SkelEq.refl _
  | some nd =>
    dsimp only
    exact skelEq_toggleAux _ _ _ _ _ _

/-! ## Lemmas about `descendantB` and `inChainB` -/

theorem inChainB_succ_none {ns : List UITreeNode} {p : Nat}
    (h : parentAt ns p = none) (f a : Nat) :
    inChainB (f + 1) ns p a = (a == p) := by
  unfold inChainB
  rw [h]
  simp

theorem inChainB_succ_some {ns : List UITreeNode} {p q : Nat}
    (h : parentAt ns p = some q) (f a : Nat) :
    inChainB (f + 1) ns p a = (a == p || inChainB f ns q a) := by
  conv_lhs => unfold inChainB
  rw [h]

theorem descendantB_skelEq {ns ms : List UITreeNode} (h : SkelEq ns ms) :
    ∀ (f : Nat) (i j : Nat), descendantB f ns i j = descendantB f ms i j := by
  intro f
  induction f with
  | zero => intro i j; rfl
  | succ f ih =>
    intro i j
    unfold descendantB
    rw [(h.2 i).1]
    congr 1
    funext c
    rw [ih c j]

theorem descendantB_mono {ns : List UITreeNode} :
    ∀ {f f' : Nat}, f ≤ f' → ∀ {i j : Nat},
      descendantB f ns i j = true → descendantB f' ns i j = true := by
  intro f
  induction f with
  | zero => intro f' _ i j h; exact absurd h (by simp [descendantB])
  | succ f ih =>
    intro f' hle i j h
    obtain ⟨f'', rfl⟩ : ∃ f'', f' = f'' + 1 := ⟨f' - 1, by omega⟩
    unfold descendantB at h ⊢
    simp only [List.any_eq_true, Bool.or_eq_true, beq_iff_eq] at h ⊢
    obtain ⟨c, hc, hcase⟩ := h
    refine ⟨c, hc, ?_⟩
    rcases hcase with rfl | hd
    · exact Or.inl rfl
    · exact Or.inr (ih (by omega) hd)

theorem descendantB_bounds {ns : List UITreeNode} (hwf : WfA ns) :
    ∀ (f : Nat) {i j : Nat}, i < ns.length →
      descendantB f ns i j = true → i < j ∧ j < ns.length := by
  intro f
  induction f with
  | zero => intro i j _ h; exact absurd h (by simp [descendantB])
  | succ f ih =>
    intro i j hi h
    unfold descendantB at h
    simp only [List.any_eq_true, Bool.or_eq_true, beq_iff_eq] at h
    obtain ⟨c, hc, hcase⟩ := h
    obtain ⟨hic, hcn, _⟩ := hwf.1 i hi c hc
    rcases hcase with rfl | hd
    · exact ⟨hic, hcn⟩
    · have := ih hcn hd
      exact ⟨by omega, this.2⟩

theorem descendantB_sat {ns : List UITreeNode} (hwf : WfA ns) :
    ∀ (f : Nat) {i j : Nat}, i < ns.length → descendantB f ns i j = true →
      descendantB (ns.length - i) ns i j = true := by
  intro f
  induction f with
  | zero => intro i j _ h; exact absurd h (by simp [descendantB])
  | succ f ih =>
    intro i j hi h
    unfold descendantB at h
    simp only [List.any_eq_true, Bool.or_eq_true, beq_iff_eq] at h
    obtain ⟨c, hc, hcase⟩ := h
    obtain ⟨hic, hcn, _⟩ := hwf.1 i hi c hc
    obtain ⟨m, hm⟩ : ∃ m, ns.length - i = m + 1 := ⟨ns.length - i - 1, by omega⟩
    rw [hm]
    unfold descendantB
    simp only [List.any_eq_true, Bool.or_eq_true, beq_iff_eq]
    refine ⟨c, hc, ?_⟩
    rcases hcase with rfl | hd
    · exact Or.inl rfl
    · exact Or.inr (descendantB_mono (by omega) (ih hcn hd))

theorem Desc_unfold {ns : List UITreeNode} (hwf : WfA ns) {i : Nat}
    (hi : i < ns.length) (j : Nat) :
    Desc ns i j ↔ ∃ c ∈ childrenAt ns i, c = j ∨ Desc ns c j := by
  unfold Desc
  obtain ⟨m, hm⟩ : ∃ m, ns.length = m + 1 := ⟨ns.length - 1, by omega⟩
  constructor
  · intro h
    rw [hm] at h
    unfold descendantB at h
    simp only [List.any_eq_true, Bool.or_eq_true, beq_iff_eq] at h
    obtain ⟨c, hc, hcase⟩ := h
    refine ⟨c, hc, ?_⟩
    rcases hcase with rfl | hd
    · exact Or.inl rfl
    · exact Or.inr (descendantB_mono (by omega) hd)
  · intro ⟨c, hc, hcase⟩
    obtain ⟨hic, hcn, _⟩ := hwf.1 i hi c hc
    rw [hm]
    unfold descendantB
    simp only [List.any_eq_true, Bool.or_eq_true, beq_iff_eq]
    refine ⟨c, hc, ?_⟩
    rcases hcase with rfl | hd
    · exact Or.inl rfl
    · refine Or.inr (descendantB_mono (f := ns.length - c) (by omega) ?_)
      exact descendantB_sat hwf _ hcn hd

theorem Desc_child {ns : List UITreeNode} (hwf : WfA ns) {i c : Nat}
    (hi : i < ns.length) (hc : c ∈ childrenAt ns i) : Desc ns i c :=
  (Desc_unfold hwf hi c).mpr ⟨c, hc, Or.inl rfl⟩

theorem Desc_bounds {ns : List UITreeNode} (hwf : WfA ns) {i j : Nat}
    (hi : i < ns.length) (h : Desc ns i j) : i < j ∧ j < ns.length :=
  descendantB_bounds hwf _ hi h

theorem Desc_trans {ns : List UITreeNode} (hwf : WfA ns) :
    ∀ (d : Nat) {i j k : Nat}, ns.length - i ≤ d → i < ns.length →
      Desc ns i j → Desc ns j k → Desc ns i k := by
  intro d
  induction d with
  | zero => intro i j k hd hi _ _; omega
  | succ d ih =>
    intro i j k hd hi hij hjk
    obtain ⟨c, hc, hcase⟩ := (Desc_unfold hwf hi j).mp hij
    obtain ⟨hic, hcn, _⟩ := hwf.1 i hi c hc
    rcases hcase with rfl | hcj
    · exact (Desc_unfold hwf hi k).mpr ⟨c, hc, Or.inr hjk⟩
    · have : Desc ns c k := ih (by omega) hcn hcj hjk
      exact (Desc_unfold hwf hi k).mpr ⟨c, hc, Or.inr this⟩

theorem Desc_parent {ns : List UITreeNode} (hwf : WfA ns) :
    ∀ (d : Nat) {i j p : Nat}, ns.length - i ≤ d → i < ns.length →
      Desc ns i j → parentAt ns j = some p → p = i ∨ Desc ns i p := by
  intro d
  induction d with
  | zero => intro i j p hd hi _ _; omega
  | succ d ih =>
    intro i j p hd hi hij hp
    obtain ⟨c, hc, hcase⟩ := (Desc_unfold hwf hi j).mp hij
    obtain ⟨hic, hcn, hpar⟩ := hwf.1 i hi c hc
    rcases hcase with rfl | hcj
    · rw [hp] at hpar
      exact Or.inl (Option.some_inj.mp hpar.symm).symm
    · rcases ih (by omega) hcn hcj hp with rfl | hd2
      · exact Or.inr (Desc_child hwf hi hc)
      · exact Or.inr (Desc_trans hwf _ (le_refl _) hi (Desc_child hwf hi hc) hd2)

theorem inChainB_skelEq {ns ms : List UITreeNode} (h : SkelEq ns ms) :
    ∀ (f : Nat) (p a : Nat), inChainB f ns p a = inChainB f ms p a := by
  intro f
  induction f with
  | zero => intro p a; rfl
  | succ f ih =>
    intro p a
    cases hq : parentAt ns p with
    | none =>
      rw [inChainB_succ_none hq, inChainB_succ_none ((h.2 p).2.1.symm.trans hq)]
    | some q =>
      rw [inChainB_succ_some hq, inChainB_succ_some ((h.2 p).2.1.symm.trans hq),
        ih q a]

theorem inChainB_mono {ns : List UITreeNode} :
    ∀ {f f' : Nat}, f ≤ f' → ∀ {p a : Nat},
      inChainB f ns p a = true → inChainB f' ns p a = true := by
  intro f
  induction f with
  | zero => intro f' _ p a h; exact absurd h (by simp [inChainB])
  | succ f ih =>
    intro f' hle p a h
    obtain ⟨f'', rfl⟩ : ∃ f'', f' = f'' + 1 := ⟨f' - 1, by omega⟩
    cases hq : parentAt ns p with
    | none =>
      rw [inChainB_succ_none hq] at h
      rw [inChainB_succ_none hq]
      exact h
    | some q =>
      rw [inChainB_succ_some hq] at h
      rw [inChainB_succ_some hq]
      simp only [Bool.or_eq_true] at h ⊢
      rcases h with h | h
      · exact Or.inl h
      · exact Or.inr (ih (by omega) h)

theorem inChainB_le {ns : List UITreeNode} (hwf : WfA ns) :
    ∀ (f : Nat) {p a : Nat}, p < ns.length →
      inChainB f ns p a = true → a ≤ p := by
  intro f
  induction f with
  | zero => intro p a _ h; exact absurd h (by simp [inChainB])
  | succ f ih =>
    intro p a hp h
    cases hq : parentAt ns p with
    | none =>
      rw [inChainB_succ_none hq] at h
      exact le_of_eq (beq_iff_eq.mp h)
    | some q =>
      rw [inChainB_succ_some hq] at h
      simp only [Bool.or_eq_true, beq_iff_eq] at h
      rcases h with rfl | h
      · exact le_refl _
      · have hqp := (hwf.2 p q hp hq).1
        have := ih (by omega) h
        omega

theorem inChainB_sat {ns : List UITreeNode} (hwf : WfA ns) :
    ∀ (f : Nat) {p a : Nat}, p < ns.length → inChainB f ns p a = true →
      inChainB (p + 1) ns p a = true := by
  intro f
  induction f with
  | zero => intro p a _ h; exact absurd h (by simp [inChainB])
  | succ f ih =>
    intro p a hp h
    cases hq : parentAt ns p with
    | none =>
      rw [inChainB_succ_none hq] at h
      rw [inChainB_succ_none hq]
      exact h
    | some q =>
      rw [inChainB_succ_some hq] at h
      rw [inChainB_succ_some hq]
      simp only [Bool.or_eq_true] at h ⊢
      rcases h with h | h
      · exact Or.inl h
      · have hqp := (hwf.2 p q hp hq).1
        exact Or.inr (inChainB_mono (by omega) (ih (by omega) h))

theorem Chain_unfold {ns : List UITreeNode} (hwf : WfA ns) {p : Nat}
    (hp : p < ns.length) (a : Nat) :
    Chain ns p a ↔ a = p ∨ ∃ q, parentAt ns p = some q ∧ Chain ns q a := by
  unfold Chain
  obtain ⟨m, hm⟩ : ∃ m, ns.length = m + 1 := ⟨ns.length - 1, by omega⟩
  constructor
  · intro h
    rw [hm] at h
    cases hq : parentAt ns p with
    | none =>
      rw [inChainB_succ_none hq] at h
      exact Or.inl (beq_iff_eq.mp h)
    | some q =>
      rw [inChainB_succ_some hq] at h
      simp only [Bool.or_eq_true, beq_iff_eq] at h
      rcases h with rfl | h
      · exact Or.inl rfl
      · exact Or.inr ⟨q, rfl, inChainB_mono (by omega) h⟩
  · intro h
    rw [hm]
    rcases h with rfl | ⟨q, hq, h⟩
    · have hrefl : ∀ b, inChainB (m + 1) ns b b = true := by
        intro b
        cases hq : parentAt ns b with
        | none => rw [inChainB_succ_none hq]; simp
        | some q => rw [inChainB_succ_some hq]; simp
      exact hrefl _
    · rw [inChainB_succ_some hq]
      simp only [Bool.or_eq_true, beq_iff_eq]
      have hqp := (hwf.2 p q hp hq).1
      exact Or.inr (inChainB_mono (by omega) (inChainB_sat hwf _ (by omega) h))

theorem Chain_refl {ns : List UITreeNode} (hwf : WfA ns) {p : Nat}
    (hp : p < ns.length) : Chain ns p p :=
  (Chain_unfold hwf hp p).mpr (Or.inl rfl)

theorem Chain_le {ns : List UITreeNode} (hwf : WfA ns) {p a : Nat}
    (hp : p < ns.length) (h : Chain ns p a) : a ≤ p :=
  inChainB_le hwf _ hp h

theorem Chain_parent_closed {ns : List UITreeNode} (hwf : WfA ns) :
    ∀ (d : Nat) {p c j : Nat}, p ≤ d → p < ns.length → Chain ns p c →
      parentAt ns c = some j → Chain ns p j := by
  intro d
  induction d with
  | zero =>
    intro p c j _ hp hc hj
    -- p = 0, so the chain from p is {0} plus ancestors of 0
    rcases (Chain_unfold hwf hp c).mp hc with rfl | ⟨q, hq, h⟩
    · exact (Chain_unfold hwf hp j).mpr (Or.inr ⟨j, hj, Chain_refl hwf
        (by have := (hwf.2 c j hp hj).1; omega)⟩)
    · have hqp := (hwf.2 p q hp hq).1
      omega
  | succ d ih =>
    intro p c j hd hp hc hj
    rcases (Chain_unfold hwf hp c).mp hc with rfl | ⟨q, hq, h⟩
    · have hjc := (hwf.2 c j hp hj).1
      exact (Chain_unfold hwf hp j).mpr (Or.inr ⟨j, hj, Chain_refl hwf (by omega)⟩)
    · have hqp := (hwf.2 p q hp hq).1
      have := ih (by omega) (by omega) h hj
      exact (Chain_unfold hwf hp j).mpr (Or.inr ⟨q, hq, this⟩)

/-! ## Characterization of `propagate_selection_to_children` -/

theorem WfA_skelEq {ns ms : List UITreeNode} (h : SkelEq ns ms) (hwf : WfA ns) :
    WfA ms := by
  constructor
  · intro i hi c hc
    rw [← (h.2 i).1] at hc
    obtain ⟨h1, h2, h3⟩ := hwf.1 i (h.1 ▸ hi) c hc
    exact ⟨h1, h.1 ▸ h2, (h.2 c).2.1 ▸ h3⟩
  · intro j p hj hp
    rw [← (h.2 j).2.1] at hp
    obtain ⟨h1, h2⟩ := hwf.2 j p (h.1 ▸ hj) hp
    exact ⟨h1, (h.2 p).1 ▸ h2⟩

theorem FilesChildlessA_skelEq {ns ms : List UITreeNode} (h : SkelEq ns ms)
    (hfc : FilesChildlessA ns) : FilesChildlessA ms := by
  intro i hdir
  rw [← (h.2 i).1]
  exact hfc i ((h.2 i).2.2 ▸ hdir)

theorem DirsNonemptyA_skelEq {ns ms : List UITreeNode} (h : SkelEq ns ms)
    (hdn : DirsNonemptyA ns) : DirsNonemptyA ms := by
  intro i hi hdir
  rw [← (h.2 i).1]
  exact hdn i (h.1 ▸ hi) ((h.2 i).2.2 ▸ hdir)

theorem descendantB_of_no_children {ns : List UITreeNode} {c : Nat}
    (h : childrenAt ns c = []) (f j : Nat) : descendantB f ns c j = false := by
  cases f with
  | zero => rfl
  | succ f => unfold descendantB; rw [h]; rfl

theorem propagate_states (f : Nat) :
    ∀ (ns : List UITreeNode) (i : Nat) (s : SelectionState),
      WfA ns → FilesChildlessA ns → i < ns.length → ns.length - i ≤ f →
      ∀ j, stateAt (propagate_selection_to_children f ns i s) j =
        if descendantB ns.length ns i j = true then s else stateAt ns j := by
  induction f using Nat.strong_induction_on with
  | _ f ihf =>
  intro ns i s hwf hfc hi hfe j
  obtain ⟨f', rfl⟩ : ∃ f', f = f' + 1 := ⟨f - 1, by omega⟩
  have hchild := hwf.1 i hi
  -- the inner loop over the (snapshotted) children list
  have inner : ∀ (cs : List Nat), (∀ c ∈ cs, i < c ∧ c < ns.length) →
      ∀ (acc : List UITreeNode), SkelEq ns acc →
      ∀ j, stateAt
          (cs.foldl (fun acc child_index =>
            let acc1 := setState acc child_index s
            if isDirAt acc1 child_index then
              propagate_selection_to_children f' acc1 child_index s
            else acc1) acc) j =
        if cs.any (fun c => c == j || descendantB ns.length ns c j) = true then s
        else stateAt acc j := by
    intro cs
    induction cs with
    | nil => intro _ acc _ j; simp
    | cons c rest ihc =>
      intro hmem acc hskel j
      obtain ⟨hic, hcn⟩ := hmem c (List.mem_cons_self c rest)
      have hlen : acc.length = ns.length := hskel.1.symm
      simp only [List.foldl_cons]
      have hdir_eq : isDirAt (setState acc c s) c = isDirAt ns c := by
        rw [isDirAt_setState, ← (hskel.2 c).2.2]
      -- the state of the arena after processing child `c`
      have hstep : ∀ (a2 : List UITreeNode),
          (∀ j, stateAt a2 j =
            if (c == j || descendantB ns.length ns c j) = true then s
            else stateAt acc j) → SkelEq ns a2 →
          stateAt (rest.foldl (fun acc child_index =>
            let acc1 := setState acc child_index s
            if isDirAt acc1 child_index then
              propagate_selection_to_children f' acc1 child_index s
            else acc1) a2) j =
          if ((c :: rest).any fun c => c == j || descendantB ns.length ns c j) = true
          then s else stateAt acc j := by
        intro a2 ha2 hskel2
        rw [ihc (fun x hx => hmem x (List.mem_cons_of_mem c hx)) a2 hskel2 j,
          ha2 j, List.any_cons]
        by_cases h1 : (c == j || descendantB ns.length ns c j) = true <;>
          by_cases h2 :
              (rest.any fun c => c == j || descendantB ns.length ns c j) = true <;>
            simp [h1, h2]
      split
      · -- directory child: recurse
        next hdir =>
        have hdir' : isDirAt ns c = true := by rw [← hdir_eq]; exact hdir
        set a1 := setState acc c s with ha1
        have hskel1 : SkelEq ns a1 := SkelEq.trans hskel (skelEq_setState acc c s)
        have hwf1 : WfA a1 := WfA_skelEq hskel1 hwf
        have hfc1 : FilesChildlessA a1 := FilesChildlessA_skelEq hskel1 hfc
        have hlen1 : a1.length = ns.length := hskel1.1.symm
        have hca : c < a1.length := by omega
        have hfe1 : a1.length - c ≤ f' := by omega
        have hsj : ∀ j, stateAt a1 j = if j = c then s else stateAt acc j := by
          intro j
          rw [ha1, stateAt_setState]
          by_cases hcj : j = c
          · subst hcj; simp [show j < acc.length by omega]
          · simp [hcj]
        refine hstep _ (fun j => ?_) ?_
        · rw [ihf f' (by omega) a1 c s hwf1 hfc1 hca hfe1 j, hlen1,
            ← descendantB_skelEq hskel1 ns.length c j]
          by_cases hd : descendantB ns.length ns c j = true
          · simp [hd]
          · rw [if_neg (by simp [hd]), hsj j]
            by_cases hcj : j = c
            · subst hcj; simp [hd]
            · simp [hcj, Ne.symm hcj, hd]
        · exact SkelEq.trans hskel1 (skelEq_propagate f' a1 c s)
      · -- file child: no recursion
        next hdir =>
        have hdir' : isDirAt ns c = false := by
          rw [← hdir_eq]; exact Bool.eq_false_iff.mpr hdir
        have hnil : childrenAt ns c = [] := hfc c hdir'
        refine hstep _ (fun j => ?_) (SkelEq.trans hskel (skelEq_setState acc c s))
        rw [descendantB_of_no_children hnil]
        simp only [Bool.or_false]
        rw [stateAt_setState]
        by_cases hcj : j = c
        · subst hcj
          simp [show j < acc.length by omega]
        · simp [hcj, Ne.symm hcj]
  -- assemble: the top-level call processes exactly the children of `i`
  show stateAt ((childrenAt ns i).foldl _ ns) j = _
  rw [inner (childrenAt ns i) (fun c hc => ⟨(hchild c hc).1, (hchild c hc).2.1⟩)
    ns (SkelEq.refl ns) j]
  refine if_congr ?_ rfl rfl
  constructor
  · intro h
    simp only [List.any_eq_true, Bool.or_eq_true, beq_iff_eq] at h
    obtain ⟨c, hc, hcase⟩ := h
    exact (Desc_unfold hwf hi j).mpr ⟨c, hc, by tauto⟩
  · intro h
    obtain ⟨c, hc, hcase⟩ := (Desc_unfold hwf hi j).mp h
    simp only [List.any_eq_true, Bool.or_eq_true, beq_iff_eq]
    exact ⟨c, hc, by tauto⟩

/-! ## Characterization of `update_parent_selection_state` -/

theorem Chain_skelEq {ns ms : List UITreeNode} (h : SkelEq ns ms) (p a : Nat) :
    Chain ns p a ↔ Chain ms p a := by
  unfold Chain
  rw [inChainB_skelEq h, h.1]

theorem Desc_skelEq {ns ms : List UITreeNode} (h : SkelEq ns ms) (i j : Nat) :
    Desc ns i j ↔ Desc ms i j := by
  unfold Desc
  rw [descendantB_skelEq h, h.1]

theorem all_map_general {α β : Type} (f : α → β) (p : β → Bool) (l : List α) :
    (l.map f).all p = l.all fun a => p (f a) := by
  induction l with
  | nil => rfl
  | cons a l ih => simp [ih]

theorem aggState_map (g : Nat → SelectionState) (l : List Nat) :
    aggState (l.map g) =
      if l.all (fun c => g c == .Selected) then .Selected
      else if l.all (fun c => g c == .Unselected) then .Unselected
      else .PartiallySelected := by
  unfold aggState
  rw [all_map_general, all_map_general]

theorem update_succ_empty {ns : List UITreeNode} {p : Nat}
    (h : (childrenAt ns p).isEmpty = true) (f : Nat) :
    update_parent_selection_state (f + 1) ns p = ns := by
  conv_lhs => unfold update_parent_selection_state
  simp only [h, if_true]

theorem update_succ_some {ns : List UITreeNode} {p gp : Nat}
    (hne : (childrenAt ns p).isEmpty = false) (hgp : parentAt ns p = some gp)
    (f : Nat) :
    update_parent_selection_state (f + 1) ns p =
      update_parent_selection_state f
        (setState ns p (aggState ((childrenAt ns p).map (stateAt ns)))) gp := by
  conv_lhs => unfold update_parent_selection_state
  simp only [hne, Bool.false_eq_true, if_false]
  rw [← aggState_map (stateAt ns) (childrenAt ns p)]
  rw [parentAt_setState, hgp]

theorem update_succ_none {ns : List UITreeNode} {p : Nat}
    (hne : (childrenAt ns p).isEmpty = false) (hgp : parentAt ns p = none)
    (f : Nat) :
    update_parent_selection_state (f + 1) ns p =
      setState ns p (aggState ((childrenAt ns p).map (stateAt ns))) := by
  conv_lhs => unfold update_parent_selection_state
  simp only [hne, Bool.false_eq_true, if_false]
  rw [← aggState_map (stateAt ns) (childrenAt ns p)]
  rw [parentAt_setState, hgp]

theorem update_states (f : Nat) :
    ∀ (ns : List UITreeNode) (p : Nat), WfA ns → p < ns.length →
      childrenAt ns p ≠ [] → p + 1 ≤ f →
      (∀ j, ¬ Chain ns p j →
        stateAt (update_parent_selection_state f ns p) j = stateAt ns j) ∧
      (∀ j, Chain ns p j →
        stateAt (update_parent_selection_state f ns p) j =
          aggState ((childrenAt ns j).map
            (stateAt (update_parent_selection_state f ns p)))) := by
  induction f using Nat.strong_induction_on with
  | _ f ihf =>
  intro ns p hwf hp hne hfe
  obtain ⟨f', rfl⟩ : ∃ f', f = f' + 1 := ⟨f - 1, by omega⟩
  have hneb : (childrenAt ns p).isEmpty = false := by
    cases hx : childrenAt ns p with
    | nil => exact absurd hx hne
    | cons a l => rfl
  have hchild := hwf.1 p hp
  have hskel1 : SkelEq ns (setState ns p (aggState ((childrenAt ns p).map (stateAt ns)))) :=
    skelEq_setState ns p _
  cases hgp : parentAt ns p with
  | none =>
    rw [update_succ_none hneb hgp]
    have hchain : ∀ j, Chain ns p j ↔ j = p := by
      intro j
      rw [Chain_unfold hwf hp j]
      constructor
      · rintro (rfl | ⟨q, hq, _⟩)
        · rfl
        · rw [hgp] at hq; exact absurd hq (by simp)
      · intro h; exact Or.inl h
    constructor
    · intro j hj
      rw [stateAt_setState_ne _ _ _ _ (fun hc => hj ((hchain j).mpr hc))]
    · intro j hj
      have hjp := (hchain j).mp hj
      subst hjp
      rw [stateAt_setState_self _ _ _ hp]
      congr 1
      refine List.map_congr_left fun c hc => ?_
      have hcp : j < c := (hchild c hc).1
      rw [stateAt_setState_ne _ _ _ _ (by omega)]
  | some gp =>
    rw [update_succ_some hneb hgp]
    obtain ⟨hgplt, hgpmem⟩ := hwf.2 p gp hp hgp
    have hgpn : gp < ns.length := by omega
    have hwf1 : WfA (setState ns p (aggState ((childrenAt ns p).map (stateAt ns)))) :=
      WfA_skelEq hskel1 hwf
    have hgpn1 : gp < (setState ns p (aggState ((childrenAt ns p).map (stateAt ns)))).length := by
      rw [length_setState]; omega
    have hne1 : childrenAt (setState ns p (aggState ((childrenAt ns p).map (stateAt ns)))) gp ≠ [] := by
      rw [childrenAt_setState]
      exact List.ne_nil_of_mem hgpmem
    have hfe1 : gp + 1 ≤ f' := by omega
    have IH := ihf f' (by omega) _ gp hwf1 hgpn1 hne1 hfe1
    have hchainT : ∀ q j,
        Chain (setState ns p (aggState ((childrenAt ns p).map (stateAt ns)))) q j ↔ Chain ns q j :=
      fun q j => (Chain_skelEq hskel1 q j).symm
    have hchain : ∀ j, Chain ns p j ↔ j = p ∨ Chain ns gp j := by
      intro j
      rw [Chain_unfold hwf hp j]
      constructor
      · rintro (rfl | ⟨q, hq, hc⟩)
        · exact Or.inl rfl
        · rw [hgp] at hq
          cases hq
          exact Or.inr hc
      · rintro (rfl | hc)
        · exact Or.inl rfl
        · exact Or.inr ⟨gp, hgp, hc⟩
    have hnotp : ∀ a, Chain ns gp a → a ≠ p := by
      intro a ha
      have := Chain_le hwf hgpn ha
      omega
    simp only [childrenAt_setState] at IH
    constructor
    · intro j hj
      rw [(IH.1 j (fun hc => hj ((hchain j).mpr (Or.inr ((hchainT gp j).mp hc)))))]
      rw [stateAt_setState_ne _ _ _ _ (fun hc => hj ((hchain j).mpr (Or.inl hc)))]
    · intro j hj
      rcases (hchain j).mp hj with hjp | hc
      · -- j = p : set by this call, not touched by the recursive chain above
        subst hjp
        have hpnot : ¬ Chain (setState ns j (aggState ((childrenAt ns j).map (stateAt ns)))) gp j := by
          rw [hchainT]
          intro hc
          exact hnotp j hc rfl
        rw [IH.1 j hpnot, stateAt_setState_self _ _ _ hp]
        congr 1
        refine List.map_congr_left fun c hc => ?_
        have hcp : j < c := (hchild c hc).1
        have hcnot : ¬ Chain (setState ns j (aggState ((childrenAt ns j).map (stateAt ns)))) gp c := by
          rw [hchainT]
          intro hcc
          have := Chain_le hwf hgpn hcc
          omega
        rw [IH.1 c hcnot, stateAt_setState_ne _ _ _ _ (by omega)]
      · -- j strictly above p: handled by the recursive call
        rw [IH.2 j ((hchainT gp j).mpr hc)]

/-! ## Characterization of `toggle_node_selection` -/

instance (ns : List UITreeNode) (i j : Nat) : Decidable (Desc ns i j) := by
  unfold Desc
  infer_instance

instance (ns : List UITreeNode) (p a : Nat) : Decidable (Chain ns p a) := by
  unfold Chain
  infer_instance

/-- `j` is a strict ancestor of `i` in the arena. -/
def AncChain (ns : List UITreeNode) (i j : Nat) : Prop :=
  ∃ p, parentAt ns i = some p ∧ Chain ns p j

theorem toggle_states (h : UITreeHandler) (i : Nat)
    (hwf : WfA h.tree_nodes) (hfc : FilesChildlessA h.tree_nodes)
    (hi : i < h.tree_nodes.length) :
    (stateAt (toggle_node_selection h i).tree_nodes i
      = flipState (stateAt h.tree_nodes i)) ∧
    (∀ j, Desc h.tree_nodes i j →
      stateAt (toggle_node_selection h i).tree_nodes j
        = flipState (stateAt h.tree_nodes i)) ∧
    (∀ j, AncChain h.tree_nodes i j →
      stateAt (toggle_node_selection h i).tree_nodes j =
        aggState ((childrenAt h.tree_nodes j).map
          (stateAt (toggle_node_selection h i).tree_nodes))) ∧
    (∀ j, j ≠ i → ¬ Desc h.tree_nodes i j → ¬ AncChain h.tree_nodes i j →
      stateAt (toggle_node_selection h i).tree_nodes j = stateAt h.tree_nodes j) := by
  obtain ⟨nd, hg⟩ : ∃ nd, h.tree_nodes.get? i = some nd := by
    cases hx : h.tree_nodes.get? i with
    | none => exact absurd (List.get?_eq_none.mp hx) (by omega)
    | some nd => exact ⟨nd, rfl⟩
  have hstate : nd.selected_state = stateAt h.tree_nodes i := by
    unfold stateAt; rw [hg]
  have hdir : nd.is_dir = isDirAt h.tree_nodes i := by
    unfold isDirAt; rw [hg]
  have hpar : nd.parent_index = parentAt h.tree_nodes i := by
    unfold parentAt; rw [hg]
  have hflip : (match nd.selected_state with
      | SelectionState.Selected => SelectionState.Unselected
      | SelectionState.Unselected => SelectionState.Selected
      | SelectionState.PartiallySelected => SelectionState.Selected)
      = flipState (stateAt h.tree_nodes i) := by
    rw [← hstate]; cases nd.selected_state <;> rfl
  have hT : (toggle_node_selection h i).tree_nodes =
      (match parentAt h.tree_nodes i with
       | some p => update_parent_selection_state h.tree_nodes.length
           (if isDirAt h.tree_nodes i = true then
             propagate_selection_to_children h.tree_nodes.length
               (setState h.tree_nodes i (flipState (stateAt h.tree_nodes i))) i
               (flipState (stateAt h.tree_nodes i))
           else setState h.tree_nodes i (flipState (stateAt h.tree_nodes i))) p
       | none =>
           if isDirAt h.tree_nodes i = true then
             propagate_selection_to_children h.tree_nodes.length
               (setState h.tree_nodes i (flipState (stateAt h.tree_nodes i))) i
               (flipState (stateAt h.tree_nodes i))
           else setState h.tree_nodes i (flipState (stateAt h.tree_nodes i))) := by
    unfold toggle_node_selection
    rw [hg]
    dsimp only
    rw [hflip, hdir, hpar]
  rw [hT]
  set ns := h.tree_nodes with hns
  set s := flipState (stateAt ns i) with hs
  set ns1 := setState ns i s with hns1
  have hskel1 : SkelEq ns ns1 := skelEq_setState ns i s
  set ns2 : List UITreeNode :=
    (if isDirAt ns i = true then
      propagate_selection_to_children ns.length ns1 i s
    else ns1) with hns2
  have hskel2 : SkelEq ns ns2 := by
    rw [hns2]
    split
    · exact SkelEq.trans hskel1 (skelEq_propagate _ _ _ _)
    · exact hskel1
  have hlen2 : ns2.length = ns.length := hskel2.1.symm
  have hA : ∀ j, stateAt ns2 j = if j = i ∨ Desc ns i j then s else stateAt ns j := by
    intro j
    rw [hns2]
    by_cases hdc : isDirAt ns i = true
    · rw [if_pos hdc]
      have hwf1 : WfA ns1 := WfA_skelEq hskel1 hwf
      have hfc1 : FilesChildlessA ns1 := FilesChildlessA_skelEq hskel1 hfc
      have hlen1 : ns1.length = ns.length := hskel1.1.symm
      have := propagate_states ns.length ns1 i s hwf1 hfc1 (by omega) (by omega) j
      rw [hlen1, ← descendantB_skelEq hskel1 ns.length i j] at this
      rw [this]
      by_cases hdj : descendantB ns.length ns i j = true
      · rw [if_pos hdj, if_pos (Or.inr (show Desc ns i j from hdj))]
      · rw [if_neg hdj, hns1, stateAt_setState]
        by_cases hji : j = i
        · subst hji
          rw [if_pos ⟨rfl, by omega⟩, if_pos (Or.inl rfl)]
        · have hcond : ¬ (j = i ∨ Desc ns i j) := by
            rintro (hc | hc)
            · exact hji hc
            · exact hdj hc
          rw [if_neg (by tauto), if_neg hcond]
    · rw [if_neg hdc]
      have hdd : isDirAt ns i = false := Bool.eq_false_iff.mpr hdc
      have hnil : childrenAt ns i = [] := hfc i hdd
      have hdesc : ∀ j, ¬ Desc ns i j := by
        intro j hj
        unfold Desc at hj
        rw [descendantB_of_no_children hnil] at hj
        exact Bool.false_ne_true hj
      rw [hns1, stateAt_setState]
      by_cases hji : j = i
      · subst hji
        rw [if_pos ⟨rfl, by omega⟩, if_pos (Or.inl rfl)]
      · have hcond : ¬ (j = i ∨ Desc ns i j) := by
          rintro (hc | hc)
          · exact hji hc
          · exact hdesc j hc
        rw [if_neg (by tauto), if_neg hcond]
  cases hpo : parentAt ns i with
  | none =>
    have hanc : ∀ j, ¬ AncChain ns i j := by
      intro j ⟨p, hp, _⟩
      rw [hpo] at hp
      exact Option.noConfusion hp
    refine ⟨?_, ?_, ?_, ?_⟩
    · rw [hA i, if_pos (Or.inl rfl)]
    · intro j hj
      rw [hA j, if_pos (Or.inr hj)]
    · intro j hj
      exact absurd hj (hanc j)
    · intro j hj hdj haj
      rw [hA j, if_neg (by tauto)]
  | some p =>
    obtain ⟨hpi, hpmem⟩ := hwf.2 i p (by omega) hpo
    have hpn : p < ns.length := by omega
    have hwf2 : WfA ns2 := WfA_skelEq hskel2 hwf
    have hpn2 : p < ns2.length := by omega
    have hne2 : childrenAt ns2 p ≠ [] := by
      rw [← (hskel2.2 p).1]
      exact List.ne_nil_of_mem hpmem
    have hU := update_states ns.length ns2 p hwf2 hpn2 hne2 (by omega)
    have hchainT : ∀ q j, Chain ns2 q j ↔ Chain ns q j :=
      fun q j => (Chain_skelEq hskel2 q j).symm
    have hanc : ∀ j, AncChain ns i j ↔ Chain ns p j := by
      intro j
      constructor
      · intro ⟨q, hq, hc⟩
        rw [hpo] at hq
        cases hq
        exact hc
      · intro hc
        exact ⟨p, hpo, hc⟩
    have hchain_lt : ∀ j, Chain ns p j → j ≤ p := fun j hj => Chain_le hwf hpn hj
    refine ⟨?_, ?_, ?_, ?_⟩
    · have : ¬ Chain ns2 p i := by
        rw [hchainT]
        intro hc
        have := hchain_lt i hc
        omega
      rw [hU.1 i this, hA i, if_pos (Or.inl rfl)]
    · intro j hj
      have hij := (Desc_bounds hwf (by omega) hj).1
      have : ¬ Chain ns2 p j := by
        rw [hchainT]
        intro hc
        have := hchain_lt j hc
        omega
      rw [hU.1 j this, hA j, if_pos (Or.inr hj)]
    · intro j hj
      have hcj : Chain ns2 p j := (hchainT p j).mpr ((hanc j).mp hj)
      have := hU.2 j hcj
      rw [← (hskel2.2 j).1] at this
      exact this
    · intro j hj hdj haj
      have : ¬ Chain ns2 p j := by
        rw [hchainT]
        intro hc
        exact haj ((hanc j).mpr hc)
      rw [hU.1 j this, hA j, if_neg (by tauto)]

/-! ## Correctness of `build_tree_recursive` -/

theorem childrenAt_congr {ns ms : List UITreeNode} {j : Nat}
    (h : ns.get? j = ms.get? j) : childrenAt ns j = childrenAt ms j := by
  unfold childrenAt; rw [h]

theorem parentAt_congr {ns ms : List UITreeNode} {j : Nat}
    (h : ns.get? j = ms.get? j) : parentAt ns j = parentAt ms j := by
  unfold parentAt; rw [h]

theorem isDirAt_congr {ns ms : List UITreeNode} {j : Nat}
    (h : ns.get? j = ms.get? j) : isDirAt ns j = isDirAt ms j := by
  unfold isDirAt; rw [h]

theorem stateAt_congr {ns ms : List UITreeNode} {j : Nat}
    (h : ns.get? j = ms.get? j) : stateAt ns j = stateAt ms j := by
  unfold stateAt; rw [h]

theorem length_setChildrenIndices (ns : List UITreeNode) (i : Nat) (cis : List Nat) :
    (setChildrenIndices ns i cis).length = ns.length := by
  unfold setChildrenIndices
  cases h : ns.get? i <;> simp

theorem get?_setChildrenIndices (ns : List UITreeNode) (i j : Nat) (cis : List Nat) :
    (setChildrenIndices ns i cis).get? j =
      if i = j ∧ i < ns.length then
        (ns.get? i).map fun nd => { nd with children_indices := cis }
      else ns.get? j := by
  unfold setChildrenIndices
  cases h : ns.get? i with
  | none =>
    have : ns.length ≤ i := List.get?_eq_none.mp h
    simp only [h]
    split
    · omega
    · rfl
  | some nd =>
    have hi : i < ns.length := (List.get?_eq_some.mp h).1
    rw [List.get?_set_of_lt' _ _ hi]
    split
    · next heq => subst heq; simp [h, hi]
    · next hne =>
      split
      · next hc => exact absurd hc.1 hne
      · rfl

theorem filesChildlessL_mem {l : List FileNode} (h : filesChildlessL l = true)
    {t : FileNode} (ht : t ∈ l) : filesChildless t = true := by
  induction l with
  | nil => exact absurd ht (List.not_mem_nil t)
  | cons x rest ih =>
    unfold filesChildlessL at h
    rw [Bool.and_eq_true] at h
    rcases List.mem_cons.mp ht with rfl | ht'
    · exact h.1
    · exact ih h.2 ht'

theorem dirsNonemptyL_mem {l : List FileNode} (h : dirsNonemptyL l = true)
    {t : FileNode} (ht : t ∈ l) : dirsNonempty t = true := by
  induction l with
  | nil => exact absurd ht (List.not_mem_nil t)
  | cons x rest ih =>
    unfold dirsNonemptyL at h
    rw [Bool.and_eq_true] at h
    rcases List.mem_cons.mp ht with rfl | ht'
    · exact h.1
    · exact ih h.2 ht'

theorem filesChildless_sub {n : String} {p : List String} {d : Bool}
    {c : List FileNode} (h : filesChildless (.mk n p d c) = true) :
    (d = false → c = []) ∧ ∀ t ∈ c, filesChildless t = true := by
  unfold filesChildless at h
  rw [Bool.and_eq_true] at h
  obtain ⟨h1, h2⟩ := h
  constructor
  · intro hd
    subst hd
    simp only [Bool.false_or, List.isEmpty_iff] at h1
    exact h1
  · intro t ht
    exact filesChildlessL_mem h2 ht

theorem dirsNonempty_sub {n : String} {p : List String} {d : Bool}
    {c : List FileNode} (h : dirsNonempty (.mk n p d c) = true) :
    (d = true → c ≠ []) ∧ ∀ t ∈ c, dirsNonempty t = true := by
  unfold dirsNonempty at h
  rw [Bool.and_eq_true] at h
  obtain ⟨h1, h2⟩ := h
  constructor
  · intro hd
    subst hd
    simp only [Bool.not_true, Bool.false_or] at h1
    intro hnil
    subst hnil
    simp at h1
  · intro t ht
    exact dirsNonemptyL_mem h2 ht

/-- Assembly step for `buildNode_ok`: everything that follows from the
`buildKids` facts without further recursion. -/
theorem buildNode_ok_assemble (sel : List (List String)) (nm : String)
    (pth : List String) (d : Bool) (c : List FileNode) (parent : Option Nat)
    (acc : List UITreeNode) (ui : UITreeNode)
    (hui : ui = { file_node_path := pth
                  display_name := nm
                  is_dir := d
                  selected_state :=
                    if sel.contains pth then .Selected else .Unselected
                  expanded := false
                  children_indices := []
                  parent_index := parent })
    (st1 : List UITreeNode) (cis : List Nat)
    (K1 : (acc ++ [ui]).length ≤ st1.length)
    (K2 : ∀ j, j < (acc ++ [ui]).length → st1.get? j = (acc ++ [ui]).get? j)
    (K3 : cis.length = c.length)
    (K4 : ∀ k ∈ cis, (acc ++ [ui]).length ≤ k ∧ k < st1.length ∧
      parentAt st1 k = some acc.length)
    (K5 : ∀ j, (acc ++ [ui]).length ≤ j → j < st1.length →
      ∀ c' ∈ childrenAt st1 j,
        j < c' ∧ c' < st1.length ∧ parentAt st1 c' = some j)
    (K6 : ∀ j, (acc ++ [ui]).length ≤ j → j < st1.length →
      j ∈ cis ∨ ∃ q, parentAt st1 j = some q ∧ (acc ++ [ui]).length ≤ q ∧
        q < j ∧ j ∈ childrenAt st1 q)
    (K7 : sel = [] → ∀ j, (acc ++ [ui]).length ≤ j → j < st1.length →
      stateAt st1 j = .Unselected)
    (K8 : (∀ t ∈ c, filesChildless t = true) → ∀ j, (acc ++ [ui]).length ≤ j →
      j < st1.length → isDirAt st1 j = false → childrenAt st1 j = [])
    (K9 : (∀ t ∈ c, dirsNonempty t = true) → ∀ j, (acc ++ [ui]).length ≤ j →
      j < st1.length → isDirAt st1 j = true → childrenAt st1 j ≠ []) :
    acc.length = acc.length ∧
    acc.length < (setChildrenIndices st1 acc.length cis).length ∧
    (∀ j, j < acc.length →
      (setChildrenIndices st1 acc.length cis).get? j = acc.get? j) ∧
    parentAt (setChildrenIndices st1 acc.length cis) acc.length = parent ∧
    isDirAt (setChildrenIndices st1 acc.length cis) acc.length = d ∧
    (childrenAt (setChildrenIndices st1 acc.length cis) acc.length).length
      = c.length ∧
    (∀ j, acc.length ≤ j → j < (setChildrenIndices st1 acc.length cis).length →
      ∀ c' ∈ childrenAt (setChildrenIndices st1 acc.length cis) j,
        j < c' ∧ c' < (setChildrenIndices st1 acc.length cis).length ∧
        parentAt (setChildrenIndices st1 acc.length cis) c' = some j) ∧
    (∀ j, acc.length < j → j < (setChildrenIndices st1 acc.length cis).length →
      ∃ q, parentAt (setChildrenIndices st1 acc.length cis) j = some q ∧
        acc.length ≤ q ∧ q < j ∧
        j ∈ childrenAt (setChildrenIndices st1 acc.length cis) q) ∧
    (sel = [] → ∀ j, acc.length ≤ j →
      j < (setChildrenIndices st1 acc.length cis).length →
      stateAt (setChildrenIndices st1 acc.length cis) j = .Unselected) ∧
    (filesChildless (.mk nm pth d c) = true → ∀ j, acc.length ≤ j →
      j < (setChildrenIndices st1 acc.length cis).length →
      isDirAt (setChildrenIndices st1 acc.length cis) j = false →
      childrenAt (setChildrenIndices st1 acc.length cis) j = []) ∧
    (dirsNonempty (.mk nm pth d c) = true → ∀ j, acc.length ≤ j →
      j < (setChildrenIndices st1 acc.length cis).length →
      isDirAt (setChildrenIndices st1 acc.length cis) j = true →
      childrenAt (setChildrenIndices st1 acc.length cis) j ≠ []) := by
  have hlacc : (acc ++ [ui]).length = acc.length + 1 := by simp
  have hst_len : acc.length < st1.length := by omega
  have hui_at : st1.get? acc.length = some ui := by
    rw [K2 _ (by omega)]
    exact List.get?_concat_length acc ui
  have hres_len : (setChildrenIndices st1 acc.length cis).length = st1.length :=
    length_setChildrenIndices st1 acc.length cis
  have hres_get : ∀ j, (setChildrenIndices st1 acc.length cis).get? j =
      if acc.length = j then some { ui with children_indices := cis }
      else st1.get? j := by
    intro j
    rw [get?_setChildrenIndices]
    by_cases hj : acc.length = j
    · subst hj
      rw [if_pos ⟨rfl, hst_len⟩, if_pos rfl, hui_at]
      rfl
    · rw [if_neg (fun hc => hj hc.1), if_neg hj]
  have hroot_children : childrenAt (setChildrenIndices st1 acc.length cis)
      acc.length = cis := by
    unfold childrenAt
    rw [hres_get, if_pos rfl]
  have hroot_parent : parentAt (setChildrenIndices st1 acc.length cis)
      acc.length = parent := by
    unfold parentAt
    rw [hres_get, if_pos rfl, hui]
  have hroot_dir : isDirAt (setChildrenIndices st1 acc.length cis)
      acc.length = d := by
    unfold isDirAt
    rw [hres_get, if_pos rfl, hui]
  have hroot_state : stateAt (setChildrenIndices st1 acc.length cis)
      acc.length = (if sel.contains pth then .Selected else .Unselected) := by
    unfold stateAt
    rw [hres_get, if_pos rfl, hui]
  have hother : ∀ j, j ≠ acc.length →
      (setChildrenIndices st1 acc.length cis).get? j = st1.get? j := by
    intro j hj
    rw [hres_get, if_neg (fun hc => hj hc.symm)]
  refine ⟨rfl, by omega, ?_, hroot_parent, hroot_dir, by rw [hroot_children]; exact K3,
    ?_, ?_, ?_, ?_, ?_⟩
  · -- entries below the segment are preserved
    intro j hj
    rw [hother j (by omega), K2 j (by omega), List.get?_append (by omega)]
  · -- the child links of every segment node are well formed
    intro j hj1 hj2 c' hc'
    rcases Nat.eq_or_lt_of_le hj1 with rfl | hjgt
    · rw [hroot_children] at hc'
      obtain ⟨hk1, hk2, hk3⟩ := K4 c' hc'
      refine ⟨by omega, by omega, ?_⟩
      rw [parentAt_congr (hother c' (by omega)), hk3]
    · rw [childrenAt_congr (hother j (by omega))] at hc'
      obtain ⟨h1, h2, h3⟩ := K5 j (by omega) (by omega) c' hc'
      refine ⟨h1, by omega, ?_⟩
      rw [parentAt_congr (hother c' (by omega)), h3]
  · -- the parent link of every non-root segment node is well formed
    intro j hj1 hj2
    rcases K6 j (by omega) (by omega) with hmem | ⟨q, hq1, hq2, hq3, hq4⟩
    · refine ⟨acc.length, ?_, le_refl _, hj1, ?_⟩
      · rw [parentAt_congr (hother j (by omega)), (K4 j hmem).2.2]
      · rw [hroot_children]
        exact hmem
    · refine ⟨q, ?_, by omega, hq3, ?_⟩
      · rw [parentAt_congr (hother j (by omega)), hq1]
      · rw [childrenAt_congr (hother q (by omega))]
        exact hq4
  · -- all states are Unselected when no file is pre-selected
    intro hsel j hj1 hj2
    rcases Nat.eq_or_lt_of_le hj1 with rfl | hjgt
    · rw [hroot_state, hsel]
      rfl
    · rw [stateAt_congr (hother j (by omega))]
      exact K7 hsel j (by omega) (by omega)
  · -- files have no children
    intro hfc j hj1 hj2
    obtain ⟨hfc1, hfc2⟩ := filesChildless_sub hfc
    rcases Nat.eq_or_lt_of_le hj1 with rfl | hjgt
    · rw [hroot_dir, hroot_children]
      intro hd
      have := hfc1 hd
      subst this
      exact List.length_eq_zero.mp (by rw [K3]; rfl)
    · rw [isDirAt_congr (hother j (by omega)),
        childrenAt_congr (hother j (by omega))]
      exact K8 hfc2 j (by omega) (by omega)
  · -- directories have children
    intro hdn j hj1 hj2
    obtain ⟨hdn1, hdn2⟩ := dirsNonempty_sub hdn
    rcases Nat.eq_or_lt_of_le hj1 with rfl | hjgt
    · rw [hroot_dir, hroot_children]
      intro hd
      have hcne := hdn1 hd
      intro hcis
      exact hcne (List.length_eq_zero.mp (by rw [← K3, hcis]; rfl))
    · rw [isDirAt_congr (hother j (by omega)),
        childrenAt_congr (hother j (by omega))]
      exact K9 hdn2 j (by omega) (by omega)

/-- Assembly step for the `cons` case of `buildKids_ok`. -/
theorem buildKids_ok_assemble (sel : List (List String)) (pidx : Nat)
    (acc A1 A2 : List UITreeNode) (I2 : List Nat) (c : FileNode)
    (rest : List FileNode)
    (N2 : acc.length < A1.length)
    (N3 : ∀ j, j < acc.length → A1.get? j = acc.get? j)
    (N4 : parentAt A1 acc.length = some pidx)
    (N7 : ∀ j, acc.length ≤ j → j < A1.length → ∀ c' ∈ childrenAt A1 j,
      j < c' ∧ c' < A1.length ∧ parentAt A1 c' = some j)
    (N8 : ∀ j, acc.length < j → j < A1.length →
      ∃ q, parentAt A1 j = some q ∧ acc.length ≤ q ∧ q < j ∧
        j ∈ childrenAt A1 q)
    (N9 : sel = [] → ∀ j, acc.length ≤ j → j < A1.length →
      stateAt A1 j = .Unselected)
    (N10 : filesChildless c = true → ∀ j, acc.length ≤ j → j < A1.length →
      isDirAt A1 j = false → childrenAt A1 j = [])
    (N11 : dirsNonempty c = true → ∀ j, acc.length ≤ j → j < A1.length →
      isDirAt A1 j = true → childrenAt A1 j ≠ [])
    (K1 : A1.length ≤ A2.length)
    (K2 : ∀ j, j < A1.length → A2.get? j = A1.get? j)
    (K3 : I2.length = rest.length)
    (K4 : ∀ k ∈ I2, A1.length ≤ k ∧ k < A2.length ∧ parentAt A2 k = some pidx)
    (K5 : ∀ j, A1.length ≤ j → j < A2.length → ∀ c' ∈ childrenAt A2 j,
      j < c' ∧ c' < A2.length ∧ parentAt A2 c' = some j)
    (K6 : ∀ j, A1.length ≤ j → j < A2.length →
      j ∈ I2 ∨ ∃ q, parentAt A2 j = some q ∧ A1.length ≤ q ∧ q < j ∧
        j ∈ childrenAt A2 q)
    (K7 : sel = [] → ∀ j, A1.length ≤ j → j < A2.length →
      stateAt A2 j = .Unselected)
    (K8 : (∀ t ∈ rest, filesChildless t = true) → ∀ j, A1.length ≤ j →
      j < A2.length → isDirAt A2 j = false → childrenAt A2 j = [])
    (K9 : (∀ t ∈ rest, dirsNonempty t = true) → ∀ j, A1.length ≤ j →
      j < A2.length → isDirAt A2 j = true → childrenAt A2 j ≠ []) :
    acc.length ≤ A2.length ∧
    (∀ j, j < acc.length → A2.get? j = acc.get? j) ∧
    (acc.length :: I2).length = (c :: rest).length ∧
    (∀ k ∈ acc.length :: I2, acc.length ≤ k ∧ k < A2.length ∧
      parentAt A2 k = some pidx) ∧
    (∀ j, acc.length ≤ j → j < A2.length → ∀ c' ∈ childrenAt A2 j,
      j < c' ∧ c' < A2.length ∧ parentAt A2 c' = some j) ∧
    (∀ j, acc.length ≤ j → j < A2.length →
      j ∈ acc.length :: I2 ∨ ∃ q, parentAt A2 j = some q ∧ acc.length ≤ q ∧
        q < j ∧ j ∈ childrenAt A2 q) ∧
    (sel = [] → ∀ j, acc.length ≤ j → j < A2.length →
      stateAt A2 j = .Unselected) ∧
    ((∀ t ∈ c :: rest, filesChildless t = true) → ∀ j, acc.length ≤ j →
      j < A2.length → isDirAt A2 j = false → childrenAt A2 j = []) ∧
    ((∀ t ∈ c :: rest, dirsNonempty t = true) → ∀ j, acc.length ≤ j →
      j < A2.length → isDirAt A2 j = true → childrenAt A2 j ≠ []) := by
  have hpres : ∀ j, j < A1.length → A2.get? j = A1.get? j := K2
  refine ⟨by omega, ?_, by simp [K3], ?_, ?_, ?_, ?_, ?_, ?_⟩
  · intro j hj
    rw [hpres j (by omega), N3 j hj]
  · intro k hk
    rcases List.mem_cons.mp hk with rfl | hk
    · refine ⟨le_refl _, by omega, ?_⟩
      rw [parentAt_congr (hpres acc.length (by omega)), N4]
    · obtain ⟨h1, h2, h3⟩ := K4 k hk
      exact ⟨by omega, h2, h3⟩
  · intro j hj1 hj2 c' hc'
    by_cases hjr : j < A1.length
    · rw [childrenAt_congr (hpres j hjr)] at hc'
      obtain ⟨h1, h2, h3⟩ := N7 j hj1 hjr c' hc'
      refine ⟨h1, by omega, ?_⟩
      rw [parentAt_congr (hpres c' h2), h3]
    · exact K5 j (by omega) hj2 c' hc'
  · intro j hj1 hj2
    by_cases hjr : j < A1.length
    · rcases Nat.eq_or_lt_of_le hj1 with rfl | hjgt
      · exact Or.inl (List.mem_cons_self _ _)
      · obtain ⟨q, h1, h2, h3, h4⟩ := N8 j hjgt hjr
        refine Or.inr ⟨q, ?_, h2, h3, ?_⟩
        · rw [parentAt_congr (hpres j hjr), h1]
        · rw [childrenAt_congr (hpres q (by omega))]
          exact h4
    · rcases K6 j (by omega) hj2 with hmem | ⟨q, h1, h2, h3, h4⟩
      · exact Or.inl (List.mem_cons_of_mem _ hmem)
      · exact Or.inr ⟨q, h1, by omega, h3, h4⟩
  · intro hsel j hj1 hj2
    by_cases hjr : j < A1.length
    · rw [stateAt_congr (hpres j hjr)]
      exact N9 hsel j hj1 hjr
    · exact K7 hsel j (by omega) hj2
  · intro hall j hj1 hj2
    by_cases hjr : j < A1.length
    · rw [isDirAt_congr (hpres j hjr), childrenAt_congr (hpres j hjr)]
      exact N10 (hall c (List.mem_cons_self _ _)) j hj1 hjr
    · exact K8 (fun t ht => hall t (List.mem_cons_of_mem _ ht)) j (by omega) hj2
  · intro hall j hj1 hj2
    by_cases hjr : j < A1.length
    · rw [isDirAt_congr (hpres j hjr), childrenAt_congr (hpres j hjr)]
      exact N11 (hall c (List.mem_cons_self _ _)) j hj1 hjr
    · exact K9 (fun t ht => hall t (List.mem_cons_of_mem _ ht)) j (by omega) hj2

mutual

theorem buildNode_ok (sel : List (List String)) (t : FileNode) (parent : Option Nat)
    (acc : List UITreeNode) :
    (buildNode sel t parent acc).2 = acc.length ∧
    acc.length < (buildNode sel t parent acc).1.length ∧
    (∀ j, j < acc.length → (buildNode sel t parent acc).1.get? j = acc.get? j) ∧
    parentAt (buildNode sel t parent acc).1 acc.length = parent ∧
    isDirAt (buildNode sel t parent acc).1 acc.length = t.is_dir ∧
    (childrenAt (buildNode sel t parent acc).1 acc.length).length
      = t.children.length ∧
    (∀ j, acc.length ≤ j → j < (buildNode sel t parent acc).1.length →
      ∀ c ∈ childrenAt (buildNode sel t parent acc).1 j,
        j < c ∧ c < (buildNode sel t parent acc).1.length ∧
        parentAt (buildNode sel t parent acc).1 c = some j) ∧
    (∀ j, acc.length < j → j < (buildNode sel t parent acc).1.length →
      ∃ q, parentAt (buildNode sel t parent acc).1 j = some q ∧
        acc.length ≤ q ∧ q < j ∧
        j ∈ childrenAt (buildNode sel t parent acc).1 q) ∧
    (sel = [] → ∀ j, acc.length ≤ j →
      j < (buildNode sel t parent acc).1.length →
      stateAt (buildNode sel t parent acc).1 j = .Unselected) ∧
    (filesChildless t = true → ∀ j, acc.length ≤ j →
      j < (buildNode sel t parent acc).1.length →
      isDirAt (buildNode sel t parent acc).1 j = false →
      childrenAt (buildNode sel t parent acc).1 j = []) ∧
    (dirsNonempty t = true → ∀ j, acc.length ≤ j →
      j < (buildNode sel t parent acc).1.length →
      isDirAt (buildNode sel t parent acc).1 j = true →
      childrenAt (buildNode sel t parent acc).1 j ≠ []) := by
  cases t with
  | mk nm pth d c =>
  obtain ⟨K1, K2, K3, K4, K5, K6, K7, K8, K9⟩ :=
    buildKids_ok sel c acc.length
      (acc ++ [{ file_node_path := pth
                 display_name := nm
                 is_dir := d
                 selected_state :=
                   if sel.contains pth then .Selected else .Unselected
                 expanded := false
                 children_indices := []
                 parent_index := parent }])
  have heq : buildNode sel (.mk nm pth d c) parent acc =
      (setChildrenIndices
        (buildKids sel c acc.length
          (acc ++ [{ file_node_path := pth
                     display_name := nm
                     is_dir := d
                     selected_state :=
                       if sel.contains pth then .Selected else .Unselected
                     expanded := false
                     children_indices := []
                     parent_index := parent }])).1 acc.length
        (buildKids sel c acc.length
          (acc ++ [{ file_node_path := pth
                     display_name := nm
                     is_dir := d
                     selected_state :=
                       if sel.contains pth then .Selected else .Unselected
                     expanded := false
                     children_indices := []
                     parent_index := parent }])).2,
       acc.length) := by
    simp only [buildNode]
  rw [heq]
  dsimp only [FileNode.is_dir, FileNode.children]
  exact buildNode_ok_assemble sel nm pth d c parent acc _ rfl _ _
    K1 K2 K3 K4 K5 K6 K7 K8 K9

theorem buildKids_ok (sel : List (List String)) (l : List FileNode) (pidx : Nat)
    (acc : List UITreeNode) :
    acc.length ≤ (buildKids sel l pidx acc).1.length ∧
    (∀ j, j < acc.length →
      (buildKids sel l pidx acc).1.get? j = acc.get? j) ∧
    (buildKids sel l pidx acc).2.length = l.length ∧
    (∀ k ∈ (buildKids sel l pidx acc).2,
      acc.length ≤ k ∧ k < (buildKids sel l pidx acc).1.length ∧
      parentAt (buildKids sel l pidx acc).1 k = some pidx) ∧
    (∀ j, acc.length ≤ j → j < (buildKids sel l pidx acc).1.length →
      ∀ c ∈ childrenAt (buildKids sel l pidx acc).1 j,
        j < c ∧ c < (buildKids sel l pidx acc).1.length ∧
        parentAt (buildKids sel l pidx acc).1 c = some j) ∧
    (∀ j, acc.length ≤ j → j < (buildKids sel l pidx acc).1.length →
      j ∈ (buildKids sel l pidx acc).2 ∨
      ∃ q, parentAt (buildKids sel l pidx acc).1 j = some q ∧
        acc.length ≤ q ∧ q < j ∧
        j ∈ childrenAt (buildKids sel l pidx acc).1 q) ∧
    (sel = [] → ∀ j, acc.length ≤ j →
      j < (buildKids sel l pidx acc).1.length →
      stateAt (buildKids sel l pidx acc).1 j = .Unselected) ∧
    ((∀ t ∈ l, filesChildless t = true) → ∀ j, acc.length ≤ j →
      j < (buildKids sel l pidx acc).1.length →
      isDirAt (buildKids sel l pidx acc).1 j = false →
      childrenAt (buildKids sel l pidx acc).1 j = []) ∧
    ((∀ t ∈ l, dirsNonempty t = true) → ∀ j, acc.length ≤ j →
      j < (buildKids sel l pidx acc).1.length →
      isDirAt (buildKids sel l pidx acc).1 j = true →
      childrenAt (buildKids sel l pidx acc).1 j ≠ []) := by
  cases l with
  | nil =>
    have heq : buildKids sel ([] : List FileNode) pidx acc = (acc, []) := by
      simp only [buildKids]
    rw [heq]
    dsimp only
    refine ⟨le_refl _, fun j _ => rfl, rfl, ?_, ?_, ?_, ?_, ?_, ?_⟩
    · intro k hk
      exact absurd hk (List.not_mem_nil k)
    · intro j h1 h2
      omega
    · intro j h1 h2
      omega
    · intro _ j h1 h2
      omega
    · intro _ j h1 h2 _
      omega
    · intro _ j h1 h2 _
      omega
  | cons c rest =>
    obtain ⟨N1, N2, N3, N4, _N5, _N6, N7, N8, N9, N10, N11⟩ :=
      buildNode_ok sel c (some pidx) acc
    obtain ⟨K1, K2, K3, K4, K5, K6, K7, K8, K9⟩ :=
      buildKids_ok sel rest pidx (buildNode sel c (some pidx) acc).1
    have heq : buildKids sel (c :: rest) pidx acc =
        ((buildKids sel rest pidx (buildNode sel c (some pidx) acc).1).1,
         (buildNode sel c (some pidx) acc).2 ::
           (buildKids sel rest pidx (buildNode sel c (some pidx) acc).1).2) := by
      simp only [buildKids]
    rw [heq, N1]
    exact buildKids_ok_assemble sel pidx acc
      (buildNode sel c (some pidx) acc).1
      (buildKids sel rest pidx (buildNode sel c (some pidx) acc).1).1
      (buildKids sel rest pidx (buildNode sel c (some pidx) acc).1).2 c rest
      N2 N3 N4 N7 N8 N9 N10 N11 K1 K2 K3 K4 K5 K6 K7 K8 K9

end

/-! ## Bridges between the Bool checkers and the Prop invariants -/

/-- Decidable version of `FilesChildlessA`. -/
def filesChildlessAB (ns : List UITreeNode) : Bool :=
  (List.range ns.length).all fun i => isDirAt ns i || (childrenAt ns i).isEmpty

theorem wfArenaB_iff (ns : List UITreeNode) : wfArenaB ns = true ↔ WfA ns := by
  unfold wfArenaB WfA
  rw [Bool.and_eq_true, List.all_eq_true, List.all_eq_true]
  constructor
  · intro ⟨h1, h2⟩
    constructor
    · intro i hi c hc
      have := h1 i (List.mem_range.mpr hi)
      rw [List.all_eq_true] at this
      have := this c hc
      simp only [Bool.and_eq_true, decide_eq_true_eq, beq_iff_eq] at this
      exact ⟨this.1.1, this.1.2, this.2⟩
    · intro j q hj hq
      have := h2 j (List.mem_range.mpr hj)
      rw [hq] at this
      simp only [Bool.and_eq_true, decide_eq_true_eq, List.elem_iff] at this
      exact this
  · intro ⟨h1, h2⟩
    constructor
    · intro i hi
      rw [List.all_eq_true]
      intro c hc
      obtain ⟨hc1, hc2, hc3⟩ := h1 i (List.mem_range.mp hi) c hc
      simp only [Bool.and_eq_true, decide_eq_true_eq, beq_iff_eq]
      exact ⟨⟨hc1, hc2⟩, hc3⟩
    · intro j hj
      cases hq : parentAt ns j with
      | none => rfl
      | some q =>
        obtain ⟨hq1, hq2⟩ := h2 j q (List.mem_range.mp hj) hq
        simp only [Bool.and_eq_true, decide_eq_true_eq, List.elem_iff]
        exact ⟨hq1, hq2⟩

theorem filesChildlessAB_iff (ns : List UITreeNode) :
    filesChildlessAB ns = true ↔ FilesChildlessA ns := by
  unfold filesChildlessAB FilesChildlessA
  rw [List.all_eq_true]
  constructor
  · intro h i hdir
    by_cases hi : i < ns.length
    · have := h i (List.mem_range.mpr hi)
      rw [hdir] at this
      simp only [Bool.false_or, List.isEmpty_iff] at this
      exact this
    · unfold childrenAt
      rw [List.get?_eq_none.mpr (by omega)]
  · intro h i _
    cases hdir : isDirAt ns i
    · rw [h i hdir]
      rfl
    · rfl

/-! ## Facts about `update_all_selection_states` and `build_from_file_node` -/

theorem skelEq_update_all (ns : List UITreeNode) :
    SkelEq ns (update_all_selection_states ns) := by
  unfold update_all_selection_states
  generalize (List.range ns.length).filter _ = ls
  suffices h : ∀ (ls : List Nat) (acc : List UITreeNode), SkelEq ns acc →
      SkelEq ns (ls.foldl (fun acc leaf_index =>
        match parentAt acc leaf_index with
        | some p => update_parent_selection_state ns.length acc p
        | none => acc) acc) by
    exact h ls ns (SkelEq.refl ns)
  intro ls
  induction ls with
  | nil => intro acc hacc; exact hacc
  | cons a rest ih =>
    intro acc hacc
    simp only [List.foldl_cons]
    cases hp : parentAt acc a with
    | none => exact ih acc hacc
    | some p =>
      exact ih _ (SkelEq.trans hacc (skelEq_update ns.length acc p))

theorem aggState_all_unselected {l : List SelectionState} (hne : l ≠ [])
    (h : ∀ x ∈ l, x = .Unselected) : aggState l = .Unselected := by
  unfold aggState
  have h1 : l.all (· == SelectionState.Selected) = false := by
    cases l with
    | nil => exact absurd rfl hne
    | cons x rest =>
      have := h x (List.mem_cons_self x rest)
      subst this
      rfl
  have h2 : l.all (· == SelectionState.Unselected) = true := by
    rw [List.all_eq_true]
    intro x hx
    rw [h x hx]
    rfl
  rw [h1, h2]
  rfl

theorem update_parent_unselected (f : Nat) :
    ∀ (ns : List UITreeNode) (p : Nat), (∀ j, stateAt ns j = .Unselected) →
      ∀ j, stateAt (update_parent_selection_state f ns p) j = .Unselected := by
  induction f with
  | zero => intro ns p h j; exact h j
  | succ f ih =>
    intro ns p h j
    cases hch : childrenAt ns p with
    | nil =>
      rw [update_succ_empty (by rw [hch]; rfl)]
      exact h j
    | cons a rest =>
      have hne : (childrenAt ns p).isEmpty = false := by rw [hch]; rfl
      have hagg : aggState ((childrenAt ns p).map (stateAt ns)) = .Unselected := by
        refine aggState_all_unselected (by rw [hch]; simp) ?_
        intro x hx
        obtain ⟨c, _, rfl⟩ := List.mem_map.mp hx
        exact h c
      have hstates : ∀ j, stateAt (setState ns p
          (aggState ((childrenAt ns p).map (stateAt ns)))) j = .Unselected := by
        intro j
        rw [stateAt_setState]
        split
        · rw [hagg]
        · exact h j
      cases hgp : parentAt ns p with
      | none =>
        rw [update_succ_none hne hgp]
        exact hstates j
      | some gp =>
        rw [update_succ_some hne hgp]
        exact ih _ gp hstates j

theorem update_all_unselected (ns : List UITreeNode)
    (h : ∀ j, stateAt ns j = .Unselected) :
    ∀ j, stateAt (update_all_selection_states ns) j = .Unselected := by
  unfold update_all_selection_states
  generalize (List.range ns.length).filter _ = ls
  suffices hgen : ∀ (ls : List Nat) (acc : List UITreeNode),
      (∀ j, stateAt acc j = .Unselected) →
      ∀ j, stateAt (ls.foldl (fun acc leaf_index =>
        match parentAt acc leaf_index with
        | some p => update_parent_selection_state ns.length acc p
        | none => acc) acc) j = .Unselected by
    exact hgen ls ns h
  intro ls
  induction ls with
  | nil => intro acc hacc; exact hacc
  | cons a rest ih =>
    intro acc hacc
    simp only [List.foldl_cons]
    cases hp : parentAt acc a with
    | none => exact ih acc hacc
    | some p =>
      exact ih _ (update_parent_unselected ns.length acc p hacc)

theorem built_skel_facts (sel : List (List String)) (root : FileNode) :
    WfA (update_all_selection_states (buildNode sel root none []).1) ∧
    0 < (update_all_selection_states (buildNode sel root none []).1).length ∧
    (filesChildless root = true →
      FilesChildlessA (update_all_selection_states (buildNode sel root none []).1)) ∧
    (dirsNonempty root = true →
      DirsNonemptyA (update_all_selection_states (buildNode sel root none []).1)) := by
  obtain ⟨N1, N2, N3, N4, N5, N6, N7, N8, N9, N10, N11⟩ :=
    buildNode_ok sel root none []
  set B := (buildNode sel root none []).1 with hB
  have hskel : SkelEq B (update_all_selection_states B) := skelEq_update_all B
  have hwfB : WfA B := by
    constructor
    · intro i hi c hc
      exact N7 i (by simp) hi c hc
    · intro j q hj hq
      cases Nat.eq_zero_or_pos j with
      | inl hj0 =>
        subst hj0
        rw [show parentAt B 0 = none from N4] at hq
        exact Option.noConfusion hq
      | inr hjpos =>
        obtain ⟨q', hq1, _, hq3, hq4⟩ := N8 j (by simp; omega) hj
        rw [hq] at hq1
        cases hq1
        exact ⟨hq3, hq4⟩
  have hfcB : filesChildless root = true → FilesChildlessA B := by
    intro hfc i hdir
    by_cases hi : i < B.length
    · exact N10 hfc i (by simp) hi hdir
    · unfold childrenAt
      rw [List.get?_eq_none.mpr (by omega)]
  have hdnB : dirsNonempty root = true → DirsNonemptyA B := by
    intro hdn i hi hdir
    exact N11 hdn i (by simp) hi hdir
  refine ⟨WfA_skelEq hskel hwfB, by have := hskel.1; omega, ?_, ?_⟩
  · intro hfc
    exact FilesChildlessA_skelEq hskel (hfcB hfc)
  · intro hdn
    exact DirsNonemptyA_skelEq hskel (hdnB hdn)

theorem built_unselected (root : FileNode) :
    ∀ j, stateAt (build_from_file_node UITreeHandler.new root).tree_nodes j
      = .Unselected := by
  obtain ⟨N1, N2, N3, N4, N5, N6, N7, N8, N9, N10, N11⟩ :=
    buildNode_ok ([] : List (List String)) root none []
  have hB : ∀ j, stateAt (buildNode [] root none []).1 j = .Unselected := by
    intro j
    by_cases hj : j < (buildNode [] root none []).1.length
    · exact N9 rfl j (by simp) hj
    · unfold stateAt
      rw [List.get?_eq_none.mpr (by omega)]
  exact update_all_unselected _ hB

/-! ## Preservation of the selection-consistency invariant under toggles -/

theorem aggState_eq_selected_iff {l : List SelectionState} (hne : l ≠ []) :
    aggState l = .Selected ↔ ∀ x ∈ l, x = .Selected := by
  unfold aggState
  by_cases h1 : l.all (· == SelectionState.Selected) = true
  · rw [if_pos h1]
    rw [List.all_eq_true] at h1
    constructor
    · intro _ x hx
      exact beq_iff_eq.mp (h1 x hx)
    · intro _
      rfl
  · rw [if_neg h1]
    have h2 : ¬ ∀ x ∈ l, x = SelectionState.Selected := by
      intro hc
      apply h1
      rw [List.all_eq_true]
      intro x hx
      rw [hc x hx]
      rfl
    split
    · simp [h2]
    · simp [h2]

theorem aggState_eq_unselected_iff {l : List SelectionState} (hne : l ≠ []) :
    aggState l = .Unselected ↔ ∀ x ∈ l, x = .Unselected := by
  unfold aggState
  by_cases h1 : l.all (· == SelectionState.Selected) = true
  · rw [if_pos h1]
    rw [List.all_eq_true] at h1
    constructor
    · intro hc
      exact absurd hc (by simp)
    · intro hall
      cases l with
      | nil => exact absurd rfl hne
      | cons x rest =>
        have ha := beq_iff_eq.mp (h1 x (List.mem_cons_self x rest))
        have hb := hall x (List.mem_cons_self x rest)
        rw [ha] at hb
        exact absurd hb (by simp)
  · rw [if_neg h1]
    by_cases h2 : l.all (· == SelectionState.Unselected) = true
    · rw [if_pos h2, List.all_eq_true] at *
      simp only [true_iff]
      intro x hx
      exact beq_iff_eq.mp (h2 x hx)
    · rw [if_neg h2]
      have h3 : ¬ ∀ x ∈ l, x = SelectionState.Unselected := by
        intro hc
        apply h2
        rw [List.all_eq_true]
        intro x hx
        rw [hc x hx]
        rfl
      simp [h3]

theorem aggState_const {l : List SelectionState} {s : SelectionState}
    (hne : l ≠ []) (hs : s ≠ .PartiallySelected) (h : ∀ x ∈ l, x = s) :
    aggState l = s := by
  cases s with
  | Selected => exact (aggState_eq_selected_iff hne).mpr h
  | Unselected => exact (aggState_eq_unselected_iff hne).mpr h
  | PartiallySelected => exact absurd rfl hs

theorem flipState_ne_partiallySel (s : SelectionState) :
    flipState s ≠ .PartiallySelected := by
  cases s <;> simp [flipState]

theorem toggle_preserves_InvA (h : UITreeHandler) (i : Nat)
    (hwf : WfA h.tree_nodes) (hfc : FilesChildlessA h.tree_nodes)
    (hinv : InvA h.tree_nodes) (hi : i < h.tree_nodes.length) :
    InvA (toggle_node_selection h i).tree_nodes := by
  obtain ⟨T1, T2, T3, T4⟩ := toggle_states h i hwf hfc hi
  have hskel : SkelEq h.tree_nodes (toggle_node_selection h i).tree_nodes :=
    skelEq_toggle h i
  intro j hj hdir hne
  rw [← hskel.1] at hj
  rw [← (hskel.2 j).1] at hne ⊢
  rw [← (hskel.2 j).2.2] at hdir
  by_cases hanc : AncChain h.tree_nodes i j
  · exact T3 j hanc
  · by_cases hji : j = i
    · -- j is the toggled node: all its children were just set to the new state
      subst hji
      rw [T1]
      refine (aggState_const (by simpa using hne) (flipState_ne_partiallySel _) ?_).symm
      intro x hx
      obtain ⟨c, hc, rfl⟩ := List.mem_map.mp hx
      exact T2 c (Desc_child hwf hj hc)
    · by_cases hdj : Desc h.tree_nodes i j
      · -- j is a strict descendant: its children are deeper descendants
        rw [T2 j hdj]
        refine (aggState_const (by simpa using hne) (flipState_ne_partiallySel _) ?_).symm
        intro x hx
        obtain ⟨c, hc, rfl⟩ := List.mem_map.mp hx
        have hjlen := (Desc_bounds hwf hi hdj).2
        exact T2 c (Desc_trans hwf _ (le_refl _) hi hdj (Desc_child hwf hjlen hc))
      · -- j is unrelated: neither j nor its children moved
        rw [T4 j hji hdj hanc]
        rw [hinv j hj hdir hne]
        congr 1
        refine List.map_congr_left fun c hc => ?_
        obtain ⟨hjc, hcn, hcp⟩ := hwf.1 j hj c hc
        refine (T4 c ?_ ?_ ?_).symm
        · intro hci
          subst hci
          exact hanc ⟨j, hcp, Chain_refl hwf hj⟩
        · intro hdc
          rcases Desc_parent hwf _ (le_refl _) hi hdc hcp with rfl | hd
          · exact hji rfl
          · exact hdj hd
        · intro ⟨q, hq, hchain⟩
          exact hanc ⟨q, hq, Chain_parent_closed hwf _ (le_refl _)
            ((hwf.2 i q hi hq).1.trans hi) hchain hcp⟩

theorem applyToggles_skel_inv (ts : List Nat) :
    ∀ (h : UITreeHandler), WfA h.tree_nodes → FilesChildlessA h.tree_nodes →
      InvA h.tree_nodes → (∀ t ∈ ts, t < h.tree_nodes.length) →
      SkelEq h.tree_nodes (applyToggles h ts).tree_nodes ∧
      InvA (applyToggles h ts).tree_nodes := by
  induction ts with
  | nil => intro h _ _ hinv _; exact ⟨SkelEq.refl _, hinv⟩
  | cons t rest ih =>
    intro h hwf hfc hinv hts
    have ht : t < h.tree_nodes.length := hts t (List.mem_cons_self t rest)
    have hskel1 : SkelEq h.tree_nodes (toggle_node_selection h t).tree_nodes :=
      skelEq_toggle h t
    have hinv1 : InvA (toggle_node_selection h t).tree_nodes :=
      toggle_preserves_InvA h t hwf hfc hinv ht
    have hwf1 : WfA (toggle_node_selection h t).tree_nodes :=
      WfA_skelEq hskel1 hwf
    have hfc1 : FilesChildlessA (toggle_node_selection h t).tree_nodes :=
      FilesChildlessA_skelEq hskel1 hfc
    have hts1 : ∀ x ∈ rest, x < (toggle_node_selection h t).tree_nodes.length := by
      intro x hx
      rw [← hskel1.1]
      exact hts x (List.mem_cons_of_mem t hx)
    obtain ⟨hskel2, hinv2⟩ := ih (toggle_node_selection h t) hwf1 hfc1 hinv1 hts1
    exact ⟨SkelEq.trans hskel1 hskel2, hinv2⟩

/-- From the local invariant to the claim's global tri-state description. -/
theorem InvA_tristate (ns : List UITreeNode) (hwf : WfA ns)
    (hfc : FilesChildlessA ns) (hdn : DirsNonemptyA ns) (hinv : InvA ns) :
    ∀ (d : Nat) (i : Nat), ns.length - i ≤ d → i < ns.length →
      isDirAt ns i = true →
      ((stateAt ns i = .Selected ↔ ∀ j, Desc ns i j → stateAt ns j = .Selected) ∧
       (stateAt ns i = .Unselected ↔
         ∀ j, Desc ns i j → stateAt ns j = .Unselected)) := by
  intro d
  induction d with
  | zero => intro i hd hi _; omega
  | succ d ih =>
    intro i hd hi hdir
    have hne : childrenAt ns i ≠ [] := hdn i hi hdir
    have hst := hinv i hi hdir hne
    have hmapne : (childrenAt ns i).map (stateAt ns) ≠ [] := by simpa using hne
    have hchild := hwf.1 i hi
    have hdesc_of_child : ∀ c ∈ childrenAt ns i, ∀ j, Desc ns c j →
        stateAt ns c = stateAt ns j ∨
        ((stateAt ns c = .Selected → stateAt ns j = .Selected) ∧
         (stateAt ns c = .Unselected → stateAt ns j = .Unselected)) := by
      intro c hc j hdj
      obtain ⟨hic, hcn, _⟩ := hchild c hc
      cases hcd : isDirAt ns c with
      | false =>
        have : childrenAt ns c = [] := hfc c hcd
        unfold Desc at hdj
        rw [descendantB_of_no_children this] at hdj
        exact absurd hdj (by simp)
      | true =>
        have := ih c (by omega) hcn hcd
        exact Or.inr ⟨fun hcs => (this.1.mp hcs) j hdj,
          fun hcs => (this.2.mp hcs) j hdj⟩
    constructor
    · constructor
      · intro hsel j hdj
        rw [hst] at hsel
        have hall := (aggState_eq_selected_iff hmapne).mp hsel
        have hallc : ∀ c ∈ childrenAt ns i, stateAt ns c = .Selected := by
          intro c hc
          exact hall (stateAt ns c) (List.mem_map.mpr ⟨c, hc, rfl⟩)
        obtain ⟨c, hc, hcase⟩ := (Desc_unfold hwf hi j).mp hdj
        rcases hcase with rfl | hdcj
        · exact hallc c hc
        · rcases hdesc_of_child c hc j hdcj with heq | ⟨h1, _⟩
          · rw [← heq]; exact hallc c hc
          · exact h1 (hallc c hc)
      · intro hall
        rw [hst]
        refine (aggState_eq_selected_iff hmapne).mpr ?_
        intro x hx
        obtain ⟨c, hc, rfl⟩ := List.mem_map.mp hx
        exact hall c (Desc_child hwf hi hc)
    · constructor
      · intro hsel j hdj
        rw [hst] at hsel
        have hall := (aggState_eq_unselected_iff hmapne).mp hsel
        have hallc : ∀ c ∈ childrenAt ns i, stateAt ns c = .Unselected := by
          intro c hc
          exact hall (stateAt ns c) (List.mem_map.mpr ⟨c, hc, rfl⟩)
        obtain ⟨c, hc, hcase⟩ := (Desc_unfold hwf hi j).mp hdj
        rcases hcase with rfl | hdcj
        · exact hallc c hc
        · rcases hdesc_of_child c hc j hdcj with heq | ⟨_, h2⟩
          · rw [← heq]; exact hallc c hc
          · exact h2 (hallc c hc)
      · intro hall
        rw [hst]
        refine (aggState_eq_unselected_iff hmapne).mpr ?_
        intro x hx
        obtain ⟨c, hc, rfl⟩ := List.mem_map.mp hx
        exact hall c (Desc_child hwf hi hc)

/-! ## Claim theorems for the selection model -/

theorem skelEq_applyToggles (ts : List Nat) :
    ∀ (h : UITreeHandler),
      SkelEq h.tree_nodes (applyToggles h ts).tree_nodes := by
  induction ts with
  | nil => intro h; exact SkelEq.refl _
  | cons t rest ih =>
    intro h
    exact SkelEq.trans (skelEq_toggle h t) (ih (toggle_node_selection h t))

/-- **C10**: in the selection model's index-based arena, after
`build_from_file_node` and after any sequence of toggle operations (which in
turn perform the propagate/update state-update operations), every node's
`parent_index` and every entry of every node's `children_indices` are valid
indices into `tree_nodes`, and a node listed in a parent's
`children_indices` has that parent's index as its `parent_index`; no
selection operation indexes out of bounds. -/
theorem claim_C10_arena_indices_valid (h0 : UITreeHandler) (root : FileNode)
    (ts : List Nat)
    (hts : ∀ t ∈ ts, t < (build_from_file_node h0 root).tree_nodes.length) :
    ∀ i, i < (applyToggles (build_from_file_node h0 root) ts).tree_nodes.length →
      (∀ c ∈ childrenAt
          (applyToggles (build_from_file_node h0 root) ts).tree_nodes i,
        c < (applyToggles (build_from_file_node h0 root) ts).tree_nodes.length ∧
        parentAt (applyToggles (build_from_file_node h0 root) ts).tree_nodes c
          = some i) ∧
      (∀ p, parentAt (applyToggles (build_from_file_node h0 root) ts).tree_nodes i
          = some p →
        p < (applyToggles (build_from_file_node h0 root) ts).tree_nodes.length ∧
        i ∈ childrenAt
          (applyToggles (build_from_file_node h0 root) ts).tree_nodes p) := by
  have hbuilt : (build_from_file_node h0 root).tree_nodes =
      update_all_selection_states (buildNode h0.selected_files root none []).1 :=
    rfl
  obtain ⟨hwfB, _, _, _⟩ := built_skel_facts h0.selected_files root
  have hwf : WfA (applyToggles (build_from_file_node h0 root) ts).tree_nodes := by
    refine WfA_skelEq (skelEq_applyToggles ts (build_from_file_node h0 root)) ?_
    rw [hbuilt]
    exact hwfB
  intro i hi
  constructor
  · intro c hc
    obtain ⟨_, h2, h3⟩ := hwf.1 i hi c hc
    exact ⟨h2, h3⟩
  · intro p hp
    obtain ⟨h1, h2⟩ := hwf.2 i p hi hp
    exact ⟨by omega, h2⟩

theorem claim_C10_arena_indices_valid_witness :
    (∀ c ∈ childrenAt (applyToggles (build_from_file_node UITreeHandler.new
      (.mk "d" ["d"] true
        [.mk "s" ["d","s"] true [.mk "a" ["d","s","a"] false []],
         .mk "b" ["d","b"] false []])) [1, 3]).tree_nodes 0,
      c < (applyToggles (build_from_file_node UITreeHandler.new
      (.mk "d" ["d"] true
        [.mk "s" ["d","s"] true [.mk "a" ["d","s","a"] false []],
         .mk "b" ["d","b"] false []])) [1, 3]).tree_nodes.length ∧
      parentAt (applyToggles (build_from_file_node UITreeHandler.new
      (.mk "d" ["d"] true
        [.mk "s" ["d","s"] true [.mk "a" ["d","s","a"] false []],
         .mk "b" ["d","b"] false []])) [1, 3]).tree_nodes c = some 0) ∧
    (∀ p, parentAt (applyToggles (build_from_file_node UITreeHandler.new
      (.mk "d" ["d"] true
        [.mk "s" ["d","s"] true [.mk "a" ["d","s","a"] false []],
         .mk "b" ["d","b"] false []])) [1, 3]).tree_nodes 0 = some p →
      p < (applyToggles (build_from_file_node UITreeHandler.new
      (.mk "d" ["d"] true
        [.mk "s" ["d","s"] true [.mk "a" ["d","s","a"] false []],
         .mk "b" ["d","b"] false []])) [1, 3]).tree_nodes.length ∧
      0 ∈ childrenAt (applyToggles (build_from_file_node UITreeHandler.new
      (.mk "d" ["d"] true
        [.mk "s" ["d","s"] true [.mk "a" ["d","s","a"] false []],
         .mk "b" ["d","b"] false []])) [1, 3]).tree_nodes p) :=
  claim_C10_arena_indices_valid UITreeHandler.new
    (.mk "d" ["d"] true
      [.mk "s" ["d","s"] true [.mk "a" ["d","s","a"] false []],
       .mk "b" ["d","b"] false []]) [1, 3] (by decide) 0 (by decide)

/-- **C3**: toggling a node maps `Selected` to `Unselected` and `Unselected`
or `PartiallySelected` to `Selected`; if the toggled node is a directory the
new state is assigned to every descendant unconditionally, and afterwards
every strict ancestor's state is recomputed as the aggregation of its
children's (final) states. -/
theorem claim_C3_toggle_spec (h : UITreeHandler) (i : Nat)
    (hwf : wfArenaB h.tree_nodes = true)
    (hfc : filesChildlessAB h.tree_nodes = true)
    (hi : i < h.tree_nodes.length) :
    (stateAt (toggle_node_selection h i).tree_nodes i =
      match stateAt h.tree_nodes i with
      | .Selected => .Unselected
      | .Unselected => .Selected
      | .PartiallySelected => .Selected) ∧
    (isDirAt h.tree_nodes i = true → ∀ j, Desc h.tree_nodes i j →
      stateAt (toggle_node_selection h i).tree_nodes j =
        match stateAt h.tree_nodes i with
        | .Selected => .Unselected
        | .Unselected => .Selected
        | .PartiallySelected => .Selected) ∧
    (∀ j, AncChain h.tree_nodes i j →
      stateAt (toggle_node_selection h i).tree_nodes j =
        aggState ((childrenAt h.tree_nodes j).map
          (stateAt (toggle_node_selection h i).tree_nodes))) := by
  have hwf' := (wfArenaB_iff h.tree_nodes).mp hwf
  have hfc' := (filesChildlessAB_iff h.tree_nodes).mp hfc
  obtain ⟨T1, T2, T3, _⟩ := toggle_states h i hwf' hfc' hi
  have hmatch : (match stateAt h.tree_nodes i with
      | SelectionState.Selected => SelectionState.Unselected
      | SelectionState.Unselected => SelectionState.Selected
      | SelectionState.PartiallySelected => SelectionState.Selected)
      = flipState (stateAt h.tree_nodes i) := by
    cases stateAt h.tree_nodes i <;> rfl
  rw [hmatch]
  exact ⟨T1, fun _ j hj => T2 j hj, T3⟩

theorem claim_C3_toggle_spec_witness :
    (stateAt (toggle_node_selection (build_from_file_node UITreeHandler.new
        (.mk "d" ["d"] true [.mk "a" ["d","a"] false [],
          .mk "b" ["d","b"] false []])) 1).tree_nodes 1 =
      match stateAt (build_from_file_node UITreeHandler.new
        (.mk "d" ["d"] true [.mk "a" ["d","a"] false [],
          .mk "b" ["d","b"] false []])).tree_nodes 1 with
      | .Selected => .Unselected
      | .Unselected => .Selected
      | .PartiallySelected => .Selected) ∧
    (isDirAt (build_from_file_node UITreeHandler.new
        (.mk "d" ["d"] true [.mk "a" ["d","a"] false [],
          .mk "b" ["d","b"] false []])).tree_nodes 1 = true →
      ∀ j, Desc (build_from_file_node UITreeHandler.new
        (.mk "d" ["d"] true [.mk "a" ["d","a"] false [],
          .mk "b" ["d","b"] false []])).tree_nodes 1 j →
      stateAt (toggle_node_selection (build_from_file_node UITreeHandler.new
        (.mk "d" ["d"] true [.mk "a" ["d","a"] false [],
          .mk "b" ["d","b"] false []])) 1).tree_nodes j =
        match stateAt (build_from_file_node UITreeHandler.new
        (.mk "d" ["d"] true [.mk "a" ["d","a"] false [],
          .mk "b" ["d","b"] false []])).tree_nodes 1 with
        | .Selected => .Unselected
        | .Unselected => .Selected
        | .PartiallySelected => .Selected) ∧
    (∀ j, AncChain (build_from_file_node UITreeHandler.new
        (.mk "d" ["d"] true [.mk "a" ["d","a"] false [],
          .mk "b" ["d","b"] false []])).tree_nodes 1 j →
      stateAt (toggle_node_selection (build_from_file_node UITreeHandler.new
        (.mk "d" ["d"] true [.mk "a" ["d","a"] false [],
          .mk "b" ["d","b"] false []])) 1).tree_nodes j =
        aggState ((childrenAt (build_from_file_node UITreeHandler.new
        (.mk "d" ["d"] true [.mk "a" ["d","a"] false [],
          .mk "b" ["d","b"] false []])).tree_nodes j).map
          (stateAt (toggle_node_selection (build_from_file_node UITreeHandler.new
        (.mk "d" ["d"] true [.mk "a" ["d","a"] false [],
          .mk "b" ["d","b"] false []])) 1).tree_nodes))) :=
  claim_C3_toggle_spec (build_from_file_node UITreeHandler.new
    (.mk "d" ["d"] true [.mk "a" ["d","a"] false [],
      .mk "b" ["d","b"] false []])) 1 (by decide) (by decide) (by decide)

/-- **C2 (counterexample)**: the claim as stated is false.  In the tree
`d/{empty/, a.txt}` where `empty` is a directory with no children, toggling
the node of `empty` (index 1) gives that childless directory the state
`Selected`, although the claim requires a directory with no children to
always have state `Unselected` (and requires `Unselected` whenever all — here
vacuously all — descendants are `Unselected`). -/
theorem claim_C2_counterexample :
    isDirAt (applyToggles (build_from_file_node UITreeHandler.new
      (.mk "d" ["d"] true [.mk "empty" ["d","empty"] true [],
        .mk "a.txt" ["d","a.txt"] false []])) [1]).tree_nodes 1 = true ∧
    childrenAt (applyToggles (build_from_file_node UITreeHandler.new
      (.mk "d" ["d"] true [.mk "empty" ["d","empty"] true [],
        .mk "a.txt" ["d","a.txt"] false []])) [1]).tree_nodes 1 = [] ∧
    stateAt (applyToggles (build_from_file_node UITreeHandler.new
      (.mk "d" ["d"] true [.mk "empty" ["d","empty"] true [],
        .mk "a.txt" ["d","a.txt"] false []])) [1]).tree_nodes 1 =
      .Selected := by
  refine ⟨by decide, by decide, by decide⟩

/-- **C2 (amended)**: for every tree in which only directories have children
and every directory has at least one child, after any sequence of valid
toggle calls on a freshly built selection model, a directory's state is
`Selected` iff all of its descendants are `Selected`, `Unselected` iff all
of its descendants are `Unselected`, and `PartiallySelected` otherwise.
(The original claim fails only for childless directories, which a toggle can
set to `Selected`; the convention that a childless directory is `Unselected`
holds after build but is not maintained by toggles.) -/
theorem claim_C2_selection_consistency (root : FileNode) (ts : List Nat)
    (hfc : filesChildless root = true) (hdn : dirsNonempty root = true)
    (hts : ∀ t ∈ ts,
      t < (build_from_file_node UITreeHandler.new root).tree_nodes.length) :
    ∀ i, i < (applyToggles (build_from_file_node UITreeHandler.new root)
        ts).tree_nodes.length →
      isDirAt (applyToggles (build_from_file_node UITreeHandler.new root)
        ts).tree_nodes i = true →
      ((stateAt (applyToggles (build_from_file_node UITreeHandler.new root)
          ts).tree_nodes i = .Selected ↔
        ∀ j, Desc (applyToggles (build_from_file_node UITreeHandler.new root)
          ts).tree_nodes i j →
          stateAt (applyToggles (build_from_file_node UITreeHandler.new root)
            ts).tree_nodes j = .Selected) ∧
       (stateAt (applyToggles (build_from_file_node UITreeHandler.new root)
          ts).tree_nodes i = .Unselected ↔
        ∀ j, Desc (applyToggles (build_from_file_node UITreeHandler.new root)
          ts).tree_nodes i j →
          stateAt (applyToggles (build_from_file_node UITreeHandler.new root)
            ts).tree_nodes j = .Unselected) ∧
       (stateAt (applyToggles (build_from_file_node UITreeHandler.new root)
          ts).tree_nodes i = .PartiallySelected ↔
        (¬ ∀ j, Desc (applyToggles (build_from_file_node UITreeHandler.new root)
          ts).tree_nodes i j →
          stateAt (applyToggles (build_from_file_node UITreeHandler.new root)
            ts).tree_nodes j = .Selected) ∧
        (¬ ∀ j, Desc (applyToggles (build_from_file_node UITreeHandler.new root)
          ts).tree_nodes i j →
          stateAt (applyToggles (build_from_file_node UITreeHandler.new root)
            ts).tree_nodes j = .Unselected))) := by
  have hbuilt : (build_from_file_node UITreeHandler.new root).tree_nodes =
      update_all_selection_states (buildNode [] root none []).1 := rfl
  obtain ⟨hwfB, hlenB, hfcB, hdnB⟩ := built_skel_facts [] root
  rw [← hbuilt] at hwfB hfcB hdnB
  have hunsel := built_unselected root
  have hinvB : InvA (build_from_file_node UITreeHandler.new root).tree_nodes := by
    intro i hi hdir hne
    rw [hunsel i]
    refine (aggState_all_unselected (by simpa using hne) ?_).symm
    intro x hx
    obtain ⟨c, _, rfl⟩ := List.mem_map.mp hx
    exact hunsel c
  obtain ⟨hskel, hinv⟩ := applyToggles_skel_inv ts
    (build_from_file_node UITreeHandler.new root) hwfB (hfcB hfc) hinvB hts
  have hwf := WfA_skelEq hskel hwfB
  have hfc' := FilesChildlessA_skelEq hskel (hfcB hfc)
  have hdn' := DirsNonemptyA_skelEq hskel (hdnB hdn)
  intro i hi hdir
  obtain ⟨hforward, hbackward⟩ := InvA_tristate _ hwf hfc' hdn' hinv
    ((applyToggles (build_from_file_node UITreeHandler.new root)
      ts).tree_nodes.length - i) i (le_refl _) hi hdir
  refine ⟨hforward, hbackward, ?_⟩
  constructor
  · intro hpart
    constructor
    · intro hall
      have := hforward.mpr hall
      rw [hpart] at this
      exact SelectionState.noConfusion this
    · intro hall
      have := hbackward.mpr hall
      rw [hpart] at this
      exact SelectionState.noConfusion this
  · intro ⟨hna, hnb⟩
    cases hst : stateAt (applyToggles (build_from_file_node UITreeHandler.new
        root) ts).tree_nodes i with
    | Selected => exact absurd (hforward.mp hst) hna
    | Unselected => exact absurd (hbackward.mp hst) hnb
    | PartiallySelected => rfl

theorem claim_C2_selection_consistency_witness :
    (stateAt (applyToggles (build_from_file_node UITreeHandler.new
      (.mk "d" ["d"] true [.mk "a" ["d","a"] false []])) [1]).tree_nodes 0 = .Selected ↔
      ∀ j, Desc (applyToggles (build_from_file_node UITreeHandler.new
      (.mk "d" ["d"] true [.mk "a" ["d","a"] false []])) [1]).tree_nodes 0 j →
        stateAt (applyToggles (build_from_file_node UITreeHandler.new
      (.mk "d" ["d"] true [.mk "a" ["d","a"] false []])) [1]).tree_nodes j = .Selected) ∧
    (stateAt (applyToggles (build_from_file_node UITreeHandler.new
      (.mk "d" ["d"] true [.mk "a" ["d","a"] false []])) [1]).tree_nodes 0 = .Unselected ↔
      ∀ j, Desc (applyToggles (build_from_file_node UITreeHandler.new
      (.mk "d" ["d"] true [.mk "a" ["d","a"] false []])) [1]).tree_nodes 0 j →
        stateAt (applyToggles (build_from_file_node UITreeHandler.new
      (.mk "d" ["d"] true [.mk "a" ["d","a"] false []])) [1]).tree_nodes j = .Unselected) ∧
    (stateAt (applyToggles (build_from_file_node UITreeHandler.new
      (.mk "d" ["d"] true [.mk "a" ["d","a"] false []])) [1]).tree_nodes 0 = .PartiallySelected ↔
      (¬ ∀ j, Desc (applyToggles (build_from_file_node UITreeHandler.new
      (.mk "d" ["d"] true [.mk "a" ["d","a"] false []])) [1]).tree_nodes 0 j →
        stateAt (applyToggles (build_from_file_node UITreeHandler.new
      (.mk "d" ["d"] true [.mk "a" ["d","a"] false []])) [1]).tree_nodes j = .Selected) ∧
      (¬ ∀ j, Desc (applyToggles (build_from_file_node UITreeHandler.new
      (.mk "d" ["d"] true [.mk "a" ["d","a"] false []])) [1]).tree_nodes 0 j →
        stateAt (applyToggles (build_from_file_node UITreeHandler.new
      (.mk "d" ["d"] true [.mk "a" ["d","a"] false []])) [1]).tree_nodes j = .Unselected)) :=
  claim_C2_selection_consistency
    (.mk "d" ["d"] true [.mk "a" ["d","a"] false []]) [1]
    (by decide) (by decide) (by decide) 0 (by decide) (by decide)

/-! ## Text primitives for the document generator

Document text is `List Char`; paths are `List String` (components of a
canonical absolute path); the disk is an association list from paths to
text. -/

/-- String literal to character list. -/
def str (s : String) : List Char := s.data

/-- `str::replace` (Rust): scan left to right, replacing each non-overlapping
occurrence of `pat` and continuing after it.  Fueled by the input length so
that the definition is kernel-computable; `replaceL` passes sufficient
fuel. -/
def replaceFuel (pat repl : List Char) : Nat → List Char → List Char
  | 0, s => s
  | _ + 1, [] => []
  | fuel + 1, c :: rest =>
    if pat ≠ [] ∧ pat.isPrefixOf (c :: rest) then
      repl ++ replaceFuel pat repl fuel ((c :: rest).drop pat.length)
    else
      c :: replaceFuel pat repl fuel rest

def replaceL (pat repl s : List Char) : List Char :=
  replaceFuel pat repl s.length s

/-- `str::trim` (Rust): remove leading and trailing whitespace.  Rust trims
Unicode `White_Space`; `Char.isWhitespace` covers the ASCII subset, which
agrees on all characters that can interact with the claims below. -/
def trimL (s : List Char) : List Char :=
  ((s.dropWhile Char.isWhitespace).reverse.dropWhile Char.isWhitespace).reverse

/-- `str::find` (Rust): index of the first occurrence of `pat`. -/
def findSub : List Char → List Char → Option Nat
  | s, pat =>
    match s with
    | [] => if pat = [] then some 0 else none
    | c :: rest =>
      if pat.isPrefixOf (c :: rest) then some 0
      else (findSub rest pat).map (· + 1)

/-- `Path::strip_prefix` on component lists. -/
def strip_prefix_components (dir path : List String) : Option (List String) :=
  if dir.isPrefixOf path then some (path.drop dir.length) else none

/-- `relative_path.to_string_lossy().replace('\\', "/")`: join the relative
components with `/` (and normalize any backslash, as the Rust code does). -/
def displayPath (rel : List String) : List Char :=
  (String.intercalate "/" rel).data.map fun c => if c = '\\' then '/' else c

/-- `Path::extension().and_then(to_str).unwrap_or("")` on the last path
component: the part after the last dot, unless the name has no dot or its
only dot is leading. -/
def extOf (cs : List Char) : List Char :=
  let pre := cs.reverse.takeWhile (· ≠ '.')
  if pre.length = cs.length then []
  else if cs.length - pre.length - 1 = 0 then []
  else pre.reverse

/-- `DocumentGenerator::get_file_extension`. -/
def get_file_extension (file_path : List String) : List Char :=
  match file_path.getLast? with
  | none => []
  | some nm => extOf nm.data

/-- The in-memory filesystem: association list from paths to file text. -/
def FS : Type := List (List String × List Char)

def fsRead : FS → List String → Option (List Char)
  | [], _ => none
  | (q, d) :: rest, p => if q = p then some d else fsRead rest p

def fsWrite : FS → List String → List Char → FS
  | [], p, c => [(p, c)]
  | (q, d) :: rest, p, c =>
    if q = p then (q, c) :: rest else (q, d) :: fsWrite rest p c

def fsRemove : FS → List String → FS
  | [], _ => []
  | (q, d) :: rest, p => if q = p then rest else (q, d) :: fsRemove rest p

/-- The error variants of `error.rs` used by the document generator. -/
inductive AppErr where
  | StripPrefixError
  | IoError
  | AtomicWriteError
  | DocumentGenerationError (msg : List Char)
deriving DecidableEq

instance {ε α : Type} [DecidableEq ε] [DecidableEq α] :
    DecidableEq (Except ε α) := fun a b =>
  match a, b with
  | .error e1, .error e2 =>
    if h : e1 = e2 then isTrue (by rw [h])
    else isFalse (fun hc => h (Except.error.inj hc))
  | .error _, .ok _ => isFalse Except.noConfusion
  | .ok _, .error _ => isFalse Except.noConfusion
  | .ok a1, .ok a2 =>
    if h : a1 = a2 then isTrue (by rw [h])
    else isFalse (fun hc => h (Except.ok.inj hc))

/-- `OutputFormat` from `constants.rs`. -/
inductive OutputFormat where
  | Markdown
  | Adoc
deriving DecidableEq

/-! ## `document_generator.rs`: content generation -/

/-- `read_file_content`: read, sanitize the format's block delimiter, trim.
This models the UTF-8 branch; the lossy branch applies the identical
sanitization and prepends a fixed warning line (see
`read_file_content_lossy`). -/
def read_file_content (fs : FS) (file_path : List String) (format : OutputFormat) :
    Except AppErr (List Char) :=
  match fsRead fs file_path with
  | none => .error .IoError
  | some content =>
    let sanitized :=
      match format with
      | .Markdown => replaceL (str "```") (str "\\`\\`\\`") content
      | .Adoc => replaceL (str "----") (str "\\----") content
    .ok (trimL sanitized)

/-- The non-UTF-8 branch of `read_file_content`: same sanitization, with the
data-loss warning prefixed. -/
def read_file_content_lossy (content : List Char) (format : OutputFormat) :
    List Char :=
  let sanitized :=
    match format with
    | .Markdown => replaceL (str "```") (str "\\`\\`\\`") content
    | .Adoc => replaceL (str "----") (str "\\----") content
  str "[WARNING: This file contained non-UTF8 content and was converted with potential data loss]"
    ++ str "\n\n" ++ trimL sanitized

/-- The fixed prefix that `read_file_content_lossy` puts before the
sanitized content. -/
def lossy_warning : List Char :=
  str "[WARNING: This file contained non-UTF8 content and was converted with potential data loss]"
    ++ str "\n\n"

/-- The format's block delimiter (`MARKDOWN_CODE_BLOCK` /
`ADOC_SOURCE_BLOCK_DELIMITER` in `constants.rs`): the substring that opens
and closes the fenced content block. -/
def block_delimiter : OutputFormat → List Char
  | .Markdown => str "```"
  | .Adoc => str "----"

/-- `generate_file_string`: one file subsection (header, fenced block). -/
def generate_file_string (directory : List String) (fs : FS)
    (file_path : List String) (format : OutputFormat) :
    Except AppErr (List Char) :=
  match strip_prefix_components directory file_path with
  | none => .error .StripPrefixError
  | some rel =>
    let display_path := displayPath rel
    let extension := get_file_extension file_path
    match read_file_content fs file_path format with
    | .error e => .error e
    | .ok content =>
      match format with
      | .Markdown =>
        .ok (str "### " ++ display_path ++ str "\n\n" ++ str "```" ++ extension
          ++ str "\n" ++ content ++ str "\n" ++ str "```")
      | .Adoc =>
        .ok (str "=== " ++ display_path ++ str "\n\n" ++ str "[source, "
          ++ extension ++ str "]\n" ++ str "----" ++ str "\n" ++ content
          ++ str "\n" ++ str "----")

/-- Strict lexicographic order on strings by codepoint (UTF-8 byte order on
Rust `String`s agrees with codepoint order). -/
def strLtB : List Char → List Char → Bool
  | [], [] => false
  | [], _ :: _ => true
  | _ :: _, [] => false
  | a :: as, b :: bs =>
    if a.toNat < b.toNat then true
    else if b.toNat < a.toNat then false
    else strLtB as bs

/-- Total order on paths used by `sorted_files.sort()` (component-wise, with
byte order on components). -/
def pathLe : List String → List String → Bool
  | [], _ => true
  | _ :: _, [] => false
  | x :: xs, y :: ys => if x = y then pathLe xs ys else strLtB x.data y.data

def insertPath (x : List String) : List (List String) → List (List String)
  | [] => [x]
  | y :: ys => if pathLe x y then x :: y :: ys else y :: insertPath x ys

/-- `sorted_files.sort()`: the selected files are a set (no duplicates), so
any sorting algorithm for the total order `pathLe` produces the same list;
insertion sort is used here. -/
def sortPaths : List (List String) → List (List String)
  | [] => []
  | x :: xs => insertPath x (sortPaths xs)

def intercalateL (sep : List Char) : List (List Char) → List Char
  | [] => []
  | [x] => x
  | x :: xs => x ++ sep ++ intercalateL sep xs

/-- `generate_files_string`: sections of the sorted selected files joined by
blank lines. -/
def generate_files_string (directory : List String) (fs : FS)
    (selected_files : List (List String)) (format : OutputFormat) :
    Except AppErr (List Char) :=
  match (sortPaths selected_files).mapM
      (fun p => generate_file_string directory fs p format) with
  | .error e => .error e
  | .ok parts => .ok (intercalateL (str "\n\n") parts)

/-! Structure diagram rendering. -/

mutual

/-- `directory_contains_selected_file`. -/
def directory_contains_selected_file (sel : List (List String)) :
    FileNode → Bool
  | .mk _ _ dir children => dir && containsSelL sel children

def containsSelL (sel : List (List String)) : List FileNode → Bool
  | [] => false
  | c :: rest =>
    (sel.contains c.path || (c.is_dir && directory_contains_selected_file sel c))
      || containsSelL sel rest

end

/-- `get_branch_prefix` (`_string` appended to the Rust name): vertical
continuation guides from the ancestor last-child stack. -/
def get_branch_prefix_string (depth : Nat) (is_last_child_stack : List Bool) :
    List Char :=
  if depth > 1 then
    ((List.range (depth - 1)).map fun i =>
      if (is_last_child_stack.get? i).getD false then str "    "
      else str "│   ").flatten
  else []

mutual

/-- Total size of a tree, used as recursion fuel for the renderer. -/
def tsize : FileNode → Nat
  | .mk _ _ _ c => 1 + tsizeL c

def tsizeL : List FileNode → Nat
  | [] => 0
  | c :: rest => tsize c + tsizeL rest

end

/-- `build_structure_string_recursive`, fueled (the callers pass the tree
size, which bounds the recursion depth). -/
def build_structure_string_recursive (sel : List (List String))
    (base_dir_path : List String) :
    Nat → FileNode → Nat → List Bool → List Char
  | 0, _, _, _ => []
  | fuel + 1, node, depth, is_last_child_stack =>
    let line :=
      if depth = 0 then
        (((base_dir_path.getLast?).getD "root").data) ++ str "\n"
      else
        get_branch_prefix_string depth is_last_child_stack
          ++ (if (is_last_child_stack.getLast?).getD false then str "└── "
              else str "├── ")
          ++ node.name.data
          ++ (if node.is_dir then str "/" else [])
          ++ str "\n"
    let kids :=
      if node.is_dir then
        let children_to_render := node.children.filter fun child =>
          sel.contains child.path ||
            (child.is_dir && directory_contains_selected_file sel child)
        let n := children_to_render.length
        (children_to_render.enum.map fun ic =>
          build_structure_string_recursive sel base_dir_path fuel ic.2
            (depth + 1) (is_last_child_stack ++ [ic.1 == n - 1])).flatten
      else []
    line ++ kids

/-- `generate_structure_string` (never fails in the Rust code; returns the
content directly). -/
def generate_structure_string (directory : List String)
    (sel : List (List String)) (root_node : FileNode)
    (format : OutputFormat) : List Char :=
  let lines := build_structure_string_recursive sel directory
    (tsize root_node) root_node 0 []
  match format with
  | .Markdown =>
    str "## Project Structure\n" ++ str "```\n" ++ lines ++ str "```"
  | .Adoc =>
    str "== Project Structure\n" ++ str "[source, text]\n" ++ str "----\n"
      ++ lines ++ str "----"

/-- `generate_full_document` (content only; the atomic write is modeled by
`atomic_write_document` below). -/
def generate_full_document_content (directory : List String) (fs : FS)
    (selected_files : List (List String)) (root_node : FileNode)
    (format : OutputFormat) : Except AppErr (List Char) :=
  let header :=
    match format with
    | .Markdown => str "# Context" ++ str "\n\n"
    | .Adoc => str "= Context\n\n"
  let structure_part := generate_structure_string directory selected_files
    root_node format
  let files_header :=
    match format with
    | .Markdown => str "## Files" ++ str "\n\n"
    | .Adoc => str "== Files\n\n"
  match generate_files_string directory fs selected_files format with
  | .error e => .error e
  | .ok files_part =>
    .ok (header ++ structure_part ++ str "\n\n" ++ files_header ++ files_part)

/-- `update_file_section_in_document` (content level: takes the current
document text, returns the updated text or the error). -/
def update_file_section_in_document_content (directory : List String) (fs : FS)
    (current_content : List Char) (updated_file_path : List String)
    (format : OutputFormat) : Except AppErr (List Char) :=
  match strip_prefix_components directory updated_file_path with
  | none => .error .StripPrefixError
  | some rel =>
    let display_path := displayPath rel
    let section_header :=
      match format with
      | .Markdown => str "### " ++ display_path
      | .Adoc => str "=== " ++ display_path
    match findSub current_content section_header with
    | none =>
      .error (.DocumentGenerationError (str "Could not find section for file "
        ++ display_path ++ str " in document. Consider regenerating the full document."))
    | some start_index =>
      let search_start := start_index + section_header.length
      let tail := current_content.drop search_start
      let end_index :=
        match findSub tail (str "\n### ") with
        | some pos => search_start + pos
        | none =>
          match (if format = .Adoc then findSub tail (str "\n=== ") else none) with
          | some pos => search_start + pos
          | none =>
            match (if format = .Adoc then findSub tail (str "\n== ") else none) with
            | some pos => search_start + pos
            | none =>
              match (if format = .Adoc then findSub tail (str "\n= ") else none) with
              | some pos => search_start + pos
              | none => current_content.length
      match generate_file_string directory fs updated_file_path format with
      | .error e => .error e
      | .ok new_section =>
        .ok (current_content.take start_index ++ new_section
          ++ current_content.drop end_index)

/-! Spec vocabulary for the section-update claim. -/

/-- `pat` occurs in `s` at position `n` and at no earlier position. -/
def firstOccur (s pat : List Char) (n : Nat) : Prop :=
  pat.isPrefixOf (s.drop n) = true ∧
    ∀ m < n, pat.isPrefixOf (s.drop m) = false

/-- `pat` occurs nowhere in `s`. -/
def noOccur (s pat : List Char) : Prop :=
  ∀ m, pat.isPrefixOf (s.drop m) = false

/-- The markers that start a header line of equal or higher level than the
file-section header, per format (spec wording; the code searches a
different, priority-ordered subset). -/
def equal_or_higher_header_markers : OutputFormat → List (List Char)
  | .Markdown => [str "\n### ", str "\n## ", str "\n# "]
  | .Adoc => [str "\n=== ", str "\n== ", str "\n= "]

/-- Position of the first occurrence of any of `pats` in `s`. -/
def findFirstAnySub (s : List Char) (pats : List (List Char)) : Option Nat :=
  match s with
  | [] => none
  | c :: rest =>
    if pats.any (fun p => p.isPrefixOf (c :: rest)) then some 0
    else (findFirstAnySub rest pats).map (· + 1)

/-- The spec's wording of `update_file_section_in_document`: identical to the
code except that the subsection's end is the NEXT header of equal or higher
level — the minimal position in the tail at which any equal-or-higher header
marker occurs — rather than the code's pattern-priority search.  This
definition follows the specification text and exists to be compared against
`update_file_section_in_document_content`, which follows the code. -/
def update_file_section_spec (directory : List String) (fs : FS)
    (current_content : List Char) (updated_file_path : List String)
    (format : OutputFormat) : Except AppErr (List Char) :=
  match strip_prefix_components directory updated_file_path with
  | none => .error .StripPrefixError
  | some rel =>
    let display_path := displayPath rel
    let section_header :=
      match format with
      | .Markdown => str "### " ++ display_path
      | .Adoc => str "=== " ++ display_path
    match findSub current_content section_header with
    | none =>
      .error (.DocumentGenerationError (str "Could not find section for file "
        ++ display_path ++ str " in document. Consider regenerating the full document."))
    | some start_index =>
      let search_start := start_index + section_header.length
      let tail := current_content.drop search_start
      let end_index :=
        match findFirstAnySub tail (equal_or_higher_header_markers format) with
        | some pos => search_start + pos
        | none => current_content.length
      match generate_file_string directory fs updated_file_path format with
      | .error e => .error e
      | .ok new_section =>
        .ok (current_content.take start_index ++ new_section
          ++ current_content.drop end_index)

/-! ## `atomic_write_document` over the filesystem model

Injected failures are described by an oracle; the `rename` of
`NamedTempFile::persist` is the OS primitive that replaces the destination
in one step, modeled as a single map update. -/

structure WriteOracle where
  temp_name : String
  create_fails : Bool
  write_fails : Bool
  partial_len : Nat
  persist_fails : Bool
deriving DecidableEq

def parentOf (p : List String) : Option (List String) :=
  if p = [] then none else some p.dropLast

/-- `atomic_write_document`: create a temp file in the destination's parent
directory, write the content, persist (rename) over the destination. -/
def atomic_write_document (fs : FS) (output_path : List String)
    (content : List Char) (o : WriteOracle) : FS × Except AppErr Unit :=
  match parentOf output_path with
  | none => (fs, .error .AtomicWriteError)
  | some parent_dir =>
    if o.create_fails then (fs, .error .IoError)
    else
      let temp_path := parent_dir ++ [o.temp_name]
      let fs1 := fsWrite fs temp_path []
      if o.write_fails then
        (fsWrite fs1 temp_path (content.take o.partial_len), .error .IoError)
      else
        let fs2 := fsWrite fs1 temp_path content
        if o.persist_fails then (fs2, .error .AtomicWriteError)
        else (fsWrite (fsRemove fs2 temp_path) output_path content, .ok ())

/-- `update_file_section_in_document` at the filesystem level: read the
document, compute the updated text, atomically rewrite it. -/
def update_file_section_fs (fs : FS) (directory : List String)
    (document_path : List String) (updated_file_path : List String)
    (format : OutputFormat) (o : WriteOracle) : FS × Except AppErr Unit :=
  match fsRead fs document_path with
  | none => (fs, .error .IoError)
  | some current_content =>
    match update_file_section_in_document_content directory fs current_content
        updated_file_path format with
    | .error e => (fs, .error e)
    | .ok updated => atomic_write_document fs document_path updated o

/-! ## Claim C1: the round-trip patch is not a no-op -/

/-- **C1 (failing input)**: with directory `d` containing selected files
`a.txt` (content `A`) and `b.txt` (content `B`), the full Markdown document
ends each file section without a trailing newline and separates sections by
a blank line; patching the unchanged `a.txt` replaces the span up to (and
including) the first of the two separator newlines before `### b.txt`, so
the patched document has lost one newline and is not byte-identical to a
fresh full regeneration. -/
theorem claim_C1_roundtrip_patch_bug :
    generate_full_document_content ["d"]
      [(["d","a.txt"], str "A"), (["d","b.txt"], str "B")]
      [["d","a.txt"], ["d","b.txt"]]
      (.mk "d" ["d"] true
        [.mk "a.txt" ["d","a.txt"] false [], .mk "b.txt" ["d","b.txt"] false []])
      .Markdown =
      .ok (str "# Context\n\n## Project Structure\n```\nd\n├── a.txt\n└── b.txt\n```\n\n## Files\n\n### a.txt\n\n```txt\nA\n```\n\n### b.txt\n\n```txt\nB\n```") ∧
    update_file_section_in_document_content ["d"]
      [(["d","a.txt"], str "A"), (["d","b.txt"], str "B")]
      (str "# Context\n\n## Project Structure\n```\nd\n├── a.txt\n└── b.txt\n```\n\n## Files\n\n### a.txt\n\n```txt\nA\n```\n\n### b.txt\n\n```txt\nB\n```")
      ["d","a.txt"] .Markdown =
      .ok (str "# Context\n\n## Project Structure\n```\nd\n├── a.txt\n└── b.txt\n```\n\n## Files\n\n### a.txt\n\n```txt\nA\n```\n### b.txt\n\n```txt\nB\n```") ∧
    str "# Context\n\n## Project Structure\n```\nd\n├── a.txt\n└── b.txt\n```\n\n## Files\n\n### a.txt\n\n```txt\nA\n```\n### b.txt\n\n```txt\nB\n```" ≠
    str "# Context\n\n## Project Structure\n```\nd\n├── a.txt\n└── b.txt\n```\n\n## Files\n\n### a.txt\n\n```txt\nA\n```\n\n### b.txt\n\n```txt\nB\n```" := by
  refine ⟨by decide, by decide, by decide⟩

/-! ## Claim C8: atomicity of the document write -/

theorem fsRead_cons (q : List String) (d : List Char) (rest : FS)
    (p : List String) :
    fsRead ((q, d) :: rest) p = if q = p then some d else fsRead rest p := rfl

theorem fsWrite_cons (q : List String) (d : List Char) (rest : FS)
    (p : List String) (c : List Char) :
    fsWrite ((q, d) :: rest) p c =
      if q = p then (q, c) :: rest else (q, d) :: fsWrite rest p c := rfl

theorem fsRead_fsWrite_self (fs : FS) (p : List String) (c : List Char) :
    fsRead (fsWrite fs p c) p = some c := by
  induction fs with
  | nil =>
    show (if p = p then some c else none) = some c
    rw [if_pos rfl]
  | cons e rest ih =>
    obtain ⟨q, d⟩ := e
    rw [fsWrite_cons]
    by_cases hq : q = p
    · rw [if_pos hq, fsRead_cons, if_pos hq]
    · rw [if_neg hq, fsRead_cons, if_neg hq]
      exact ih

theorem fsRead_fsWrite_ne (fs : FS) {p q : List String} (c : List Char)
    (h : q ≠ p) : fsRead (fsWrite fs p c) q = fsRead fs q := by
  induction fs with
  | nil =>
    show (if p = q then some c else none) = none
    rw [if_neg (fun hc => h hc.symm)]
  | cons e rest ih =>
    obtain ⟨r, d⟩ := e
    rw [fsWrite_cons]
    by_cases hr : r = p
    · subst hr
      rw [if_pos rfl, fsRead_cons, fsRead_cons,
        if_neg (fun hc => h hc.symm), if_neg (fun hc => h hc.symm)]
    · rw [if_neg hr, fsRead_cons, fsRead_cons]
      by_cases hrq : r = q
      · rw [if_pos hrq, if_pos hrq]
      · rw [if_neg hrq, if_neg hrq]
        exact ih

/-- **C8**: the atomic write puts the full content in a temporary file
inside the destination's parent directory and renames it over the
destination; on any step failure (parent resolution, temp-file creation,
write, persist) it returns an error and the destination's previous content
or absence is untouched; on success the destination holds exactly the full
content — no partially written destination is observable. -/
theorem claim_C8_atomic_write (fs : FS) (output_path : List String)
    (content : List Char) (o : WriteOracle)
    (hfresh : (parentOf output_path).all
      (fun parent => parent ++ [o.temp_name] ≠ output_path) = true) :
    (∀ e, (atomic_write_document fs output_path content o).2 = .error e →
      fsRead (atomic_write_document fs output_path content o).1 output_path
        = fsRead fs output_path) ∧
    ((atomic_write_document fs output_path content o).2 = .ok () →
      fsRead (atomic_write_document fs output_path content o).1 output_path
        = some content) := by
  unfold atomic_write_document
  cases hpar : parentOf output_path with
  | none => exact ⟨fun e _ => rfl, fun h => Except.noConfusion h⟩
  | some parent =>
    rw [hpar] at hfresh
    simp only [Option.all_some, decide_eq_true_eq] at hfresh
    have hne : output_path ≠ parent ++ [o.temp_name] := fun hc => hfresh hc.symm
    dsimp only
    cases hcf : o.create_fails with
    | true =>
      rw [if_pos rfl]
      exact ⟨fun e _ => rfl, fun h => Except.noConfusion h⟩
    | false =>
      rw [if_neg Bool.false_ne_true]
      cases hwf : o.write_fails with
      | true =>
        rw [if_pos rfl]
        refine ⟨fun e _ => ?_, fun h => Except.noConfusion h⟩
        dsimp only
        rw [fsRead_fsWrite_ne _ _ hne, fsRead_fsWrite_ne _ _ hne]
      | false =>
        rw [if_neg Bool.false_ne_true]
        cases hpf : o.persist_fails with
        | true =>
          rw [if_pos rfl]
          refine ⟨fun e _ => ?_, fun h => Except.noConfusion h⟩
          dsimp only
          rw [fsRead_fsWrite_ne _ _ hne, fsRead_fsWrite_ne _ _ hne]
        | false =>
          rw [if_neg Bool.false_ne_true]
          refine ⟨fun e he => Except.noConfusion he, fun _ => ?_⟩
          dsimp only
          rw [fsRead_fsWrite_self]

theorem claim_C8_atomic_write_witness :
    ((parentOf ["home","doc.md"]).all
      (fun parent => parent ++ ["tmp123"] ≠ ["home","doc.md"]) = true) ∧
    ((∀ e, (atomic_write_document [(["home","doc.md"], str "old")]
        ["home","doc.md"] (str "new")
        ⟨"tmp123", false, false, 0, true⟩).2 = .error e →
      fsRead (atomic_write_document [(["home","doc.md"], str "old")]
        ["home","doc.md"] (str "new")
        ⟨"tmp123", false, false, 0, true⟩).1 ["home","doc.md"]
        = fsRead [(["home","doc.md"], str "old")] ["home","doc.md"]) ∧
    ((atomic_write_document [(["home","doc.md"], str "old")]
        ["home","doc.md"] (str "new")
        ⟨"tmp123", false, false, 0, true⟩).2 = .ok () →
      fsRead (atomic_write_document [(["home","doc.md"], str "old")]
        ["home","doc.md"] (str "new")
        ⟨"tmp123", false, false, 0, true⟩).1 ["home","doc.md"]
        = some (str "new"))) :=
  ⟨by decide,
   claim_C8_atomic_write [(["home","doc.md"], str "old")] ["home","doc.md"]
     (str "new") ⟨"tmp123", false, false, 0, true⟩ (by decide)⟩

/-! ## Claim C9: sanitization -/

/-- **C9 (counterexample)**: the sanitized content can still contain the
code-fence substring.  For the Markdown format, a file containing five
backticks sanitizes to `\x5c`​`\x5c`​`\x5c`​``` whose last three characters
are a code fence; for AsciiDoc, five hyphens sanitize to a string containing
`----`. -/
theorem claim_C9_counterexample :
    read_file_content [(["d","x"], str "`````")] ["d","x"] .Markdown
      = .ok (str "\\`\\`\\```") ∧
    findSub (str "\\`\\`\\```") (str "```") = some 5 ∧
    read_file_content [(["d","x"], str "-----")] ["d","x"] .Adoc
      = .ok (str "\\-----") ∧
    findSub (str "\\-----") (str "----") = some 1 := by
  refine ⟨by decide, by decide, by decide, by decide⟩

/-! ### Amended C9: every delimiter occurrence in sanitized content is
escaped.

`str::replace` cannot remove every delimiter occurrence (see the
counterexample), but it does guarantee that in the replaced text every
occurrence of the delimiter is immediately preceded by a backslash (for
Markdown) or by a backslash or hyphen (for AsciiDoc) — never by a newline
and never at the start of the content — which is what prevents a delimiter
line in the rendered block. -/

theorem str_md_pat : str "```" = ['`', '`', '`'] := rfl

theorem str_md_repl : str "\\`\\`\\`" = ['\\', '`', '\\', '`', '\\', '`'] := rfl

theorem str_adoc_pat : str "----" = ['-', '-', '-', '-'] := rfl

theorem str_adoc_repl : str "\\----" = ['\\', '-', '-', '-', '-'] := rfl

theorem replaceFuel_zero (pat repl : List Char) (s : List Char) :
    replaceFuel pat repl 0 s = s := rfl

theorem replaceFuel_nil (pat repl : List Char) (f : Nat) :
    replaceFuel pat repl f [] = [] := by
  cases f <;> rfl

theorem replaceFuel_cons_eq (pat repl : List Char) (f : Nat) (c : Char)
    (rest : List Char) :
    replaceFuel pat repl (f + 1) (c :: rest) =
      if pat ≠ [] ∧ pat.isPrefixOf (c :: rest) then
        repl ++ replaceFuel pat repl f ((c :: rest).drop pat.length)
      else c :: replaceFuel pat repl f rest := rfl

theorem isPrefixOf_append_left {l a : List Char} (b : List Char)
    (h : l.isPrefixOf a = true) : l.isPrefixOf (a ++ b) = true := by
  induction l generalizing a with
  | nil => simp [List.isPrefixOf]
  | cons x l ih =>
    cases a with
    | nil => simp [List.isPrefixOf] at h
    | cons c a =>
      simp only [List.isPrefixOf, List.cons_append, Bool.and_eq_true] at h ⊢
      exact ⟨h.1, ih h.2⟩

theorem isPrefixOf_ne_nil {l m : List Char} (h : l.isPrefixOf m = true)
    (hl : l ≠ []) : m ≠ [] := by
  cases l with
  | nil => exact absurd rfl hl
  | cons x l =>
    cases m with
    | nil => simp [List.isPrefixOf] at h
    | cons c m => simp

theorem isPrefixOf_get? {l m : List Char} (h : l.isPrefixOf m = true)
    (j : Nat) (hj : j < l.length) : m.get? j = l.get? j := by
  induction l generalizing m j with
  | nil => simp at hj
  | cons x l ih =>
    cases m with
    | nil => simp [List.isPrefixOf] at h
    | cons c m =>
      simp only [List.isPrefixOf, Bool.and_eq_true, beq_iff_eq] at h
      cases j with
      | zero => simp [h.1]
      | succ j =>
        simp only [List.get?_cons_succ]
        exact ih h.2 j (by simpa using hj)

theorem drop_append_len (a b : List Char) (j : Nat) :
    (a ++ b).drop (a.length + j) = b.drop j := by
  induction a with
  | nil => simp
  | cons c a ih =>
    have h1 : (c :: a).length + j = (a.length + j) + 1 := by
      simp [List.length_cons]
      omega
    rw [List.cons_append, h1, List.drop_succ_cons, ih]

theorem get?_append_len (a b : List Char) (j : Nat) :
    (a ++ b).get? (a.length + j) = b.get? j := by
  induction a with
  | nil => simp
  | cons c a ih =>
    have h1 : (c :: a).length + j = (a.length + j) + 1 := by
      simp [List.length_cons]
      omega
    rw [List.cons_append, h1, List.get?_cons_succ, ih]

/-- Characters that are not the escape character pass through `replace`
unchanged: a prefix of the output made only of non-backslash characters is
also a prefix of the input (every rewritten region starts with the escape
backslash). -/
theorem replaceFuel_transfer (pat r : List Char) :
    ∀ (f : Nat) (l t : List Char), ('\\' : Char) ∉ l →
      l.isPrefixOf (replaceFuel pat ('\\' :: r) f t) = true →
      l.isPrefixOf t = true := by
  intro f
  induction f with
  | zero =>
    intro l t _ h
    rw [replaceFuel_zero] at h
    exact h
  | succ f ih =>
    intro l t hl h
    cases t with
    | nil =>
      rw [replaceFuel_nil] at h
      exact h
    | cons c rest =>
      rw [replaceFuel_cons_eq] at h
      by_cases hc : pat ≠ [] ∧ pat.isPrefixOf (c :: rest) = true
      · rw [if_pos hc] at h
        cases l with
        | nil => simp [List.isPrefixOf]
        | cons x l =>
          rw [List.cons_append] at h
          simp only [List.isPrefixOf, Bool.and_eq_true, beq_iff_eq] at h
          exact absurd (h.1 ▸ List.mem_cons_self x l) hl
      · rw [if_neg hc] at h
        cases l with
        | nil => simp [List.isPrefixOf]
        | cons x l =>
          simp only [List.isPrefixOf, Bool.and_eq_true] at h ⊢
          refine ⟨h.1, ih l rest (fun hm => hl (List.mem_cons_of_mem x hm)) h.2⟩

theorem isPrefixOf_cons_ne {a b : Char} (hab : ¬ a = b) (l m : List Char) :
    (a :: l).isPrefixOf (b :: m) = false := by
  have hb : (a == b) = false := by
    simp [hab]
  simp [List.isPrefixOf, hb]

/-- Every occurrence of the Markdown fence in `replace`-sanitized text is
immediately preceded by a backslash. -/
theorem md_replace_occ :
    ∀ (fuel : Nat) (s : List Char), s.length ≤ fuel → ∀ i : Nat,
      (['`', '`', '`'] : List Char).isPrefixOf
        ((replaceFuel ['`', '`', '`'] ['\\', '`', '\\', '`', '\\', '`'] fuel s).drop i)
        = true →
      1 ≤ i ∧
        (replaceFuel ['`', '`', '`'] ['\\', '`', '\\', '`', '\\', '`'] fuel s).get?
          (i - 1) = some '\\' := by
  intro fuel
  induction fuel with
  | zero =>
    intro s hs i h
    have hnil : s = [] := List.eq_nil_of_length_eq_zero (Nat.le_zero.mp hs)
    subst hnil
    rw [replaceFuel_zero] at h
    simp [List.isPrefixOf] at h
  | succ fuel ih =>
    intro s hs i h
    cases s with
    | nil =>
      rw [replaceFuel_nil] at h
      simp [List.isPrefixOf] at h
    | cons c rest =>
      rw [replaceFuel_cons_eq] at h ⊢
      by_cases hc : (['`', '`', '`'] : List Char) ≠ [] ∧
          (['`', '`', '`'] : List Char).isPrefixOf (c :: rest) = true
      · rw [if_pos hc] at h ⊢
        rw [show (['`', '`', '`'] : List Char).length = 3 from rfl] at h ⊢
        by_cases hi : i ≤ 5
        · interval_cases i
          · have h0 : (['`', '`', '`'] : List Char).isPrefixOf
                ('\\' :: '`' :: '\\' :: '`' :: '\\' :: '`' ::
                  replaceFuel ['`', '`', '`'] ['\\', '`', '\\', '`', '\\', '`']
                    fuel ((c :: rest).drop 3)) = true := h
            rw [isPrefixOf_cons_ne (by decide)] at h0
            simp at h0
          · exact ⟨by omega, rfl⟩
          · have h0 : (['`', '`', '`'] : List Char).isPrefixOf
                ('\\' :: '`' :: '\\' :: '`' ::
                  replaceFuel ['`', '`', '`'] ['\\', '`', '\\', '`', '\\', '`']
                    fuel ((c :: rest).drop 3)) = true := h
            rw [isPrefixOf_cons_ne (by decide)] at h0
            simp at h0
          · exact ⟨by omega, rfl⟩
          · have h0 : (['`', '`', '`'] : List Char).isPrefixOf
                ('\\' :: '`' ::
                  replaceFuel ['`', '`', '`'] ['\\', '`', '\\', '`', '\\', '`']
                    fuel ((c :: rest).drop 3)) = true := h
            rw [isPrefixOf_cons_ne (by decide)] at h0
            simp at h0
          · exact ⟨by omega, rfl⟩
        · obtain ⟨j, rfl⟩ : ∃ j, i = 6 + j := ⟨i - 6, by omega⟩
          have hL : (['\\', '`', '\\', '`', '\\', '`'] : List Char).length = 6 := rfl
          have hd := drop_append_len ['\\', '`', '\\', '`', '\\', '`']
            (replaceFuel ['`', '`', '`'] ['\\', '`', '\\', '`', '\\', '`'] fuel
              ((c :: rest).drop 3)) j
          rw [hL] at hd
          rw [hd] at h
          have hlen : ((c :: rest).drop 3).length ≤ fuel := by
            rw [List.length_drop]
            omega
          obtain ⟨hj1, hj2⟩ := ih ((c :: rest).drop 3) hlen j h
          refine ⟨by omega, ?_⟩
          have hg := get?_append_len ['\\', '`', '\\', '`', '\\', '`']
            (replaceFuel ['`', '`', '`'] ['\\', '`', '\\', '`', '\\', '`'] fuel
              ((c :: rest).drop 3)) (j - 1)
          rw [hL] at hg
          rw [show 6 + j - 1 = 6 + (j - 1) from by omega, hg]
          exact hj2
      · rw [if_neg hc] at h ⊢
        cases i with
        | zero =>
          have h0 : (['`', '`', '`'] : List Char).isPrefixOf
              (c :: replaceFuel ['`', '`', '`'] ['\\', '`', '\\', '`', '\\', '`']
                fuel rest) = true := h
          simp only [List.isPrefixOf, Bool.and_eq_true, beq_iff_eq] at h0
          have htr := replaceFuel_transfer ['`', '`', '`']
            ['`', '\\', '`', '\\', '`'] fuel ['`', '`'] rest (by decide) h0.2
          refine absurd ⟨by decide, ?_⟩ hc
          simp only [List.isPrefixOf, Bool.and_eq_true, beq_iff_eq]
          exact ⟨h0.1, htr⟩
        | succ j =>
          have h' : (['`', '`', '`'] : List Char).isPrefixOf
              ((replaceFuel ['`', '`', '`'] ['\\', '`', '\\', '`', '\\', '`']
                fuel rest).drop j) = true := h
          have hlen : rest.length ≤ fuel := by
            simp only [List.length_cons] at hs
            omega
          obtain ⟨hj1, hj2⟩ := ih rest hlen j h'
          refine ⟨by omega, ?_⟩
          rw [show j + 1 - 1 = (j - 1) + 1 from by omega, List.get?_cons_succ]
          exact hj2

/-- Every occurrence of the AsciiDoc delimiter in `replace`-sanitized text
is immediately preceded by a backslash or by a hyphen. -/
theorem adoc_replace_occ :
    ∀ (fuel : Nat) (s : List Char), s.length ≤ fuel → ∀ i : Nat,
      (['-', '-', '-', '-'] : List Char).isPrefixOf
        ((replaceFuel ['-', '-', '-', '-'] ['\\', '-', '-', '-', '-'] fuel s).drop i)
        = true →
      1 ≤ i ∧
        ((replaceFuel ['-', '-', '-', '-'] ['\\', '-', '-', '-', '-'] fuel s).get?
            (i - 1) = some '\\' ∨
          (replaceFuel ['-', '-', '-', '-'] ['\\', '-', '-', '-', '-'] fuel s).get?
            (i - 1) = some '-') := by
  intro fuel
  induction fuel with
  | zero =>
    intro s hs i h
    have hnil : s = [] := List.eq_nil_of_length_eq_zero (Nat.le_zero.mp hs)
    subst hnil
    rw [replaceFuel_zero] at h
    simp [List.isPrefixOf] at h
  | succ fuel ih =>
    intro s hs i h
    cases s with
    | nil =>
      rw [replaceFuel_nil] at h
      simp [List.isPrefixOf] at h
    | cons c rest =>
      rw [replaceFuel_cons_eq] at h ⊢
      by_cases hc : (['-', '-', '-', '-'] : List Char) ≠ [] ∧
          (['-', '-', '-', '-'] : List Char).isPrefixOf (c :: rest) = true
      · rw [if_pos hc] at h ⊢
        rw [show (['-', '-', '-', '-'] : List Char).length = 4 from rfl] at h ⊢
        by_cases hi : i ≤ 4
        · interval_cases i
          · have h0 : (['-', '-', '-', '-'] : List Char).isPrefixOf
                ('\\' :: '-' :: '-' :: '-' :: '-' ::
                  replaceFuel ['-', '-', '-', '-'] ['\\', '-', '-', '-', '-']
                    fuel ((c :: rest).drop 4)) = true := h
            rw [isPrefixOf_cons_ne (by decide)] at h0
            simp at h0
          · exact ⟨by omega, Or.inl rfl⟩
          · exact ⟨by omega, Or.inr rfl⟩
          · exact ⟨by omega, Or.inr rfl⟩
          · exact ⟨by omega, Or.inr rfl⟩
        · obtain ⟨j, rfl⟩ : ∃ j, i = 5 + j := ⟨i - 5, by omega⟩
          have hL : (['\\', '-', '-', '-', '-'] : List Char).length = 5 := rfl
          have hd := drop_append_len ['\\', '-', '-', '-', '-']
            (replaceFuel ['-', '-', '-', '-'] ['\\', '-', '-', '-', '-'] fuel
              ((c :: rest).drop 4)) j
          rw [hL] at hd
          rw [hd] at h
          have hlen : ((c :: rest).drop 4).length ≤ fuel := by
            rw [List.length_drop]
            omega
          obtain ⟨hj1, hj2⟩ := ih ((c :: rest).drop 4) hlen j h
          refine ⟨by omega, ?_⟩
          have hg := get?_append_len ['\\', '-', '-', '-', '-']
            (replaceFuel ['-', '-', '-', '-'] ['\\', '-', '-', '-', '-'] fuel
              ((c :: rest).drop 4)) (j - 1)
          rw [hL] at hg
          rw [show 5 + j - 1 = 5 + (j - 1) from by omega, hg]
          exact hj2
      · rw [if_neg hc] at h ⊢
        cases i with
        | zero =>
          have h0 : (['-', '-', '-', '-'] : List Char).isPrefixOf
              (c :: replaceFuel ['-', '-', '-', '-'] ['\\', '-', '-', '-', '-']
                fuel rest) = true := h
          simp only [List.isPrefixOf, Bool.and_eq_true, beq_iff_eq] at h0
          have htr := replaceFuel_transfer ['-', '-', '-', '-']
            ['-', '-', '-', '-'] fuel ['-', '-', '-'] rest (by decide) h0.2
          refine absurd ⟨by decide, ?_⟩ hc
          simp only [List.isPrefixOf, Bool.and_eq_true, beq_iff_eq]
          exact ⟨h0.1, htr⟩
        | succ j =>
          have h' : (['-', '-', '-', '-'] : List Char).isPrefixOf
              ((replaceFuel ['-', '-', '-', '-'] ['\\', '-', '-', '-', '-']
                fuel rest).drop j) = true := h
          have hlen : rest.length ≤ fuel := by
            simp only [List.length_cons] at hs
            omega
          obtain ⟨hj1, hj2⟩ := ih rest hlen j h'
          refine ⟨by omega, ?_⟩
          rw [show j + 1 - 1 = (j - 1) + 1 from by omega, List.get?_cons_succ]
          exact hj2

/-- `trim` decomposition: the input is the trimmed text surrounded by a
whitespace prefix and suffix. -/
theorem trimL_decomp (s : List Char) :
    ∃ pre suf, s = pre ++ (trimL s ++ suf) ∧
      ∀ c ∈ pre, c.isWhitespace = true := by
  refine ⟨s.takeWhile Char.isWhitespace,
    ((s.dropWhile Char.isWhitespace).reverse.takeWhile Char.isWhitespace).reverse,
    ?_, ?_⟩
  · have h2 : (s.dropWhile Char.isWhitespace).reverse.takeWhile Char.isWhitespace
        ++ (s.dropWhile Char.isWhitespace).reverse.dropWhile Char.isWhitespace
        = (s.dropWhile Char.isWhitespace).reverse := by
      simp
    have h3 := congrArg List.reverse h2
    rw [List.reverse_append, List.reverse_reverse] at h3
    have h4 : trimL s ++
        ((s.dropWhile Char.isWhitespace).reverse.takeWhile Char.isWhitespace).reverse
        = s.dropWhile Char.isWhitespace := h3
    rw [h4]
    exact (List.takeWhile_append_dropWhile Char.isWhitespace s).symm
  · intro c hc
    exact List.mem_takeWhile_imp hc

/-- Occurrences of the Markdown fence survive trimming with their preceding
backslash. -/
theorem md_sanitized_occ (s : List Char) (i : Nat)
    (h : (['`', '`', '`'] : List Char).isPrefixOf
      ((trimL (replaceL ['`', '`', '`'] ['\\', '`', '\\', '`', '\\', '`'] s)).drop i)
      = true) :
    1 ≤ i ∧
      (trimL (replaceL ['`', '`', '`'] ['\\', '`', '\\', '`', '\\', '`'] s)).get?
        (i - 1) = some '\\' := by
  obtain ⟨pre, suf, hdec, hpre⟩ :=
    trimL_decomp (replaceL ['`', '`', '`'] ['\\', '`', '\\', '`', '\\', '`'] s)
  have hti : i <
      (trimL (replaceL ['`', '`', '`'] ['\\', '`', '\\', '`', '\\', '`'] s)).length := by
    by_contra hle
    rw [List.drop_eq_nil_of_le (by omega)] at h
    simp [List.isPrefixOf] at h
  have hR : (['`', '`', '`'] : List Char).isPrefixOf
      ((replaceL ['`', '`', '`'] ['\\', '`', '\\', '`', '\\', '`'] s).drop
        (pre.length + i)) = true := by
    rw [hdec, drop_append_len, List.drop_append_eq_append_drop,
      Nat.sub_eq_zero_of_le (Nat.le_of_lt hti), List.drop_zero]
    exact isPrefixOf_append_left suf h
  rw [replaceL] at hR
  obtain ⟨h1, h2⟩ := md_replace_occ s.length s (le_refl _) (pre.length + i) hR
  rw [← replaceL] at h2
  have hi1 : 1 ≤ i := by
    by_contra h0
    have hi0 : i = 0 := by omega
    subst hi0
    have hplen : 1 ≤ pre.length := by simpa using h1
    have hgetpre : (replaceL ['`', '`', '`'] ['\\', '`', '\\', '`', '\\', '`'] s).get?
        (pre.length + 0 - 1) = pre.get? (pre.length - 1) := by
      rw [hdec]
      have : pre.length + 0 - 1 = pre.length - 1 := by omega
      rw [this]
      exact List.get?_append (by omega)
    rw [hgetpre] at h2
    have hmem : '\\' ∈ pre := List.get?_mem h2
    exact absurd (hpre _ hmem) (by decide)
  refine ⟨hi1, ?_⟩
  have e1 : (trimL (replaceL ['`', '`', '`'] ['\\', '`', '\\', '`', '\\', '`'] s)).get?
      (i - 1) =
      ((trimL (replaceL ['`', '`', '`'] ['\\', '`', '\\', '`', '\\', '`'] s) ++ suf).get?
        (i - 1)) :=
    (List.get?_append (by omega)).symm
  have e2 : ((trimL (replaceL ['`', '`', '`'] ['\\', '`', '\\', '`', '\\', '`'] s)
      ++ suf).get? (i - 1)) =
      (replaceL ['`', '`', '`'] ['\\', '`', '\\', '`', '\\', '`'] s).get?
        (pre.length + (i - 1)) := by
    conv_rhs => rw [hdec, get?_append_len]
  rw [e1, e2, show pre.length + (i - 1) = pre.length + i - 1 from by omega]
  exact h2

/-- Occurrences of the AsciiDoc delimiter survive trimming with their
preceding backslash or hyphen. -/
theorem adoc_sanitized_occ (s : List Char) (i : Nat)
    (h : (['-', '-', '-', '-'] : List Char).isPrefixOf
      ((trimL (replaceL ['-', '-', '-', '-'] ['\\', '-', '-', '-', '-'] s)).drop i)
      = true) :
    1 ≤ i ∧
      ((trimL (replaceL ['-', '-', '-', '-'] ['\\', '-', '-', '-', '-'] s)).get?
          (i - 1) = some '\\' ∨
        (trimL (replaceL ['-', '-', '-', '-'] ['\\', '-', '-', '-', '-'] s)).get?
          (i - 1) = some '-') := by
  obtain ⟨pre, suf, hdec, hpre⟩ :=
    trimL_decomp (replaceL ['-', '-', '-', '-'] ['\\', '-', '-', '-', '-'] s)
  have hti : i <
      (trimL (replaceL ['-', '-', '-', '-'] ['\\', '-', '-', '-', '-'] s)).length := by
    by_contra hle
    rw [List.drop_eq_nil_of_le (by omega)] at h
    simp [List.isPrefixOf] at h
  have hR : (['-', '-', '-', '-'] : List Char).isPrefixOf
      ((replaceL ['-', '-', '-', '-'] ['\\', '-', '-', '-', '-'] s).drop
        (pre.length + i)) = true := by
    rw [hdec, drop_append_len, List.drop_append_eq_append_drop,
      Nat.sub_eq_zero_of_le (Nat.le_of_lt hti), List.drop_zero]
    exact isPrefixOf_append_left suf h
  rw [replaceL] at hR
  obtain ⟨h1, h2⟩ := adoc_replace_occ s.length s (le_refl _) (pre.length + i) hR
  rw [← replaceL] at h2
  have hi1 : 1 ≤ i := by
    by_contra h0
    have hi0 : i = 0 := by omega
    subst hi0
    have hplen : 1 ≤ pre.length := by simpa using h1
    have hgetpre : (replaceL ['-', '-', '-', '-'] ['\\', '-', '-', '-', '-'] s).get?
        (pre.length + 0 - 1) = pre.get? (pre.length - 1) := by
      rw [hdec]
      have : pre.length + 0 - 1 = pre.length - 1 := by omega
      rw [this]
      exact List.get?_append (by omega)
    rw [hgetpre] at h2
    cases h2 with
    | inl h2 =>
      have hmem : '\\' ∈ pre := List.get?_mem h2
      exact absurd (hpre _ hmem) (by decide)
    | inr h2 =>
      have hmem : '-' ∈ pre := List.get?_mem h2
      exact absurd (hpre _ hmem) (by decide)
  refine ⟨hi1, ?_⟩
  have e1 : (trimL (replaceL ['-', '-', '-', '-'] ['\\', '-', '-', '-', '-'] s)).get?
      (i - 1) =
      ((trimL (replaceL ['-', '-', '-', '-'] ['\\', '-', '-', '-', '-'] s) ++ suf).get?
        (i - 1)) :=
    (List.get?_append (by omega)).symm
  have e2 : ((trimL (replaceL ['-', '-', '-', '-'] ['\\', '-', '-', '-', '-'] s)
      ++ suf).get? (i - 1)) =
      (replaceL ['-', '-', '-', '-'] ['\\', '-', '-', '-', '-'] s).get?
        (pre.length + (i - 1)) := by
    conv_rhs => rw [hdec, get?_append_len]
  rw [e1, e2, show pre.length + (i - 1) = pre.length + i - 1 from by omega]
  exact h2

theorem lossy_md_eq (content : List Char) :
    read_file_content_lossy content .Markdown =
      lossy_warning ++
        trimL (replaceL ['`', '`', '`'] ['\\', '`', '\\', '`', '\\', '`'] content) :=
  rfl

theorem lossy_adoc_eq (content : List Char) :
    read_file_content_lossy content .Adoc =
      lossy_warning ++
        trimL (replaceL ['-', '-', '-', '-'] ['\\', '-', '-', '-', '-'] content) :=
  rfl

theorem lossy_warning_no_backtick : ∀ c ∈ lossy_warning, ¬ c = '`' := by decide

theorem lossy_warning_last :
    lossy_warning.get? (lossy_warning.length - 1) = some '\n' := by decide

theorem lossy_warning_no_double_hyphen :
    ∀ j, j + 1 < lossy_warning.length →
      ¬(lossy_warning.get? j = some '-' ∧ lossy_warning.get? (j + 1) = some '-') := by
  intro j hj hcontra
  have hall : (List.range lossy_warning.length).all
      (fun k => !(decide (lossy_warning.get? k = some '-') &&
        decide (lossy_warning.get? (k + 1) = some '-'))) = true := by decide
  have hk := List.all_eq_true.mp hall j (List.mem_range.mpr (by omega))
  simp only [List.get?_eq_getElem?] at hcontra
  simp [hcontra.1, hcontra.2] at hk

/-- **C9 (amended)**: the sanitization does not remove every delimiter
substring from the rendered content (see `claim_C9_counterexample`), but it
does guarantee the property that matters for document structure: in the
content returned by `read_file_content` (UTF-8 branch) and by
`read_file_content_lossy` (lossy branch), every occurrence of the format's
block delimiter is immediately preceded by a backslash (or, for AsciiDoc, a
backslash or a hyphen) — hence no delimiter occurrence sits at the start of
the content or after a newline, so file content cannot produce a delimiter
line that would prematurely terminate the fenced block. -/
theorem claim_C9_sanitization (fs : FS) (file_path : List String)
    (format : OutputFormat) (content out : List Char) (i : Nat) :
    (read_file_content fs file_path format = .ok out →
      (block_delimiter format).isPrefixOf (out.drop i) = true →
      1 ≤ i ∧ (out.get? (i - 1) = some '\\' ∨
        format = .Adoc ∧ out.get? (i - 1) = some '-')) ∧
    ((block_delimiter format).isPrefixOf
        ((read_file_content_lossy content format).drop i) = true →
      1 ≤ i ∧
        ((read_file_content_lossy content format).get? (i - 1) = some '\\' ∨
          format = .Adoc ∧
            (read_file_content_lossy content format).get? (i - 1) = some '-')) := by
  constructor
  · intro hout hocc
    unfold read_file_content at hout
    cases hred : fsRead fs file_path with
    | none =>
      rw [hred] at hout
      exact absurd hout (by simp)
    | some c =>
      rw [hred] at hout
      cases format with
      | Markdown =>
        have hinj : Except.ok
            (trimL (replaceL ['`', '`', '`'] ['\\', '`', '\\', '`', '\\', '`'] c))
            = Except.ok out := hout
        have heq := Except.ok.inj hinj
        subst heq
        have hocc' : (['`', '`', '`'] : List Char).isPrefixOf
            ((trimL (replaceL ['`', '`', '`'] ['\\', '`', '\\', '`', '\\', '`']
              c)).drop i) = true := hocc
        obtain ⟨h1, h2⟩ := md_sanitized_occ c i hocc'
        exact ⟨h1, Or.inl h2⟩
      | Adoc =>
        have hinj : Except.ok
            (trimL (replaceL ['-', '-', '-', '-'] ['\\', '-', '-', '-', '-'] c))
            = Except.ok out := hout
        have heq := Except.ok.inj hinj
        subst heq
        have hocc' : (['-', '-', '-', '-'] : List Char).isPrefixOf
            ((trimL (replaceL ['-', '-', '-', '-'] ['\\', '-', '-', '-', '-']
              c)).drop i) = true := hocc
        obtain ⟨h1, h2⟩ := adoc_sanitized_occ c i hocc'
        refine ⟨h1, ?_⟩
        cases h2 with
        | inl h2 => exact Or.inl h2
        | inr h2 => exact Or.inr ⟨rfl, h2⟩
  · intro hocc
    cases format with
    | Markdown =>
      rw [lossy_md_eq] at hocc ⊢
      have hocc' : (['`', '`', '`'] : List Char).isPrefixOf
          ((lossy_warning ++
            trimL (replaceL ['`', '`', '`'] ['\\', '`', '\\', '`', '\\', '`']
              content)).drop i) = true := hocc
      by_cases hcase : lossy_warning.length ≤ i
      · obtain ⟨j, rfl⟩ : ∃ j, i = lossy_warning.length + j :=
          ⟨i - lossy_warning.length, by omega⟩
        rw [drop_append_len] at hocc'
        obtain ⟨hj1, hj2⟩ := md_sanitized_occ content j hocc'
        refine ⟨by omega, Or.inl ?_⟩
        rw [show lossy_warning.length + j - 1 = lossy_warning.length + (j - 1)
          from by omega, get?_append_len]
        exact hj2
      · exfalso
        have hch0 := isPrefixOf_get? hocc' 0 (by decide)
        rw [List.get?_drop] at hch0
        simp only [Nat.add_zero] at hch0
        have hch0' : (lossy_warning ++
            trimL (replaceL ['`', '`', '`'] ['\\', '`', '\\', '`', '\\', '`']
              content)).get? i = some '`' := hch0
        have h0 : lossy_warning.get? i = some '`' :=
          (List.get?_append (by omega)).symm.trans hch0'
        exact lossy_warning_no_backtick _ (List.get?_mem h0) rfl
    | Adoc =>
      rw [lossy_adoc_eq] at hocc ⊢
      have hocc' : (['-', '-', '-', '-'] : List Char).isPrefixOf
          ((lossy_warning ++
            trimL (replaceL ['-', '-', '-', '-'] ['\\', '-', '-', '-', '-']
              content)).drop i) = true := hocc
      by_cases hcase : lossy_warning.length ≤ i
      · obtain ⟨j, rfl⟩ : ∃ j, i = lossy_warning.length + j :=
          ⟨i - lossy_warning.length, by omega⟩
        rw [drop_append_len] at hocc'
        obtain ⟨hj1, hj2⟩ := adoc_sanitized_occ content j hocc'
        refine ⟨by omega, ?_⟩
        rw [show lossy_warning.length + j - 1 = lossy_warning.length + (j - 1)
          from by omega, get?_append_len]
        cases hj2 with
        | inl h2 => exact Or.inl h2
        | inr h2 => exact Or.inr ⟨rfl, h2⟩
      · exfalso
        have hch0 := isPrefixOf_get? hocc' 0 (by decide)
        have hch1 := isPrefixOf_get? hocc' 1 (by decide)
        rw [List.get?_drop] at hch0 hch1
        simp only [Nat.add_zero] at hch0
        have hch0' : (lossy_warning ++
            trimL (replaceL ['-', '-', '-', '-'] ['\\', '-', '-', '-', '-']
              content)).get? i = some '-' := hch0
        have hch1' : (lossy_warning ++
            trimL (replaceL ['-', '-', '-', '-'] ['\\', '-', '-', '-', '-']
              content)).get? (i + 1) = some '-' := hch1
        have h0 : lossy_warning.get? i = some '-' :=
          (List.get?_append (by omega)).symm.trans hch0'
        by_cases hb : i + 1 < lossy_warning.length
        · have h1 : lossy_warning.get? (i + 1) = some '-' :=
            (List.get?_append hb).symm.trans hch1'
          exact lossy_warning_no_double_hyphen i hb ⟨h0, h1⟩
        · have hi : i = lossy_warning.length - 1 := by omega
          rw [hi, lossy_warning_last] at h0
          exact absurd h0 (by decide)

theorem claim_C9_sanitization_witness :
    1 ≤ 5 ∧ ((str "\\`\\`\\```").get? (5 - 1) = some '\\' ∨
      OutputFormat.Markdown = OutputFormat.Adoc ∧
        (str "\\`\\`\\```").get? (5 - 1) = some '-') :=
  (claim_C9_sanitization [(["d", "x"], str "`````")] ["d", "x"] .Markdown []
    (str "\\`\\`\\```") 5).1 (by decide) (by decide)

/-! ## Claim C5: the section-update span -/

theorem findSub_some_firstOccur (s pat : List Char) :
    ∀ n, findSub s pat = some n → firstOccur s pat n := by
  induction s with
  | nil =>
    intro n h
    unfold findSub at h
    by_cases hp : pat = []
    · rw [if_pos hp] at h
      cases h
      subst hp
      exact ⟨rfl, fun m hm => absurd hm (by omega)⟩
    · rw [if_neg hp] at h
      exact absurd h (by simp)
  | cons c rest ih =>
    intro n h
    unfold findSub at h
    dsimp only at h
    by_cases hp : pat.isPrefixOf (c :: rest) = true
    · rw [if_pos hp] at h
      cases h
      exact ⟨hp, fun m hm => absurd hm (by omega)⟩
    · rw [if_neg hp] at h
      obtain ⟨k, hk, hkn⟩ := Option.map_eq_some'.mp h
      obtain ⟨h1, h2⟩ := ih k hk
      subst hkn
      refine ⟨h1, ?_⟩
      intro m hm
      cases m with
      | zero =>
        simp only [List.drop_zero]
        exact Bool.eq_false_iff.mpr hp
      | succ m =>
        exact h2 m (by omega)

theorem findSub_none_noOccur (s pat : List Char) (hpat : pat ≠ [])
    (h : findSub s pat = none) : noOccur s pat := by
  induction s with
  | nil =>
    intro m
    rw [List.drop_nil]
    cases pat with
    | nil => exact absurd rfl hpat
    | cons x l => rfl
  | cons c rest ih =>
    unfold findSub at h
    dsimp only at h
    by_cases hp : pat.isPrefixOf (c :: rest) = true
    · rw [if_pos hp] at h
      exact absurd h (by simp)
    · rw [if_neg hp] at h
      have hrest := ih (Option.map_eq_none'.mp h)
      intro m
      cases m with
      | zero =>
        simp only [List.drop_zero]
        exact Bool.eq_false_iff.mpr hp
      | succ m => exact hrest m

/-- **C5 (counterexample)**: for the Markdown document
`### a.txt\n\nold\n## Next\ny`, updating the `a.txt` section swallows the
following higher-level header `## Next` and everything after it: the code
searches only for the next `\n### ` (and finds none, so it takes the end of
the document), whereas the spec's "next header of equal or higher level"
ends the span at `\n## Next`. -/
theorem claim_C5_counterexample :
    update_file_section_in_document_content ["d"] [(["d", "a.txt"], str "A")]
      (str "### a.txt\n\nold\n## Next\ny") ["d", "a.txt"] .Markdown
      = .ok (str "### a.txt\n\n```txt\nA\n```") ∧
    update_file_section_spec ["d"] [(["d", "a.txt"], str "A")]
      (str "### a.txt\n\nold\n## Next\ny") ["d", "a.txt"] .Markdown
      = .ok (str "### a.txt\n\n```txt\nA\n```\n## Next\ny") ∧
    (str "### a.txt\n\n```txt\nA\n```") ≠
      (str "### a.txt\n\n```txt\nA\n```\n## Next\ny") := by
  refine ⟨by decide, by decide, by decide⟩

/-- **C5 (amended)**: `update_file_section_in_document` locates the section
at the FIRST occurrence of the header text; when the header is absent it
returns the descriptive error and the document on disk is untouched.  When
the header is present, the replaced span `[start, e)` ends at the first
occurrence of `\n### ` after the header (for BOTH formats — for Markdown
the higher-level headers `\n## ` and `\n# ` never end the span, and for
AsciiDoc the chain tries `\n### ` before the real AsciiDoc markers and
prefers an earlier pattern in the chain over an earlier position), else for
AsciiDoc the first `\n=== `, else `\n== `, else `\n= `, else the end of the
document. -/
theorem claim_C5_update_section (directory : List String) (fs : FS)
    (current_content : List Char) (updated_file_path : List String)
    (format : OutputFormat) (rel : List String) (hdr : List Char)
    (hstrip : strip_prefix_components directory updated_file_path = some rel)
    (hhdr : hdr = (match format with
      | OutputFormat.Markdown => str "### " ++ displayPath rel
      | OutputFormat.Adoc => str "=== " ++ displayPath rel)) :
    (findSub current_content hdr = none →
      update_file_section_in_document_content directory fs current_content
          updated_file_path format =
        .error (.DocumentGenerationError (str "Could not find section for file "
          ++ displayPath rel
          ++ str " in document. Consider regenerating the full document.")) ∧
      ∀ document_path o, fsRead fs document_path = some current_content →
        (update_file_section_fs fs directory document_path updated_file_path
          format o).1 = fs) ∧
    (∀ start, findSub current_content hdr = some start →
      firstOccur current_content hdr start ∧
      ∀ new_section,
        generate_file_string directory fs updated_file_path format
          = .ok new_section →
        ∃ e,
          update_file_section_in_document_content directory fs current_content
              updated_file_path format =
            .ok (current_content.take start ++ new_section
              ++ current_content.drop e) ∧
          ((∃ n, firstOccur (current_content.drop (start + hdr.length))
              (str "\n### ") n ∧ e = start + hdr.length + n) ∨
            (format = .Adoc ∧
              noOccur (current_content.drop (start + hdr.length)) (str "\n### ") ∧
              ∃ n, firstOccur (current_content.drop (start + hdr.length))
                (str "\n=== ") n ∧ e = start + hdr.length + n) ∨
            (format = .Adoc ∧
              noOccur (current_content.drop (start + hdr.length)) (str "\n### ") ∧
              noOccur (current_content.drop (start + hdr.length)) (str "\n=== ") ∧
              ∃ n, firstOccur (current_content.drop (start + hdr.length))
                (str "\n== ") n ∧ e = start + hdr.length + n) ∨
            (format = .Adoc ∧
              noOccur (current_content.drop (start + hdr.length)) (str "\n### ") ∧
              noOccur (current_content.drop (start + hdr.length)) (str "\n=== ") ∧
              noOccur (current_content.drop (start + hdr.length)) (str "\n== ") ∧
              ∃ n, firstOccur (current_content.drop (start + hdr.length))
                (str "\n= ") n ∧ e = start + hdr.length + n) ∨
            (noOccur (current_content.drop (start + hdr.length)) (str "\n### ") ∧
              (format = .Markdown ∨
                (noOccur (current_content.drop (start + hdr.length)) (str "\n=== ") ∧
                  noOccur (current_content.drop (start + hdr.length)) (str "\n== ") ∧
                  noOccur (current_content.drop (start + hdr.length)) (str "\n= "))) ∧
              e = current_content.length))) := by
  cases format with
  | Markdown =>
    dsimp only at hhdr
    subst hhdr
    constructor
    · intro hnone
      have herr : update_file_section_in_document_content directory fs
          current_content updated_file_path OutputFormat.Markdown =
          .error (.DocumentGenerationError (str "Could not find section for file "
            ++ displayPath rel
            ++ str " in document. Consider regenerating the full document.")) := by
        unfold update_file_section_in_document_content
        rw [hstrip]
        dsimp only
        rw [hnone]
      refine ⟨herr, ?_⟩
      intro document_path o hread
      unfold update_file_section_fs
      rw [hread]
      dsimp only
      rw [herr]
    · intro start hstart
      refine ⟨findSub_some_firstOccur _ _ _ hstart, ?_⟩
      intro new_section hgen
      have hne : ¬(OutputFormat.Markdown = OutputFormat.Adoc) := by decide
      cases hts : findSub
          (current_content.drop (start + (str "### " ++ displayPath rel).length))
          (str "\n### ") with
      | some n =>
        refine ⟨start + (str "### " ++ displayPath rel).length + n, ?_,
          Or.inl ⟨n, findSub_some_firstOccur _ _ _ hts, rfl⟩⟩
        unfold update_file_section_in_document_content
        rw [hstrip]
        dsimp only
        rw [hstart]
        dsimp only
        rw [hts]
        dsimp only
        rw [hgen]
      | none =>
        refine ⟨current_content.length, ?_,
          Or.inr (Or.inr (Or.inr (Or.inr
            ⟨findSub_none_noOccur _ _ (by decide) hts, Or.inl rfl, rfl⟩)))⟩
        unfold update_file_section_in_document_content
        rw [hstrip]
        dsimp only
        rw [hstart]
        dsimp only
        rw [hts]
        dsimp only
        rw [if_neg hne]
        dsimp only
        rw [if_neg hne]
        dsimp only
        rw [if_neg hne]
        dsimp only
        rw [hgen]
  | Adoc =>
    dsimp only at hhdr
    subst hhdr
    constructor
    · intro hnone
      have herr : update_file_section_in_document_content directory fs
          current_content updated_file_path OutputFormat.Adoc =
          .error (.DocumentGenerationError (str "Could not find section for file "
            ++ displayPath rel
            ++ str " in document. Consider regenerating the full document.")) := by
        unfold update_file_section_in_document_content
        rw [hstrip]
        dsimp only
        rw [hnone]
      refine ⟨herr, ?_⟩
      intro document_path o hread
      unfold update_file_section_fs
      rw [hread]
      dsimp only
      rw [herr]
    · intro start hstart
      refine ⟨findSub_some_firstOccur _ _ _ hstart, ?_⟩
      intro new_section hgen
      cases hts1 : findSub
          (current_content.drop (start + (str "=== " ++ displayPath rel).length))
          (str "\n### ") with
      | some n =>
        refine ⟨start + (str "=== " ++ displayPath rel).length + n, ?_,
          Or.inl ⟨n, findSub_some_firstOccur _ _ _ hts1, rfl⟩⟩
        unfold update_file_section_in_document_content
        rw [hstrip]
        dsimp only
        rw [hstart]
        dsimp only
        rw [hts1]
        dsimp only
        rw [hgen]
      | none =>
        have hno1 := findSub_none_noOccur _ _ (by decide) hts1
        cases hts2 : findSub
            (current_content.drop (start + (str "=== " ++ displayPath rel).length))
            (str "\n=== ") with
        | some n =>
          refine ⟨start + (str "=== " ++ displayPath rel).length + n, ?_,
            Or.inr (Or.inl ⟨rfl, hno1,
              n, findSub_some_firstOccur _ _ _ hts2, rfl⟩)⟩
          unfold update_file_section_in_document_content
          rw [hstrip]
          dsimp only
          rw [hstart]
          dsimp only
          rw [hts1]
          dsimp only
          rw [if_pos rfl, hts2]
          dsimp only
          rw [hgen]
        | none =>
          have hno2 := findSub_none_noOccur _ _ (by decide) hts2
          cases hts3 : findSub
              (current_content.drop (start + (str "=== " ++ displayPath rel).length))
              (str "\n== ") with
          | some n =>
            refine ⟨start + (str "=== " ++ displayPath rel).length + n, ?_,
              Or.inr (Or.inr (Or.inl ⟨rfl, hno1, hno2,
                n, findSub_some_firstOccur _ _ _ hts3, rfl⟩))⟩
            unfold update_file_section_in_document_content
            rw [hstrip]
            dsimp only
            rw [hstart]
            dsimp only
            rw [hts1]
            dsimp only
            rw [if_pos rfl, hts2]
            dsimp only
            rw [if_pos rfl, hts3]
            dsimp only
            rw [hgen]
          | none =>
            have hno3 := findSub_none_noOccur _ _ (by decide) hts3
            cases hts4 : findSub
                (current_content.drop
                  (start + (str "=== " ++ displayPath rel).length))
                (str "\n= ") with
            | some n =>
              refine ⟨start + (str "=== " ++ displayPath rel).length + n, ?_,
                Or.inr (Or.inr (Or.inr (Or.inl ⟨rfl, hno1, hno2, hno3,
                  n, findSub_some_firstOccur _ _ _ hts4, rfl⟩)))⟩
              unfold update_file_section_in_document_content
              rw [hstrip]
              dsimp only
              rw [hstart]
              dsimp only
              rw [hts1]
              dsimp only
              rw [if_pos rfl, hts2]
              dsimp only
              rw [if_pos rfl, hts3]
              dsimp only
              rw [if_pos rfl, hts4]
              dsimp only
              rw [hgen]
            | none =>
              have hno4 := findSub_none_noOccur _ _ (by decide) hts4
              refine ⟨current_content.length, ?_,
                Or.inr (Or.inr (Or.inr (Or.inr
                  ⟨hno1, Or.inr ⟨hno2, hno3, hno4⟩, rfl⟩)))⟩
              unfold update_file_section_in_document_content
              rw [hstrip]
              dsimp only
              rw [hstart]
              dsimp only
              rw [hts1]
              dsimp only
              rw [if_pos rfl, hts2]
              dsimp only
              rw [if_pos rfl, hts3]
              dsimp only
              rw [if_pos rfl, hts4]
              dsimp only
              rw [hgen]

theorem claim_C5_update_section_witness :
    update_file_section_in_document_content ["d"] [(["d", "a.txt"], str "A")]
      (str "### b.txt\n\nx") ["d", "a.txt"] .Markdown =
      .error (.DocumentGenerationError (str "Could not find section for file "
        ++ displayPath ["a.txt"]
        ++ str " in document. Consider regenerating the full document.")) :=
  ((claim_C5_update_section ["d"] [(["d", "a.txt"], str "A")]
    (str "### b.txt\n\nx") ["d", "a.txt"] .Markdown ["a.txt"]
    (str "### a.txt") (by decide) (by decide)).1 (by decide)).1

/-! ## `file_handler.rs`: scan ordering (claim C4) -/

/-- `name.to_lowercase()` (ASCII case folding, which agrees with Rust on all
ASCII names). -/
def toLowerL (s : String) : List Char := s.data.map Char.toLower

/-- Codepoint-lexicographic `cmp` on strings (UTF-8 byte order on Rust
`String`s agrees with codepoint order). -/
def strCmp : List Char → List Char → Ordering
  | [], [] => .eq
  | [], _ :: _ => .lt
  | _ :: _, [] => .gt
  | a :: as, b :: bs =>
    if a.toNat < b.toNat then .lt
    else if b.toNat < a.toNat then .gt
    else strCmp as bs

/-- `Ord for FileNode` (`file_handler.rs`): directories before files, then
case-insensitive name order. -/
def fileNodeCmp (a b : FileNode) : Ordering :=
  if a.is_dir && !b.is_dir then .lt
  else if !a.is_dir && b.is_dir then .gt
  else strCmp (toLowerL a.name) (toLowerL b.name)

def fileNodeLe (a b : FileNode) : Bool :=
  match fileNodeCmp a b with
  | .gt => false
  | _ => true

/-- `children.sort()`: Rust's sort is stable; insertion sort is stable, so
it computes the same list for this comparator. -/
def insertNode (x : FileNode) : List FileNode → List FileNode
  | [] => [x]
  | y :: ys => if fileNodeLe x y then x :: y :: ys else y :: insertNode x ys

def sortNodes : List FileNode → List FileNode
  | [] => []
  | x :: xs => insertNode x (sortNodes xs)

/-! The two maps built by the first pass (`path_to_node`,
`parent_child_map`) as association lists with unique keys (canonical
paths). -/

def lookupNode : List (List String × FileNode) → List String → Option FileNode
  | [], _ => none
  | (q, n) :: rest, p => if q = p then some n else lookupNode rest p

def removeNode : List (List String × FileNode) → List String →
    List (List String × FileNode)
  | [], _ => []
  | (q, n) :: rest, p => if q = p then rest else (q, n) :: removeNode rest p

def lookupChildren : List (List String × List (List String)) → List String →
    Option (List (List String))
  | [], _ => none
  | (q, c) :: rest, p => if q = p then some c else lookupChildren rest p

def setChildren : FileNode → List FileNode → FileNode
  | .mk n p d _, c => .mk n p d c

/-- `build_tree_recursive` (`file_handler.rs`), fueled: the Rust recursion
terminates because every call removes its node from `path_to_node` first,
so the map size bounds the depth; `Err` children are skipped
(`if let Ok`), and a failed removal happens before any mutation. -/
def build_tree_recursive (pcm : List (List String × List (List String))) :
    Nat → List (List String × FileNode) → List String →
      Option (FileNode × List (List String × FileNode))
  | 0, _, _ => none
  | fuel + 1, m, current_path =>
    match lookupNode m current_path with
    | none => none
    | some node =>
      let m1 := removeNode m current_path
      match lookupChildren pcm current_path with
      | none => some (node, m1)
      | some children_paths =>
        let res := children_paths.foldl (fun acc p =>
          match build_tree_recursive pcm fuel acc.2 p with
          | none => acc
          | some (child, m2) => (acc.1 ++ [child], m2)) ([], m1)
        some (setChildren node (sortNodes res.1), res.2)

/-- All pairs in order: every element is `≤` every later element. -/
def pairwiseLeB : List FileNode → Bool
  | [] => true
  | x :: xs => xs.all (fun y => fileNodeLe x y) && pairwiseLeB xs

mutual

/-- Every directory level of the tree is sorted by the `Ord` comparator. -/
def levelsSortedB : FileNode → Bool
  | .mk _ _ _ children => pairwiseLeB children && levelsSortedLB children

def levelsSortedLB : List FileNode → Bool
  | [] => true
  | c :: rest => levelsSortedB c && levelsSortedLB rest

end

theorem char_toNat_inj {a b : Char} (h : a.toNat = b.toNat) : a = b := by
  have ha := Char.ofNat_toNat a
  rw [← ha, h, Char.ofNat_toNat]

theorem strCmp_eq_iff : ∀ p q, strCmp p q = .eq ↔ p = q := by
  intro p
  induction p with
  | nil =>
    intro q
    cases q with
    | nil => simp [strCmp]
    | cons b bs => simp [strCmp]
  | cons a as ih =>
    intro q
    cases q with
    | nil => simp [strCmp]
    | cons b bs =>
      unfold strCmp
      by_cases h1 : a.toNat < b.toNat
      · rw [if_pos h1]
        constructor
        · intro hc
          cases hc
        · intro hc
          injection hc with hh _
          subst hh
          omega
      · rw [if_neg h1]
        by_cases h2 : b.toNat < a.toNat
        · rw [if_pos h2]
          constructor
          · intro hc
            cases hc
          · intro hc
            injection hc with hh _
            subst hh
            omega
        · rw [if_neg h2]
          have hab : a = b := char_toNat_inj (by omega)
          subst hab
          rw [ih bs]
          simp

theorem strCmp_swap : ∀ p q, strCmp q p = (strCmp p q).swap := by
  intro p
  induction p with
  | nil =>
    intro q
    cases q <;> simp [strCmp, Ordering.swap]
  | cons a as ih =>
    intro q
    cases q with
    | nil => simp [strCmp, Ordering.swap]
    | cons b bs =>
      unfold strCmp
      by_cases h1 : a.toNat < b.toNat
      · rw [if_neg (show ¬ b.toNat < a.toNat from by omega), if_pos h1,
          if_pos h1]
        rfl
      · by_cases h2 : b.toNat < a.toNat
        · rw [if_pos h2, if_neg h1, if_pos h2]
          rfl
        · rw [if_neg h2, if_neg h1, if_neg h1, if_neg h2]
          exact ih bs

theorem strCmp_le_trans : ∀ p q r, strCmp p q ≠ .gt → strCmp q r ≠ .gt →
    strCmp p r ≠ .gt := by
  intro p
  induction p with
  | nil =>
    intro q r _ _
    cases r <;> simp [strCmp]
  | cons a as ih =>
    intro q r h1 h2
    cases q with
    | nil => simp [strCmp] at h1
    | cons b bs =>
      cases r with
      | nil => simp [strCmp] at h2
      | cons c cs =>
        unfold strCmp at h1 h2 ⊢
        by_cases hab1 : a.toNat < b.toNat
        · by_cases hbc1 : b.toNat < c.toNat
          · rw [if_pos (show a.toNat < c.toNat from by omega)]
            simp
          · rw [if_neg hbc1] at h2
            by_cases hbc2 : c.toNat < b.toNat
            · rw [if_pos hbc2] at h2
              exact absurd rfl h2
            · rw [if_pos (show a.toNat < c.toNat from by omega)]
              simp
        · rw [if_neg hab1] at h1
          by_cases hab2 : b.toNat < a.toNat
          · rw [if_pos hab2] at h1
            exact absurd rfl h1
          · rw [if_neg hab2] at h1
            by_cases hbc1 : b.toNat < c.toNat
            · rw [if_pos (show a.toNat < c.toNat from by omega)]
              simp
            · rw [if_neg hbc1] at h2
              by_cases hbc2 : c.toNat < b.toNat
              · rw [if_pos hbc2] at h2
                exact absurd rfl h2
              · rw [if_neg hbc2] at h2
                rw [if_neg (show ¬ a.toNat < c.toNat from by omega),
                  if_neg (show ¬ c.toNat < a.toNat from by omega)]
                exact ih bs cs h1 h2

theorem fileNodeCmp_swap (a b : FileNode) :
    fileNodeCmp b a = (fileNodeCmp a b).swap := by
  cases ha : a.is_dir <;> cases hb : b.is_dir <;>
    simp [fileNodeCmp, ha, hb, Ordering.swap] <;>
    exact strCmp_swap _ _

theorem fileNodeCmp_eq_key {a b : FileNode} (h : fileNodeCmp a b = .eq) :
    a.is_dir = b.is_dir ∧ toLowerL a.name = toLowerL b.name := by
  cases ha : a.is_dir <;> cases hb : b.is_dir <;>
    simp [fileNodeCmp, ha, hb] at h ⊢ <;>
    exact (strCmp_eq_iff _ _).mp h

theorem fileNodeLe_iff {a b : FileNode} :
    fileNodeLe a b = true ↔ fileNodeCmp a b ≠ .gt := by
  unfold fileNodeLe
  cases fileNodeCmp a b <;> simp

theorem fileNodeLe_total (a b : FileNode) :
    fileNodeLe a b = true ∨ fileNodeLe b a = true := by
  by_cases h : fileNodeCmp a b = .gt
  · right
    rw [fileNodeLe_iff, fileNodeCmp_swap, h]
    decide
  · left
    exact fileNodeLe_iff.mpr h

theorem fileNodeLe_antisymm_key {a b : FileNode} (h1 : fileNodeLe a b = true)
    (h2 : fileNodeLe b a = true) :
    a.is_dir = b.is_dir ∧ toLowerL a.name = toLowerL b.name := by
  cases hc : fileNodeCmp a b with
  | eq => exact fileNodeCmp_eq_key hc
  | lt =>
    exfalso
    rw [fileNodeLe_iff, fileNodeCmp_swap, hc] at h2
    exact h2 rfl
  | gt =>
    exfalso
    rw [fileNodeLe_iff] at h1
    exact h1 hc

theorem fileNodeLe_trans {a b c : FileNode} (h1 : fileNodeLe a b = true)
    (h2 : fileNodeLe b c = true) : fileNodeLe a c = true := by
  rw [fileNodeLe_iff] at h1 h2 ⊢
  cases ha : a.is_dir <;> cases hb : b.is_dir <;> cases hc : c.is_dir <;>
    simp [fileNodeCmp, ha, hb, hc] at h1 h2 ⊢ <;>
    exact strCmp_le_trans _ _ _ h1 h2

theorem insertNode_perm (x : FileNode) : ∀ l, (insertNode x l).Perm (x :: l) := by
  intro l
  induction l with
  | nil => exact List.Perm.refl _
  | cons y ys ih =>
    unfold insertNode
    by_cases h : fileNodeLe x y = true
    · rw [if_pos h]
    · rw [if_neg h]
      exact (ih.cons y).trans (List.Perm.swap x y ys)

theorem mem_insertNode {x z : FileNode} {l : List FileNode} :
    z ∈ insertNode x l ↔ z = x ∨ z ∈ l := by
  rw [(insertNode_perm x l).mem_iff, List.mem_cons]

theorem insertNode_pairwise {x : FileNode} : ∀ {l : List FileNode},
    List.Pairwise (fun a b => fileNodeLe a b = true) l →
    List.Pairwise (fun a b => fileNodeLe a b = true) (insertNode x l) := by
  intro l
  induction l with
  | nil =>
    intro _
    simp [insertNode]
  | cons y ys ih =>
    intro hp
    rw [List.pairwise_cons] at hp
    obtain ⟨hy, hys⟩ := hp
    unfold insertNode
    by_cases h : fileNodeLe x y = true
    · rw [if_pos h]
      refine List.pairwise_cons.mpr ⟨?_, List.pairwise_cons.mpr ⟨hy, hys⟩⟩
      intro z hz
      rcases List.mem_cons.mp hz with rfl | hz'
      · exact h
      · exact fileNodeLe_trans h (hy z hz')
    · rw [if_neg h]
      have hyx : fileNodeLe y x = true := by
        rcases fileNodeLe_total x y with htot | htot
        · exact absurd htot h
        · exact htot
      refine List.pairwise_cons.mpr ⟨?_, ih hys⟩
      intro z hz
      rcases mem_insertNode.mp hz with rfl | hz'
      · exact hyx
      · exact hy z hz'

theorem sortNodes_perm : ∀ l, (sortNodes l).Perm l := by
  intro l
  induction l with
  | nil => exact List.Perm.refl _
  | cons x xs ih => exact (insertNode_perm x (sortNodes xs)).trans (ih.cons x)

theorem sortNodes_pairwise : ∀ l,
    List.Pairwise (fun a b => fileNodeLe a b = true) (sortNodes l) := by
  intro l
  induction l with
  | nil => simp [sortNodes]
  | cons x xs ih => exact insertNode_pairwise ih

theorem pairwiseLeB_iff : ∀ l, pairwiseLeB l = true ↔
    List.Pairwise (fun a b => fileNodeLe a b = true) l := by
  intro l
  induction l with
  | nil => simp [pairwiseLeB]
  | cons x xs ih =>
    simp [pairwiseLeB, List.pairwise_cons, ih, List.all_eq_true]

theorem levelsSortedLB_iff_all : ∀ l, levelsSortedLB l = true ↔
    ∀ x ∈ l, levelsSortedB x = true := by
  intro l
  induction l with
  | nil => simp [levelsSortedLB]
  | cons c rest ih =>
    rw [show levelsSortedLB (c :: rest) =
      (levelsSortedB c && levelsSortedLB rest) from rfl]
    simp [ih]

theorem sorted_perm_unique : ∀ (l1 l2 : List FileNode), l1.Perm l2 →
    List.Pairwise (fun a b => fileNodeLe a b = true) l1 →
    List.Pairwise (fun a b => fileNodeLe a b = true) l2 →
    List.Pairwise (fun a b =>
      ¬(a.is_dir = b.is_dir ∧ toLowerL a.name = toLowerL b.name)) l1 →
    l1 = l2 := by
  intro l1
  induction l1 with
  | nil =>
    intro l2 hp _ _ _
    exact (List.Perm.eq_nil hp.symm).symm
  | cons a t1 ih =>
    intro l2 hp hs1 hs2 hd
    cases l2 with
    | nil => exact absurd (List.Perm.eq_nil hp) (by simp)
    | cons b t2 =>
      have hab : a = b := by
        rcases List.mem_cons.mp (hp.mem_iff.mp (List.mem_cons_self a t1))
          with h | ha2
        · exact h
        · rcases List.mem_cons.mp (hp.symm.mem_iff.mp (List.mem_cons_self b t2))
            with h | hb1
          · exact h.symm
          · have hle1 : fileNodeLe a b = true :=
              (List.pairwise_cons.mp hs1).1 b hb1
            have hle2 : fileNodeLe b a = true :=
              (List.pairwise_cons.mp hs2).1 a ha2
            exact absurd (fileNodeLe_antisymm_key hle1 hle2)
              ((List.pairwise_cons.mp hd).1 b hb1)
      subst hab
      rw [ih t2 hp.cons_inv (List.pairwise_cons.mp hs1).2
        (List.pairwise_cons.mp hs2).2 (List.pairwise_cons.mp hd).2]

theorem sortNodes_canonical (l1 l2 : List FileNode) (hp : l1.Perm l2)
    (hd : List.Pairwise (fun a b =>
      ¬(a.is_dir = b.is_dir ∧ toLowerL a.name = toLowerL b.name)) l1) :
    sortNodes l1 = sortNodes l2 := by
  have hsymm : Symmetric (fun a b : FileNode =>
      ¬(a.is_dir = b.is_dir ∧ toLowerL a.name = toLowerL b.name)) := by
    intro x y hxy hc
    exact hxy ⟨hc.1.symm, hc.2.symm⟩
  refine sorted_perm_unique _ _
    ((sortNodes_perm l1).trans (hp.trans (sortNodes_perm l2).symm))
    (sortNodes_pairwise l1) (sortNodes_pairwise l2) ?_
  exact ((List.Perm.pairwise_iff (fun h => hsymm h) (sortNodes_perm l1)).mpr hd)

theorem removeNode_mem {m : List (List String × FileNode)} {p : List String}
    {pn : List String × FileNode} (h : pn ∈ removeNode m p) : pn ∈ m := by
  induction m with
  | nil => simpa [removeNode] using h
  | cons e rest ih =>
    obtain ⟨q, n⟩ := e
    unfold removeNode at h
    by_cases hq : q = p
    · rw [if_pos hq] at h
      exact List.mem_cons_of_mem _ h
    · rw [if_neg hq] at h
      rcases List.mem_cons.mp h with rfl | h'
      · exact List.mem_cons_self _ _
      · exact List.mem_cons_of_mem _ (ih h')

theorem lookupNode_mem {m : List (List String × FileNode)} {p : List String}
    {n : FileNode} (h : lookupNode m p = some n) : (p, n) ∈ m := by
  induction m with
  | nil => simp [lookupNode] at h
  | cons e rest ih =>
    obtain ⟨q, d⟩ := e
    unfold lookupNode at h
    by_cases hq : q = p
    · rw [if_pos hq] at h
      cases h
      subst hq
      exact List.mem_cons_self _ _
    · rw [if_neg hq] at h
      exact List.mem_cons_of_mem _ (ih h)

theorem build_fold_inv (pcm : List (List String × List (List String)))
    (fuel : Nat)
    (IH : ∀ m path node mout,
      (∀ pn ∈ m, (pn.2 : FileNode).children = []) →
      build_tree_recursive pcm fuel m path = some (node, mout) →
      levelsSortedB node = true ∧
        ∀ pn ∈ mout, (pn.2 : FileNode).children = []) :
    ∀ (cps : List (List String))
      (acc : List FileNode × List (List String × FileNode)),
      (∀ x ∈ acc.1, levelsSortedB x = true) →
      (∀ pn ∈ acc.2, (pn.2 : FileNode).children = []) →
      (∀ x ∈ (cps.foldl (fun acc p =>
          match build_tree_recursive pcm fuel acc.2 p with
          | none => acc
          | some (child, m2) => (acc.1 ++ [child], m2)) acc).1,
        levelsSortedB x = true) ∧
      (∀ pn ∈ (cps.foldl (fun acc p =>
          match build_tree_recursive pcm fuel acc.2 p with
          | none => acc
          | some (child, m2) => (acc.1 ++ [child], m2)) acc).2,
        (pn.2 : FileNode).children = []) := by
  intro cps
  induction cps with
  | nil =>
    intro acc h1 h2
    exact ⟨h1, h2⟩
  | cons p ps ihc =>
    intro acc h1 h2
    rw [List.foldl_cons]
    cases hb : build_tree_recursive pcm fuel acc.2 p with
    | none =>
      dsimp only
      exact ihc acc h1 h2
    | some res =>
      obtain ⟨child, m2⟩ := res
      dsimp only
      have hchild := IH acc.2 p child m2 h2 hb
      refine ihc (acc.1 ++ [child], m2) ?_ hchild.2
      intro x hx
      rcases List.mem_append.mp hx with hx1 | hx2
      · exact h1 x hx1
      · rw [List.mem_singleton.mp hx2]
        exact hchild.1

theorem build_tree_levels_sorted : ∀ fuel
    (pcm : List (List String × List (List String)))
    (m : List (List String × FileNode)) (path : List String)
    (node : FileNode) (mout : List (List String × FileNode)),
    (∀ pn ∈ m, (pn.2 : FileNode).children = []) →
    build_tree_recursive pcm fuel m path = some (node, mout) →
    levelsSortedB node = true ∧
      ∀ pn ∈ mout, (pn.2 : FileNode).children = [] := by
  intro fuel
  induction fuel with
  | zero =>
    intro pcm m path node mout _ h
    exact absurd h (by simp [build_tree_recursive])
  | succ fuel ih =>
    intro pcm m path node mout hm h
    unfold build_tree_recursive at h
    cases hlk : lookupNode m path with
    | none =>
      rw [hlk] at h
      exact absurd h (by simp)
    | some nd =>
      rw [hlk] at h
      dsimp only at h
      have hm1 : ∀ pn ∈ removeNode m path, (pn.2 : FileNode).children = [] :=
        fun pn hpn => hm pn (removeNode_mem hpn)
      cases hlc : lookupChildren pcm path with
      | none =>
        rw [hlc] at h
        simp only [Option.some.injEq, Prod.mk.injEq] at h
        obtain ⟨hn, hm2⟩ := h
        subst hn
        subst hm2
        refine ⟨?_, hm1⟩
        have hch : nd.children = [] := hm (path, nd) (lookupNode_mem hlk)
        cases nd with
        | mk n p d c =>
          have hc : c = [] := hch
          subst hc
          rfl
      | some cps =>
        rw [hlc] at h
        dsimp only at h
        obtain ⟨hfold1, hfold2⟩ := build_fold_inv pcm fuel (ih pcm) cps
          ([], removeNode m path) (by intro x hx; simp at hx) hm1
        simp only [Option.some.injEq, Prod.mk.injEq] at h
        obtain ⟨hn, hm2⟩ := h
        subst hn
        subst hm2
        refine ⟨?_, hfold2⟩
        cases nd with
        | mk n p d c =>
          show (pairwiseLeB (sortNodes (cps.foldl (fun acc p =>
              match build_tree_recursive pcm fuel acc.2 p with
              | none => acc
              | some (child, m2) => (acc.1 ++ [child], m2))
              ([], removeNode m path)).1) &&
            levelsSortedLB (sortNodes (cps.foldl (fun acc p =>
              match build_tree_recursive pcm fuel acc.2 p with
              | none => acc
              | some (child, m2) => (acc.1 ++ [child], m2))
              ([], removeNode m path)).1)) = true
          rw [(pairwiseLeB_iff _).mpr (sortNodes_pairwise _),
            (levelsSortedLB_iff_all _).mpr (fun x hx =>
              hfold1 x ((sortNodes_perm _).mem_iff.mp hx))]
          exact rfl

/-- **C4**: (a) every directory level of a tree built by
`build_tree_recursive` from the first pass's childless nodes is ordered by
the `Ord for FileNode` comparator — directories before files, then
case-insensitive name order — at every level (`levelsSortedB`); (b) the
ordering is deterministic: `children.sort()` produces the same sequence
from any arrival order of the same children, provided no two children share
the sort key (`is_dir`, lowercase name); hence two scans over an identical
filesystem state yield identical child ordering. -/
theorem claim_C4_scan_ordering :
    (∀ (pcm : List (List String × List (List String))) (fuel : Nat)
        (m : List (List String × FileNode)) (path : List String)
        (node : FileNode) (mout : List (List String × FileNode)),
      (∀ pn ∈ m, (pn.2 : FileNode).children = []) →
      build_tree_recursive pcm fuel m path = some (node, mout) →
      levelsSortedB node = true) ∧
    (∀ l1 l2 : List FileNode, l1.Perm l2 →
      List.Pairwise (fun a b =>
        ¬(a.is_dir = b.is_dir ∧ toLowerL a.name = toLowerL b.name)) l1 →
      sortNodes l1 = sortNodes l2) :=
  ⟨fun pcm fuel m path node mout hm h =>
    (build_tree_levels_sorted fuel pcm m path node mout hm h).1,
   fun l1 l2 hp hd => sortNodes_canonical l1 l2 hp hd⟩

theorem claim_C4_scan_ordering_witness :
    levelsSortedB (FileNode.mk "r" ["r"] true
      [FileNode.mk "A" ["r", "A"] true [], FileNode.mk "a.txt" ["r", "a.txt"] false [],
        FileNode.mk "b.txt" ["r", "b.txt"] false []]) = true ∧
    sortNodes [FileNode.mk "a.txt" ["r", "a.txt"] false [], FileNode.mk "A" ["r", "A"] true []]
      = sortNodes [FileNode.mk "A" ["r", "A"] true [],
          FileNode.mk "a.txt" ["r", "a.txt"] false []] :=
  ⟨claim_C4_scan_ordering.1
      [(["r"], [["r", "b.txt"], ["r", "A"], ["r", "a.txt"]])] 4
      [(["r"], FileNode.mk "r" ["r"] true []),
        (["r", "b.txt"], FileNode.mk "b.txt" ["r", "b.txt"] false []),
        (["r", "A"], FileNode.mk "A" ["r", "A"] true []),
        (["r", "a.txt"], FileNode.mk "a.txt" ["r", "a.txt"] false [])]
      ["r"]
      (FileNode.mk "r" ["r"] true
        [FileNode.mk "A" ["r", "A"] true [], FileNode.mk "a.txt" ["r", "a.txt"] false [],
          FileNode.mk "b.txt" ["r", "b.txt"] false []])
      []
      (by intro pn hpn; fin_cases hpn <;> rfl)
      rfl,
   claim_C4_scan_ordering.2
     [FileNode.mk "a.txt" ["r", "a.txt"] false [], FileNode.mk "A" ["r", "A"] true []]
     [FileNode.mk "A" ["r", "A"] true [], FileNode.mk "a.txt" ["r", "a.txt"] false []]
     (List.Perm.swap (FileNode.mk "A" ["r", "A"] true [])
       (FileNode.mk "a.txt" ["r", "a.txt"] false []) [])
     (by decide)⟩

/-! ## `file_monitor.rs`: the debounce thread (claims C6, C7)

The debounce thread is the sole owner of its `debounce_map`; its behavior
is a fold over a single-threaded trace of operations: raw watcher events
(with the `Instant::now()` at receipt) and maturation sweeps (the
100ms-gated check, with its `now`).  Times are naturals (milliseconds);
`DEBOUNCE_DURATION` is 750. -/

/-- `EventType` from `file_monitor.rs`. -/
inductive EventType where
  | Modified
  | StructureChanged
deriving DecidableEq

/-- The `notify::EventKind` cases distinguished by
`extract_relevant_file_path`: modify, create, remove, and everything
else. -/
inductive EventKind where
  | Modify
  | Create
  | Remove
  | Other
deriving DecidableEq

/-- A raw `notify::Event`: a kind and a list of affected paths. -/
structure Event where
  kind : EventKind
  paths : List (List String)
deriving DecidableEq

/-- The `AppEvent` variants emitted by the monitor. -/
inductive AppEvent where
  | DirectoryContentChanged
  | FileModifiedDebounced (path : List String)
deriving DecidableEq

/-- `extract_relevant_file_path`: classify the kind (other kinds: `None`),
then take the event's first path. -/
def extract_relevant_file_path (event : Event) :
    Option (List String × EventType) :=
  match (match event.kind with
    | .Modify => some EventType.Modified
    | .Create => some EventType.StructureChanged
    | .Remove => some EventType.StructureChanged
    | .Other => none) with
  | none => none
  | some event_type => event.paths.head?.map (fun p => (p, event_type))

/-- The `debounce_map`: path to (timestamp, type), with unique keys. -/
abbrev DMap : Type := List (List String × (Nat × EventType))

/-- `HashMap::insert`: overwrite the entry for the key, keep other
entries. -/
def dmInsert : DMap → List String → Nat × EventType → DMap
  | [], p, v => [(p, v)]
  | (q, w) :: rest, p, v =>
    if q = p then (p, v) :: rest else (q, w) :: dmInsert rest p v

def dmLookup : DMap → List String → Option (Nat × EventType)
  | [], _ => none
  | (q, w) :: rest, p => if q = p then some w else dmLookup rest p

/-- The `retain` sweep: returns (kept map, `to_send` paths in map order,
`directory_content_changed` flag).  A pending entry matures when
`now - timestamp ≥ 750`. -/
def sweep : DMap → Nat → DMap × List (List String) × Bool
  | [], _ => ([], [], false)
  | (p, (ts, et)) :: rest, now =>
    let r := sweep rest now
    if 750 ≤ now - ts then
      match et with
      | .Modified => (r.1, p :: r.2.1, r.2.2)
      | .StructureChanged => (r.1, r.2.1, true)
    else ((p, (ts, et)) :: r.1, r.2.1, r.2.2)

/-- One operation seen by the debounce thread. -/
inductive DebounceOp where
  | raw (e : Event) (now : Nat)
  | tick (now : Nat)

/-- One step of the debounce loop: a raw event updates the map and emits
nothing; a sweep emits a single `DirectoryContentChanged` (if any matured
entry was structural) followed by one `FileModifiedDebounced` per matured
modified path. -/
def stepD (m : DMap) : DebounceOp → DMap × List AppEvent
  | .raw e now =>
    (match extract_relevant_file_path e with
      | none => m
      | some (p, et) => dmInsert m p (now, et), [])
  | .tick now =>
    let r := sweep m now
    (r.1, (if r.2.2 then [AppEvent.DirectoryContentChanged] else [])
      ++ r.2.1.map AppEvent.FileModifiedDebounced)

def runDebounce : DMap → List DebounceOp → DMap × List AppEvent
  | m, [] => (m, [])
  | m, op :: ops =>
    let s := stepD m op
    let r := runDebounce s.1 ops
    (r.1, s.2 ++ r.2)

/-- The times of the raw events relevant to path `p` in a trace. -/
def pTimes (p : List String) (ops : List DebounceOp) : List Nat :=
  ops.filterMap (fun op => match op with
    | .raw e now =>
      match extract_relevant_file_path e with
      | some (q, _) => if q = p then some now else none
      | none => none
    | .tick _ => none)

/-- A debounce window for path `p` (with `pend` the currently pending
`p`-timestamp): all raw events for `p` are modify events with nondecreasing
times, every sweep before maturity is premature, and the trace ends at the
first sweep at which the pending entry has matured. -/
def winB (p : List String) : Option Nat → List DebounceOp → Bool
  | _, [] => false
  | pend, .raw e now :: ops =>
    match extract_relevant_file_path e with
    | some (q, et) =>
      if q = p then
        (et == EventType.Modified) &&
          (match pend with | none => true | some t => t ≤ now) &&
          winB p (some now) ops
      else winB p pend ops
    | none => winB p pend ops
  | pend, .tick now :: ops =>
    match pend with
    | none => winB p none ops
    | some t => if 750 ≤ now - t then ops.isEmpty else winB p (some t) ops

theorem dmLookup_insert_self (m : DMap) (p : List String)
    (v : Nat × EventType) : dmLookup (dmInsert m p v) p = some v := by
  induction m with
  | nil =>
    show (if p = p then some v else none) = some v
    rw [if_pos rfl]
  | cons e rest ih =>
    obtain ⟨q, w⟩ := e
    show dmLookup (if q = p then (p, v) :: rest else (q, w) :: dmInsert rest p v) p
      = some v
    by_cases hq : q = p
    · rw [if_pos hq]
      show (if p = p then some v else dmLookup rest p) = some v
      rw [if_pos rfl]
    · rw [if_neg hq]
      show (if q = p then some w else dmLookup (dmInsert rest p v) p) = some v
      rw [if_neg hq]
      exact ih

theorem dmLookup_insert_ne (m : DMap) {p q : List String}
    (v : Nat × EventType) (h : q ≠ p) :
    dmLookup (dmInsert m p v) q = dmLookup m q := by
  induction m with
  | nil =>
    show (if p = q then some v else none) = none
    rw [if_neg (fun hc => h hc.symm)]
  | cons e rest ih =>
    obtain ⟨r, w⟩ := e
    show dmLookup (if r = p then (p, v) :: rest else (r, w) :: dmInsert rest p v) q
      = dmLookup ((r, w) :: rest) q
    by_cases hr : r = p
    · rw [if_pos hr]
      subst hr
      show (if r = q then some v else dmLookup rest q) =
        if r = q then some w else dmLookup rest q
      rw [if_neg (fun hc => h (hc.symm.trans rfl))]
      rw [if_neg (fun hc => h hc.symm)]
    · rw [if_neg hr]
      show (if r = q then some w else dmLookup (dmInsert rest p v) q) =
        if r = q then some w else dmLookup rest q
      by_cases hrq : r = q
      · rw [if_pos hrq, if_pos hrq]
      · rw [if_neg hrq, if_neg hrq]
        exact ih

theorem mem_keys_dmInsert {m : DMap} {p r : List String}
    {v : Nat × EventType} (h : r ∈ (dmInsert m p v).map Prod.fst) :
    r ∈ m.map Prod.fst ∨ r = p := by
  induction m with
  | nil =>
    simp [dmInsert] at h
    exact Or.inr h
  | cons e rest ih =>
    obtain ⟨q, w⟩ := e
    unfold dmInsert at h
    by_cases hq : q = p
    · rw [if_pos hq] at h
      simp only [List.map_cons, List.mem_cons] at h ⊢
      rcases h with h | h
      · exact Or.inr h
      · exact Or.inl (Or.inr h)
    · rw [if_neg hq] at h
      simp only [List.map_cons, List.mem_cons] at h ⊢
      rcases h with h | h
      · exact Or.inl (Or.inl h)
      · rcases ih h with h' | h'
        · exact Or.inl (Or.inr h')
        · exact Or.inr h'

theorem dmInsert_nodup {m : DMap} {p : List String} {v : Nat × EventType}
    (h : List.Nodup (m.map Prod.fst)) :
    List.Nodup ((dmInsert m p v).map Prod.fst) := by
  induction m with
  | nil => simp [dmInsert]
  | cons e rest ih =>
    obtain ⟨q, w⟩ := e
    simp only [List.map_cons, List.nodup_cons] at h
    unfold dmInsert
    by_cases hq : q = p
    · rw [if_pos hq]
      subst hq
      simp only [List.map_cons, List.nodup_cons]
      exact h
    · rw [if_neg hq]
      simp only [List.map_cons, List.nodup_cons]
      refine ⟨?_, ih h.2⟩
      intro hc
      rcases mem_keys_dmInsert hc with h' | h'
      · exact h.1 h'
      · exact hq h'

theorem dmLookup_eq_none_of_not_mem {m : DMap} {p : List String}
    (h : p ∉ m.map Prod.fst) : dmLookup m p = none := by
  induction m with
  | nil => rfl
  | cons e rest ih =>
    obtain ⟨q, w⟩ := e
    simp only [List.map_cons, List.mem_cons] at h
    show (if q = p then some w else dmLookup rest p) = none
    rw [if_neg (fun hc => h (Or.inl hc.symm))]
    exact ih (fun hc => h (Or.inr hc))

theorem sweep_cons (p : List String) (ts : Nat) (et : EventType) (rest : DMap)
    (now : Nat) :
    sweep ((p, (ts, et)) :: rest) now =
      if 750 ≤ now - ts then
        match et with
        | .Modified =>
          ((sweep rest now).1, p :: (sweep rest now).2.1, (sweep rest now).2.2)
        | .StructureChanged =>
          ((sweep rest now).1, (sweep rest now).2.1, true)
      else
        ((p, (ts, et)) :: (sweep rest now).1, (sweep rest now).2.1,
          (sweep rest now).2.2) := rfl

theorem sweep_kept_mem (now : Nat) : ∀ (m : DMap)
    (pv : List String × (Nat × EventType)),
    pv ∈ (sweep m now).1 ↔ pv ∈ m ∧ now - pv.2.1 < 750 := by
  intro m
  induction m with
  | nil =>
    intro pv
    simp [sweep]
  | cons e rest ih =>
    intro pv
    obtain ⟨q, ts, et⟩ := e
    rw [sweep_cons]
    by_cases hmat : 750 ≤ now - ts
    · rw [if_pos hmat]
      cases et with
      | Modified =>
        rw [ih pv]
        simp only [List.mem_cons]
        constructor
        · intro ⟨h1, h2⟩
          exact ⟨Or.inr h1, h2⟩
        · intro ⟨h1, h2⟩
          rcases h1 with rfl | h1
          · exact absurd hmat (by simp at h2 ⊢; omega)
          · exact ⟨h1, h2⟩
      | StructureChanged =>
        rw [ih pv]
        simp only [List.mem_cons]
        constructor
        · intro ⟨h1, h2⟩
          exact ⟨Or.inr h1, h2⟩
        · intro ⟨h1, h2⟩
          rcases h1 with rfl | h1
          · exact absurd hmat (by simp at h2 ⊢; omega)
          · exact ⟨h1, h2⟩
    · rw [if_neg hmat]
      simp only [List.mem_cons]
      constructor
      · intro h
        rcases h with rfl | h
        · exact ⟨Or.inl rfl, by simp; omega⟩
        · obtain ⟨h1, h2⟩ := (ih pv).mp h
          exact ⟨Or.inr h1, h2⟩
      · intro ⟨h1, h2⟩
        rcases h1 with rfl | h1
        · exact Or.inl rfl
        · exact Or.inr ((ih pv).mpr ⟨h1, h2⟩)

theorem sweep_sends_mem (now : Nat) : ∀ (m : DMap) (q : List String),
    q ∈ (sweep m now).2.1 ↔
      ∃ ts, (q, (ts, EventType.Modified)) ∈ m ∧ 750 ≤ now - ts := by
  intro m
  induction m with
  | nil =>
    intro q
    simp [sweep]
  | cons e rest ih =>
    intro q
    obtain ⟨r, ts, et⟩ := e
    rw [sweep_cons]
    by_cases hmat : 750 ≤ now - ts
    · rw [if_pos hmat]
      cases et with
      | Modified =>
        simp only [List.mem_cons]
        constructor
        · intro h
          rcases h with rfl | h
          · exact ⟨ts, Or.inl rfl, hmat⟩
          · obtain ⟨ts', h1, h2⟩ := (ih q).mp h
            exact ⟨ts', Or.inr h1, h2⟩
        · intro ⟨ts', h1, h2⟩
          rcases h1 with heq | h1
          · injection heq with hq _
            exact Or.inl hq
          · exact Or.inr ((ih q).mpr ⟨ts', h1, h2⟩)
      | StructureChanged =>
        rw [ih q]
        constructor
        · intro ⟨ts', h1, h2⟩
          exact ⟨ts', List.mem_cons_of_mem _ h1, h2⟩
        · intro ⟨ts', h1, h2⟩
          rcases List.mem_cons.mp h1 with heq | h1
          · injection heq with _ hv
            injection hv with _ hv2
            cases hv2
          · exact ⟨ts', h1, h2⟩
    · rw [if_neg hmat]
      rw [ih q]
      constructor
      · intro ⟨ts', h1, h2⟩
        exact ⟨ts', List.mem_cons_of_mem _ h1, h2⟩
      · intro ⟨ts', h1, h2⟩
        rcases List.mem_cons.mp h1 with heq | h1
        · injection heq with _ hv
          injection hv with hv1 _
          subst hv1
          exact absurd h2 hmat
        · exact ⟨ts', h1, h2⟩

theorem sweep_dcc_iff (now : Nat) : ∀ (m : DMap),
    (sweep m now).2.2 = true ↔
      ∃ q ts, (q, (ts, EventType.StructureChanged)) ∈ m ∧ 750 ≤ now - ts := by
  intro m
  induction m with
  | nil => simp [sweep]
  | cons e rest ih =>
    obtain ⟨r, ts, et⟩ := e
    rw [sweep_cons]
    by_cases hmat : 750 ≤ now - ts
    · rw [if_pos hmat]
      cases et with
      | Modified =>
        rw [ih]
        constructor
        · intro ⟨q, ts', h1, h2⟩
          exact ⟨q, ts', List.mem_cons_of_mem _ h1, h2⟩
        · intro ⟨q, ts', h1, h2⟩
          rcases List.mem_cons.mp h1 with heq | h1
          · injection heq with _ hv
            injection hv with _ hv2
            cases hv2
          · exact ⟨q, ts', h1, h2⟩
      | StructureChanged =>
        simp only [true_iff]
        exact ⟨r, ts, List.mem_cons_self _ _, hmat⟩
    · rw [if_neg hmat]
      rw [ih]
      constructor
      · intro ⟨q, ts', h1, h2⟩
        exact ⟨q, ts', List.mem_cons_of_mem _ h1, h2⟩
      · intro ⟨q, ts', h1, h2⟩
        rcases List.mem_cons.mp h1 with heq | h1
        · injection heq with _ hv
          injection hv with hv1 _
          subst hv1
          exact absurd h2 hmat
        · exact ⟨q, ts', h1, h2⟩

theorem sweep_kept_sublist (now : Nat) : ∀ (m : DMap),
    ((sweep m now).1).Sublist m := by
  intro m
  induction m with
  | nil => simp [sweep]
  | cons e rest ih =>
    obtain ⟨r, ts, et⟩ := e
    rw [sweep_cons]
    by_cases hmat : 750 ≤ now - ts
    · rw [if_pos hmat]
      cases et with
      | Modified => exact ih.cons _
      | StructureChanged => exact ih.cons _
    · rw [if_neg hmat]
      exact ih.cons₂ _

theorem sweep_kept_nodup {now : Nat} {m : DMap}
    (h : List.Nodup (m.map Prod.fst)) :
    List.Nodup (((sweep m now).1).map Prod.fst) :=
  ((sweep_kept_sublist now m).map Prod.fst).nodup h

theorem sweep_kept_lookup_eq (now : Nat) : ∀ (m : DMap) (p : List String),
    List.Nodup (m.map Prod.fst) →
    dmLookup (sweep m now).1 p =
      (match dmLookup m p with
        | none => none
        | some (t, et) => if 750 ≤ now - t then none else some (t, et)) := by
  intro m
  induction m with
  | nil =>
    intro p _
    simp [sweep, dmLookup]
  | cons e rest ih =>
    intro p hnd
    obtain ⟨q, ts, et⟩ := e
    simp only [List.map_cons, List.nodup_cons] at hnd
    have hnone : ∀ _ : q = p, dmLookup (sweep rest now).1 p = none := by
      intro hqp
      subst hqp
      refine dmLookup_eq_none_of_not_mem (fun hc => ?_)
      obtain ⟨pv, hpv, hfst⟩ := List.mem_map.mp hc
      have := (sweep_kept_mem now rest pv).mp hpv
      exact hnd.1 (List.mem_map.mpr ⟨pv, this.1, hfst⟩)
    rw [sweep_cons]
    by_cases hqp : q = p
    · subst hqp
      have hsel : dmLookup ((q, (ts, et)) :: rest) q = some (ts, et) := by
        unfold dmLookup
        rw [if_pos rfl]
      rw [hsel]
      by_cases hmat : 750 ≤ now - ts
      · rw [if_pos hmat]
        have hkept : dmLookup (match et with
            | EventType.Modified =>
              ((sweep rest now).1, q :: (sweep rest now).2.1, (sweep rest now).2.2)
            | EventType.StructureChanged =>
              ((sweep rest now).1, (sweep rest now).2.1, true)).1 q = none := by
          cases et with
          | Modified => exact hnone rfl
          | StructureChanged => exact hnone rfl
        rw [hkept]
        show none = if 750 ≤ now - ts then none else some (ts, et)
        rw [if_pos hmat]
      · rw [if_neg hmat]
        show (if q = q then some (ts, et) else dmLookup (sweep rest now).1 q) =
          if 750 ≤ now - ts then none else some (ts, et)
        rw [if_pos rfl, if_neg hmat]
    · have hsel : dmLookup ((q, (ts, et)) :: rest) p = dmLookup rest p := by
        show (if q = p then some (ts, et) else dmLookup rest p) = dmLookup rest p
        rw [if_neg hqp]
      rw [hsel]
      by_cases hmat : 750 ≤ now - ts
      · rw [if_pos hmat]
        have hkept : dmLookup (match et with
            | EventType.Modified =>
              ((sweep rest now).1, q :: (sweep rest now).2.1, (sweep rest now).2.2)
            | EventType.StructureChanged =>
              ((sweep rest now).1, (sweep rest now).2.1, true)).1 p =
            dmLookup (sweep rest now).1 p := by
          cases et with
          | Modified => rfl
          | StructureChanged => rfl
        rw [hkept, ih p hnd.2]
      · rw [if_neg hmat]
        show (if q = p then some (ts, et) else dmLookup (sweep rest now).1 p) =
          match dmLookup rest p with
          | none => none
          | some (t, et') => if 750 ≤ now - t then none else some (t, et')
        rw [if_neg hqp, ih p hnd.2]

theorem dmLookup_mem : ∀ {m : DMap} {p : List String} {v : Nat × EventType},
    dmLookup m p = some v → (p, v) ∈ m := by
  intro m
  induction m with
  | nil =>
    intro p v h
    simp [dmLookup] at h
  | cons e rest ih =>
    intro p v h
    obtain ⟨q, w⟩ := e
    unfold dmLookup at h
    by_cases hq : q = p
    · rw [if_pos hq] at h
      cases h
      subst hq
      exact List.mem_cons_self _ _
    · rw [if_neg hq] at h
      exact List.mem_cons_of_mem _ (ih h)

theorem dmLookup_of_mem_nodup : ∀ {m : DMap} {p : List String}
    {v : Nat × EventType}, List.Nodup (m.map Prod.fst) → (p, v) ∈ m →
    dmLookup m p = some v := by
  intro m
  induction m with
  | nil =>
    intro p v _ h
    simp at h
  | cons e rest ih =>
    intro p v hnd h
    obtain ⟨q, w⟩ := e
    simp only [List.map_cons, List.nodup_cons] at hnd
    rcases List.mem_cons.mp h with heq | hmem
    · injection heq with h1 h2
      subst h1
      subst h2
      unfold dmLookup
      rw [if_pos rfl]
    · have hqp : ¬ q = p := by
        intro hc
        subst hc
        exact hnd.1 (List.mem_map.mpr ⟨(q, v), hmem, rfl⟩)
      unfold dmLookup
      rw [if_neg hqp]
      exact ih hnd.2 hmem

theorem sweep_sends_sublist_keys (now : Nat) : ∀ (m : DMap),
    ((sweep m now).2.1).Sublist (m.map Prod.fst) := by
  intro m
  induction m with
  | nil => simp [sweep]
  | cons e rest ih =>
    obtain ⟨r, ts, et⟩ := e
    rw [sweep_cons]
    by_cases hmat : 750 ≤ now - ts
    · rw [if_pos hmat]
      cases et with
      | Modified => exact ih.cons₂ _
      | StructureChanged => exact ih.cons _
    · rw [if_neg hmat]
      exact ih.cons _

theorem sweep_sends_nodup {now : Nat} {m : DMap}
    (h : List.Nodup (m.map Prod.fst)) : ((sweep m now).2.1).Nodup :=
  (sweep_sends_sublist_keys now m).nodup h

theorem extract_eq (e : Event) :
    extract_relevant_file_path e =
      (match e.kind with
        | .Modify => e.paths.head?.map (fun p => (p, EventType.Modified))
        | .Create => e.paths.head?.map (fun p => (p, EventType.StructureChanged))
        | .Remove => e.paths.head?.map (fun p => (p, EventType.StructureChanged))
        | .Other => none) := by
  cases e with
  | mk k paths => cases k <;> rfl

/-- **C7**: a raw event emits nothing; modify kinds are recorded as
`Modified` and create/remove kinds as `StructureChanged` under the event's
first path, any other kind is ignored, and recording overwrites the prior
pending entry for that path (most recent classification wins).  A sweep
collapses all matured `StructureChanged` entries into at most one
`DirectoryContentChanged` (present exactly when such an entry matured),
emits one `FileModifiedDebounced q` per matured `Modified` entry for `q`,
and keeps exactly the unmatured entries. -/
theorem claim_C7_classification (e : Event) (m : DMap) (now : Nat)
    (p : List String) (v : Nat × EventType) :
    ((stepD m (.raw e now)).2 = [] ∧
      (e.kind = .Modify → (stepD m (.raw e now)).1 =
        (match e.paths.head? with
          | none => m
          | some q => dmInsert m q (now, EventType.Modified))) ∧
      ((e.kind = .Create ∨ e.kind = .Remove) → (stepD m (.raw e now)).1 =
        (match e.paths.head? with
          | none => m
          | some q => dmInsert m q (now, EventType.StructureChanged))) ∧
      (e.kind = .Other → (stepD m (.raw e now)).1 = m)) ∧
    dmLookup (dmInsert m p v) p = some v ∧
    ((AppEvent.DirectoryContentChanged ∈ (stepD m (.tick now)).2 ↔
        ∃ q ts, (q, (ts, EventType.StructureChanged)) ∈ m ∧ 750 ≤ now - ts) ∧
      (stepD m (.tick now)).2.count AppEvent.DirectoryContentChanged ≤ 1 ∧
      (∀ q, AppEvent.FileModifiedDebounced q ∈ (stepD m (.tick now)).2 ↔
        ∃ ts, (q, (ts, EventType.Modified)) ∈ m ∧ 750 ≤ now - ts) ∧
      (∀ pv, pv ∈ (stepD m (.tick now)).1 ↔ pv ∈ m ∧ now - pv.2.1 < 750)) := by
  have hstep1 : (stepD m (.raw e now)).1 =
      (match extract_relevant_file_path e with
        | none => m
        | some (p, et) => dmInsert m p (now, et)) := rfl
  have hout : (stepD m (.tick now)).2 =
      (if (sweep m now).2.2 then [AppEvent.DirectoryContentChanged] else [])
        ++ (sweep m now).2.1.map AppEvent.FileModifiedDebounced := rfl
  have hkept : (stepD m (.tick now)).1 = (sweep m now).1 := rfl
  refine ⟨⟨rfl, ?_, ?_, ?_⟩, dmLookup_insert_self m p v, ?_, ?_, ?_, ?_⟩
  · intro hk
    have hex := extract_eq e
    rw [hk] at hex
    dsimp only at hex
    rw [hstep1, hex]
    cases hp : e.paths.head? with
    | none => rfl
    | some q => rfl
  · intro hk
    have hex := extract_eq e
    rcases hk with hk | hk <;> rw [hk] at hex <;> dsimp only at hex <;>
      rw [hstep1, hex] <;>
      cases hp : e.paths.head? <;> rfl
  · intro hk
    have hex := extract_eq e
    rw [hk] at hex
    dsimp only at hex
    rw [hstep1, hex]
  · rw [hout]
    constructor
    · intro h
      rcases List.mem_append.mp h with h | h
      · by_cases hd : (sweep m now).2.2
        · exact (sweep_dcc_iff now m).mp hd
        · rw [if_neg hd] at h
          simp at h
      · obtain ⟨a, _, ha⟩ := List.mem_map.mp h
        cases ha
    · intro hex2
      have hd := (sweep_dcc_iff now m).mpr hex2
      apply List.mem_append.mpr
      left
      rw [hd, if_pos rfl]
      exact List.mem_singleton.mpr rfl
  · rw [hout, List.count_append]
    have h2 : ((sweep m now).2.1.map AppEvent.FileModifiedDebounced).count
        AppEvent.DirectoryContentChanged = 0 := by
      rw [List.count_eq_zero]
      intro hc
      obtain ⟨a, _, ha⟩ := List.mem_map.mp hc
      cases ha
    rw [h2, Nat.add_zero]
    by_cases hd : (sweep m now).2.2
    · rw [if_pos hd]
      simp
    · rw [if_neg hd]
      simp
  · intro q
    rw [hout]
    constructor
    · intro h
      rcases List.mem_append.mp h with h | h
      · exfalso
        by_cases hd : (sweep m now).2.2
        · rw [if_pos hd] at h
          cases List.mem_singleton.mp h
        · rw [if_neg hd] at h
          simp at h
      · obtain ⟨a, ham, ha⟩ := List.mem_map.mp h
        injection ha with haq
        subst haq
        exact (sweep_sends_mem now m a).mp ham
    · intro hex2
      apply List.mem_append.mpr
      right
      exact List.mem_map.mpr ⟨q, (sweep_sends_mem now m q).mpr hex2, rfl⟩
  · intro pv
    rw [hkept]
    exact sweep_kept_mem now m pv

theorem claim_C7_classification_witness :
    (stepD [(["a"], (0, EventType.Modified))] (.raw ⟨.Modify, [["b"]]⟩ 100)).1
      = dmInsert [(["a"], (0, EventType.Modified))] ["b"]
          (100, EventType.Modified) ∧
    AppEvent.FileModifiedDebounced ["a"] ∈
      (stepD [(["a"], (0, EventType.Modified))] (.tick 800)).2 :=
  ⟨((claim_C7_classification ⟨.Modify, [["b"]]⟩
      [(["a"], (0, EventType.Modified))] 100 ["a"]
      (0, EventType.Modified)).1).2.1 rfl,
   (((claim_C7_classification ⟨.Modify, [["b"]]⟩
      [(["a"], (0, EventType.Modified))] 800 ["a"]
      (0, EventType.Modified)).2.2).2.2.1 ["a"]).mpr
     ⟨0, List.mem_cons_self _ _, by decide⟩⟩

theorem runDebounce_cons (m : DMap) (op : DebounceOp) (ops : List DebounceOp) :
    runDebounce m (op :: ops) =
      ((runDebounce (stepD m op).1 ops).1,
        (stepD m op).2 ++ (runDebounce (stepD m op).1 ops).2) := rfl

theorem winB_raw (p : List String) (pend : Option Nat) (e : Event) (now : Nat)
    (ops : List DebounceOp) :
    winB p pend (.raw e now :: ops) =
      (match extract_relevant_file_path e with
        | some (q, et) =>
          if q = p then
            ((et == EventType.Modified) &&
              (match pend with | none => true | some t => t ≤ now) &&
              winB p (some now) ops)
          else winB p pend ops
        | none => winB p pend ops) := rfl

theorem winB_tick (p : List String) (pend : Option Nat) (now : Nat)
    (ops : List DebounceOp) :
    winB p pend (.tick now :: ops) =
      (match pend with
        | none => winB p none ops
        | some t => if 750 ≤ now - t then ops.isEmpty
                    else winB p (some t) ops) := rfl

theorem getLast?_cons_eq {α : Type} (a : α) {l : List α} {x : α}
    (h : l.getLast? = some x) : (a :: l).getLast? = some x := by
  cases l with
  | nil => simp at h
  | cons b t =>
    rw [List.getLast?_cons_cons]
    exact h

theorem runDebounce_nodup : ∀ (ops : List DebounceOp) (m : DMap),
    List.Nodup (m.map Prod.fst) →
    List.Nodup ((runDebounce m ops).1.map Prod.fst) := by
  intro ops
  induction ops with
  | nil =>
    intro m h
    exact h
  | cons op ops ih =>
    intro m h
    rw [runDebounce_cons]
    apply ih
    cases op with
    | raw e now =>
      show List.Nodup ((match extract_relevant_file_path e with
        | none => m
        | some (p, et) => dmInsert m p (now, et)).map Prod.fst)
      cases hex : extract_relevant_file_path e with
      | none => exact h
      | some pe =>
        obtain ⟨q, et⟩ := pe
        exact dmInsert_nodup h
    | tick now => exact sweep_kept_nodup h

/-- The per-path heart of the debounce property: under the window shape
`winB`, a run emits `FileModifiedDebounced p` exactly once, at the terminal
sweep, whose time is at least 750ms after every raw event for `p` (and
after the pending timestamp). -/
theorem win_run (p : List String) : ∀ (ops : List DebounceOp)
    (pend : Option Nat) (m : DMap),
    List.Nodup (m.map Prod.fst) →
    (pend = none → dmLookup m p = none) →
    (∀ t0, pend = some t0 → dmLookup m p = some (t0, EventType.Modified)) →
    winB p pend ops = true →
    (runDebounce m ops).2.count (AppEvent.FileModifiedDebounced p) = 1 ∧
    ∃ T, ops.getLast? = some (.tick T) ∧
      (∀ t ∈ pTimes p ops, t + 750 ≤ T) ∧
      (∀ t0, pend = some t0 → t0 + 750 ≤ T) := by
  intro ops
  induction ops with
  | nil =>
    intro pend m _ _ _ hw
    simp [winB] at hw
  | cons op ops ih =>
    intro pend m hnd hlookN hlookS hw
    cases op with
    | raw e now =>
      rw [winB_raw] at hw
      rw [runDebounce_cons]
      have hstep1 : (stepD m (.raw e now)).1 =
          (match extract_relevant_file_path e with
            | none => m
            | some (q, et) => dmInsert m q (now, et)) := rfl
      have hstep2 : (stepD m (.raw e now)).2 = [] := rfl
      cases hex : extract_relevant_file_path e with
      | none =>
        rw [hex] at hw
        have hm' : (stepD m (.raw e now)).1 = m := by rw [hstep1, hex]
        rw [hm']
        obtain ⟨hc, T, hlast, htimes, hpend⟩ := ih pend m hnd hlookN hlookS hw
        refine ⟨?_, T, getLast?_cons_eq _ hlast, ?_, hpend⟩
        · rw [hstep2, List.nil_append]
          exact hc
        · intro t ht
          apply htimes
          unfold pTimes at ht ⊢
          rw [List.filterMap_cons] at ht
          dsimp only at ht
          rw [hex] at ht
          dsimp only at ht
          exact ht
      | some qe =>
        obtain ⟨q, et⟩ := qe
        rw [hex] at hw
        dsimp only at hw
        by_cases hqp : q = p
        · subst hqp
          rw [if_pos rfl] at hw
          simp only [Bool.and_eq_true, beq_iff_eq] at hw
          obtain ⟨⟨het, hle⟩, hw'⟩ := hw
          subst het
          have hm' : (stepD m (.raw e now)).1 =
              dmInsert m q (now, EventType.Modified) := by
            rw [hstep1, hex]
          rw [hm']
          obtain ⟨hc, T, hlast, htimes, hpend⟩ := ih (some now)
            (dmInsert m q (now, EventType.Modified)) (dmInsert_nodup hnd)
            (fun h => Option.noConfusion h)
            (fun t0 ht0 => by
              injection ht0 with ht0
              subst ht0
              exact dmLookup_insert_self m q (now, EventType.Modified)) hw'
          refine ⟨?_, T, getLast?_cons_eq _ hlast, ?_, ?_⟩
          · rw [hstep2, List.nil_append]
            exact hc
          · intro t ht
            unfold pTimes at ht
            rw [List.filterMap_cons] at ht
            dsimp only at ht
            rw [hex] at ht
            dsimp only at ht
            rw [if_pos rfl] at ht
            rcases List.mem_cons.mp ht with rfl | ht'
            · exact hpend t rfl
            · exact htimes t ht'
          · intro t0 ht0
            subst ht0
            rw [decide_eq_true_eq] at hle
            have hnow := hpend now rfl
            omega
        · rw [if_neg hqp] at hw
          have hm' : (stepD m (.raw e now)).1 = dmInsert m q (now, et) := by
            rw [hstep1, hex]
          rw [hm']
          have hlz : dmLookup (dmInsert m q (now, et)) p = dmLookup m p :=
            dmLookup_insert_ne m (now, et) (fun hc => hqp hc.symm)
          obtain ⟨hc, T, hlast, htimes, hpend⟩ := ih pend
            (dmInsert m q (now, et)) (dmInsert_nodup hnd)
            (fun h => hlz.trans (hlookN h))
            (fun t0 ht0 => hlz.trans (hlookS t0 ht0)) hw
          refine ⟨?_, T, getLast?_cons_eq _ hlast, ?_, hpend⟩
          · rw [hstep2, List.nil_append]
            exact hc
          · intro t ht
            apply htimes
            unfold pTimes at ht ⊢
            rw [List.filterMap_cons] at ht
            dsimp only at ht
            rw [hex] at ht
            dsimp only at ht
            rw [if_neg hqp] at ht
            exact ht
    | tick now =>
      rw [winB_tick] at hw
      rw [runDebounce_cons]
      have hkept : (stepD m (.tick now)).1 = (sweep m now).1 := rfl
      have hout : (stepD m (.tick now)).2 =
          (if (sweep m now).2.2 then [AppEvent.DirectoryContentChanged] else [])
            ++ (sweep m now).2.1.map AppEvent.FileModifiedDebounced := rfl
      have hdcc0 : ((if (sweep m now).2.2 then
          [AppEvent.DirectoryContentChanged] else [])).count
            (AppEvent.FileModifiedDebounced p) = 0 := by
        by_cases hd : (sweep m now).2.2
        · rw [if_pos hd]
          simp
        · rw [if_neg hd]
          simp
      have hptimes : pTimes p (.tick now :: ops) = pTimes p ops := by
        unfold pTimes
        rw [List.filterMap_cons]
      cases pend with
      | none =>
        have hlook := hlookN rfl
        have hnotin : p ∉ (sweep m now).2.1 := by
          intro hc
          obtain ⟨ts, hmem, _⟩ := (sweep_sends_mem now m p).mp hc
          rw [dmLookup_of_mem_nodup hnd hmem] at hlook
          cases hlook
        have hsc : ((sweep m now).2.1.map
            AppEvent.FileModifiedDebounced).count
              (AppEvent.FileModifiedDebounced p) = 0 := by
          rw [List.count_eq_zero]
          intro hc
          obtain ⟨a, ham, ha⟩ := List.mem_map.mp hc
          injection ha with haq
          subst haq
          exact hnotin ham
        have hlook' : dmLookup (sweep m now).1 p = none := by
          rw [sweep_kept_lookup_eq now m p hnd, hlook]
        obtain ⟨hc, T, hlast, htimes, _⟩ := ih none (sweep m now).1
          (sweep_kept_nodup hnd) (fun _ => hlook')
          (fun t0 ht0 => Option.noConfusion ht0) hw
        rw [hkept]
        refine ⟨?_, T, getLast?_cons_eq _ hlast, ?_,
          fun t0 ht0 => Option.noConfusion ht0⟩
        · rw [hout, List.count_append, List.count_append, hdcc0, hsc, hc]
        · intro t ht
          rw [hptimes] at ht
          exact htimes t ht
      | some t0 =>
        have hlook := hlookS t0 rfl
        dsimp only at hw
        by_cases hmat : 750 ≤ now - t0
        · rw [if_pos hmat] at hw
          have hops : ops = [] := List.isEmpty_iff.mp hw
          subst hops
          have hmem : p ∈ (sweep m now).2.1 :=
            (sweep_sends_mem now m p).mpr ⟨t0, dmLookup_mem hlook, hmat⟩
          have hinj : Function.Injective AppEvent.FileModifiedDebounced := by
            intro a b hab
            injection hab
          have hsc : ((sweep m now).2.1.map
              AppEvent.FileModifiedDebounced).count
                (AppEvent.FileModifiedDebounced p) = 1 :=
            List.count_eq_one_of_mem ((sweep_sends_nodup hnd).map hinj)
              (List.mem_map.mpr ⟨p, hmem, rfl⟩)
          refine ⟨?_, now, by simp, ?_, ?_⟩
          · show ((stepD m (.tick now)).2 ++ (runDebounce _ []).2).count
              (AppEvent.FileModifiedDebounced p) = 1
            rw [show (runDebounce (stepD m (.tick now)).1 []).2 = [] from rfl,
              List.append_nil, hout, List.count_append, hdcc0, hsc]
          · intro t ht
            rw [hptimes] at ht
            simp [pTimes] at ht
          · intro t1 ht1
            injection ht1 with ht1
            subst ht1
            omega
        · rw [if_neg hmat] at hw
          have hnotin : p ∉ (sweep m now).2.1 := by
            intro hc
            obtain ⟨ts, hmem, hts⟩ := (sweep_sends_mem now m p).mp hc
            rw [dmLookup_of_mem_nodup hnd hmem] at hlook
            injection hlook with hv
            injection hv with hts' _
            subst hts'
            exact hmat hts
          have hsc : ((sweep m now).2.1.map
              AppEvent.FileModifiedDebounced).count
                (AppEvent.FileModifiedDebounced p) = 0 := by
            rw [List.count_eq_zero]
            intro hc
            obtain ⟨a, ham, ha⟩ := List.mem_map.mp hc
            injection ha with haq
            subst haq
            exact hnotin ham
          have hlook' : dmLookup (sweep m now).1 p
              = some (t0, EventType.Modified) := by
            rw [sweep_kept_lookup_eq now m p hnd, hlook]
            show (if 750 ≤ now - t0 then none else some (t0, EventType.Modified))
              = _
            rw [if_neg hmat]
          obtain ⟨hc, T, hlast, htimes, hpend⟩ := ih (some t0) (sweep m now).1
            (sweep_kept_nodup hnd) (fun h => Option.noConfusion h)
            (fun t1 ht1 => by
              injection ht1 with ht1
              subst ht1
              exact hlook') hw
          rw [hkept]
          refine ⟨?_, T, getLast?_cons_eq _ hlast, ?_, hpend⟩
          · rw [hout, List.count_append, List.count_append, hdcc0, hsc, hc]
          · intro t ht
            rw [hptimes] at ht
            exact htimes t ht

/-- **C6**: starting with no pending entry for `p` (with unique keys), any
debounce window for `p` — `N ≥ 1` raw modify events with nondecreasing
times, premature sweeps in between, ending at the first sweep at least
750ms after the last raw event — produces exactly one
`FileModifiedDebounced p` notification, emitted at the terminal sweep,
whose time is at least 750ms after every raw event for `p`; and the
debounce map keeps at most one pending entry per path throughout (unique
keys are preserved by every run). -/
theorem claim_C6_debounce_coalescing (p : List String)
    (ops : List DebounceOp) (m : DMap)
    (hnd : List.Nodup (m.map Prod.fst))
    (hnone : dmLookup m p = none)
    (hwin : winB p none ops = true) :
    ((runDebounce m ops).2.count (AppEvent.FileModifiedDebounced p) = 1 ∧
      ∃ T, ops.getLast? = some (.tick T) ∧
        ∀ t ∈ pTimes p ops, t + 750 ≤ T) ∧
    List.Nodup ((runDebounce m ops).1.map Prod.fst) := by
  obtain ⟨hc, T, hlast, htimes, _⟩ := win_run p ops none m hnd
    (fun _ => hnone) (fun t0 ht0 => Option.noConfusion ht0) hwin
  exact ⟨⟨hc, T, hlast, htimes⟩, runDebounce_nodup ops m hnd⟩

theorem claim_C6_debounce_coalescing_witness :
    ((runDebounce [] [DebounceOp.raw ⟨.Modify, [["f"]]⟩ 0,
        .raw ⟨.Modify, [["f"]]⟩ 100, .tick 400, .tick 900]).2.count
        (AppEvent.FileModifiedDebounced ["f"]) = 1 ∧
      ∃ T, ([DebounceOp.raw ⟨.Modify, [["f"]]⟩ 0,
        .raw ⟨.Modify, [["f"]]⟩ 100, .tick 400, .tick 900] :
          List DebounceOp).getLast? = some (.tick T) ∧
        ∀ t ∈ pTimes ["f"] [DebounceOp.raw ⟨.Modify, [["f"]]⟩ 0,
          .raw ⟨.Modify, [["f"]]⟩ 100, .tick 400, .tick 900],
          t + 750 ≤ T) ∧
    List.Nodup (((runDebounce [] [DebounceOp.raw ⟨.Modify, [["f"]]⟩ 0,
      .raw ⟨.Modify, [["f"]]⟩ 100, .tick 400, .tick 900]).1).map Prod.fst) :=
  claim_C6_debounce_coalescing ["f"] [DebounceOp.raw ⟨.Modify, [["f"]]⟩ 0,
    .raw ⟨.Modify, [["f"]]⟩ 100, .tick 400, .tick 900] []
    (by simp) rfl (by decide)

end ContextManager
